import Mathlib

/-!
Verification of parts of sling: the Myelin expression generators, string
stripping, the Wikipedia-to-Wikidata map, the Wikidata timestamp conversion, the
stream buffer, the number annotator and the span chart.

The first part is a shallow embedding of the three expression generators under
`src/myelin/generator/` (`scalar-flt-sse.cc`, `scalar-flt-avx.cc`,
`vector-flt-sse.cc`).  A generator lowers one `Express::Op` at a time by calling
emission methods on a `MacroAssembler`; here the assembler is the list of
instructions emitted so far (plus the data blocks created), and a fatal abort
(`UNSUPPORTED`, a failed `CHECK`) is a result that keeps the assembler state
reached at the abort.
-/

namespace Myelin

/-! ## Data model -/

/-- Modelled from the spec: the kind tag of a micro-operation (`Express::OpType`,
declared in a header that is not under src/).  The kinds are the ones the spec
lists in its data model; the names are the ones the generators switch on. -/
inductive OpType
  | MOV | ADD | SUB | MUL | DIV | MIN | MAX | RELU
  | MULADD132 | MULADD213 | MULADD231
  | MULSUB132 | MULSUB213 | MULSUB231
  | CMPEQOQ | CMPLTOQ | CMPGTOQ | CMPNGEUQ
  | AND | OR | ANDNOT
  | SHR23 | SHL23
  | FLOOR | CVTFLTINT | CVTINTFLT | SUBINT
  deriving DecidableEq, Repr

/-- Modelled from the spec: the element type of a generator invocation (`type_`).
The generators treat `DT_FLOAT` and `DT_DOUBLE` and send every other type to the
`default:` arm of their switches. -/
inductive DataType
  | DT_FLOAT | DT_DOUBLE | DT_INT8 | DT_INT16 | DT_INT32 | DT_INT64
  deriving DecidableEq, Repr

/-- CPU features the generators query through `CPU::Enabled`. -/
inductive CpuFeature
  | SSE2 | SSE4_1 | FMA3
  deriving DecidableEq, Repr

/-- The detected CPU feature set (the global the generators read). -/
structure CPU where
  sse2 : Bool
  sse4_1 : Bool
  fma3 : Bool
  deriving DecidableEq, Repr

/-- `CPU::Enabled(feature)`. -/
def CPU.Enabled (cpu : CPU) : CpuFeature → Bool
  | .SSE2 => cpu.sse2
  | .SSE4_1 => cpu.sse4_1
  | .FMA3 => cpu.fma3

/-- Modelled from the spec: an operand descriptor of a micro-operation, "either a
register reference or a memory/constant-pool reference"; a constant records
whether it is statically known to be all-zero bits. -/
inductive Var
  | register (r : Int)
  | memory (id : Nat)
  | constant (id : Nat) (zero : Bool)
  deriving DecidableEq, Repr

/-- Modelled from the spec: a micro-operation (`Express::Op`).  `dst`, `src` and
`src2` are register indices with the sentinel `-1` for "none"; `args` is the list
of operand descriptors and `result` the descriptor of the value produced. -/
structure Op where
  type : OpType
  dst : Int
  src : Int
  src2 : Int
  args : List Var
  result : Var
  deriving DecidableEq, Repr

/-- Modelled from the spec: `IsClear(instr)`, a helper that is not under src/: the
operation is a MOVE whose source is a compile-time-known all-zero value. -/
def IsClear (instr : Op) : Bool :=
  instr.type == OpType.MOV &&
    (match instr.args.head? with
     | some (Var.constant _ true) => true
     | _ => false)

/-- The capability model `model_` (`Express::Model`): one boolean per
operand-shape pattern.  The fields are the flags the three constructors assign. -/
structure Model where
  mov_reg_reg : Bool
  mov_reg_imm : Bool
  mov_reg_mem : Bool
  mov_mem_reg : Bool
  op_reg_reg : Bool
  op_reg_imm : Bool
  op_reg_mem : Bool
  op_reg_reg_reg : Bool
  op_reg_reg_mem : Bool
  func_reg_reg : Bool
  func_reg_imm : Bool
  func_reg_mem : Bool
  fm_reg_reg_reg : Bool
  fm_reg_reg_mem : Bool
  deriving DecidableEq, Repr

/-- Modelled from the spec: the state of `model_` before a constructor body runs;
the flags are "set once at generator construction", so all start unset. -/
def Model.empty : Model :=
  { mov_reg_reg := false, mov_reg_imm := false, mov_reg_mem := false,
    mov_mem_reg := false, op_reg_reg := false, op_reg_imm := false,
    op_reg_mem := false, op_reg_reg_reg := false, op_reg_reg_mem := false,
    func_reg_reg := false, func_reg_imm := false, func_reg_mem := false,
    fm_reg_reg_reg := false, fm_reg_reg_mem := false }

/-- The flags of a capability model, in declaration order. -/
def Model.flags (m : Model) : List Bool :=
  [m.mov_reg_reg, m.mov_reg_imm, m.mov_reg_mem, m.mov_mem_reg,
   m.op_reg_reg, m.op_reg_imm, m.op_reg_mem, m.op_reg_reg_reg, m.op_reg_reg_mem,
   m.func_reg_reg, m.func_reg_imm, m.func_reg_mem,
   m.fm_reg_reg_reg, m.fm_reg_reg_mem]

/-! ## The assembler -/

/-- The `Assembler` methods the generators call, plus the control-transfer
instructions of the same assembler (which no generator calls). -/
inductive Mnemonic
  | movss | movsd | movaps | movapd
  | addss | addsd | subss | subsd | mulss | mulsd | divss | divsd
  | minss | minsd | maxss | maxsd
  | xorps | xorpd
  | vaddss | vaddsd | vsubss | vsubsd | vmulss | vmulsd | vdivss | vdivsd
  | vminss | vminsd | vmaxss | vmaxsd | vpxor
  | vfmadd132ss | vfmadd132sd | vfmadd213ss | vfmadd213sd
  | vfmadd231ss | vfmadd231sd
  | vfmsub132ss | vfmsub132sd | vfmsub213ss | vfmsub213sd
  | vfmsub231ss | vfmsub231sd
  | addps | addpd | subps | subpd | mulps | mulpd | divps | divpd
  | minps | minpd | maxps | maxpd
  | cmpps | cmppd | andps | andpd | orps | orpd | andnps | andnpd
  | pslld | psrld | psllq | psrlq
  | roundps | roundpd
  | cvttps2dq | cvttpd2dq | cvtdq2ps | cvtdq2pd
  | psubd | psubq
  | jmp | j | call | ret
  deriving DecidableEq, Repr

/-- An operand handed to an assembler method. -/
inductive Operand
  /-- The register `xmm(idx)`. -/
  | xmm (idx : Int)
  /-- The memory operand `addr(instr->args[i])`; `none` when index `i` is past
  the end of the argument list. -/
  | addr (arg : Option Var)
  /-- The memory operand `data->address()` of data block number `block`. -/
  | data (block : Nat)
  /-- An immediate. -/
  | imm (value : Int)
  deriving DecidableEq, Repr

/-- One emitted instruction: the assembler method and its arguments in call
order. -/
structure Instr where
  op : Mnemonic
  operands : List Operand
  deriving DecidableEq, Repr

/-- A data block made by `CreateDataBlock(size)`, with the items added to it (raw
bit patterns). -/
structure DataBlock where
  size : Nat
  items : List Nat
  deriving DecidableEq, Repr

/-- The macro assembler: the instructions emitted so far and the data blocks
created so far. -/
structure MacroAssembler where
  code : List Instr
  data : List DataBlock
  deriving DecidableEq, Repr

/-- Why code generation aborted. -/
inductive Failure
  /-- `UNSUPPORTED`. -/
  | unsupported
  /-- A failed `CHECK(...)`. -/
  | check
  deriving DecidableEq, Repr

/-- Outcome of a piece of code generation: it either returns with the assembler
in some state, or aborts the process; an abort keeps the assembler state that was
reached when it happened. -/
inductive Result
  | ok (masm : MacroAssembler)
  | fatal (why : Failure) (masm : MacroAssembler)
  deriving DecidableEq, Repr

/-- The assembler state carried by an outcome. -/
def Result.masm : Result → MacroAssembler
  | .ok m => m
  | .fatal _ m => m

/-- Whether the outcome is a normal return. -/
def Result.succeeded : Result → Bool
  | .ok _ => true
  | .fatal _ _ => false

/-- Sequencing of statements: the continuation runs only after a normal return. -/
def Result.andThen (r : Result) (k : MacroAssembler → Result) : Result :=
  match r with
  | .ok m => k m
  | .fatal why m => .fatal why m

/-- A call `masm->op(operands...)`: append one instruction. -/
def emit (masm : MacroAssembler) (op : Mnemonic) (operands : List Operand) :
    MacroAssembler :=
  { masm with code := masm.code ++ [⟨op, operands⟩] }

/-- Modelled from the spec: the `UNSUPPORTED` macro (its definition is not under
src/): a fatal, unrecoverable failure that aborts compilation of the cell. -/
def UNSUPPORTED (masm : MacroAssembler) : Result :=
  .fatal .unsupported masm

/-- `xmm(idx)`: the XMM register assigned to register index `idx`. -/
def xmm (idx : Int) : Operand := .xmm idx

/-- `addr(instr->args[i])`. -/
def addrArg (instr : Op) (i : Nat) : Operand := .addr (instr.args.get? i)

/-- `addr(instr->result)`. -/
def addrResult (instr : Op) : Operand := .addr (some instr.result)

/-- Modelled from the spec: the assembler constant `kRoundDown` (declared outside
src/), the rounding-mode immediate for rounding towards minus infinity. -/
def kRoundDown : Int := 1

/-- Control-transfer instructions. -/
def Mnemonic.isBranch : Mnemonic → Bool
  | .jmp | .j | .call | .ret => true
  | _ => false

/-! ## The generator base class -/

/-- What a generator reads while lowering: the element type `type_` of the
invocation, the CPU feature set behind `CPU::Enabled`, and `argnum`, the index of
the argument that the shared helpers of the base class address when the source
of an operation is memory-resident.  Those helpers are not under src/ and the
spec does not fix that index, so it is left open: every result below holds for
every choice of it. -/
structure ExpressionGenerator where
  type_ : DataType
  cpu : CPU
  argnum : Op → Nat

/-- Modelled from the spec: `GenerateXMMScalarFltMove` of the base class (not under
src/): the scalar move in its register←register, register←memory and
memory←register shapes (the `mov_*` capabilities both scalar generators
declare); any other shape or element type is unsupported. -/
def ExpressionGenerator.GenerateXMMScalarFltMove (self : ExpressionGenerator)
    (instr : Op) (masm : MacroAssembler) : Result :=
  if instr.dst != -1 && instr.src != -1 then
    match self.type_ with
    | .DT_FLOAT => .ok (emit masm .movss [xmm instr.dst, xmm instr.src])
    | .DT_DOUBLE => .ok (emit masm .movsd [xmm instr.dst, xmm instr.src])
    | _ => UNSUPPORTED masm
  else if instr.dst != -1 && instr.src == -1 then
    match self.type_ with
    | .DT_FLOAT => .ok (emit masm .movss [xmm instr.dst, addrArg instr 0])
    | .DT_DOUBLE => .ok (emit masm .movsd [xmm instr.dst, addrArg instr 0])
    | _ => UNSUPPORTED masm
  else if instr.dst == -1 && instr.src != -1 then
    match self.type_ with
    | .DT_FLOAT => .ok (emit masm .movss [addrResult instr, xmm instr.src])
    | .DT_DOUBLE => .ok (emit masm .movsd [addrResult instr, xmm instr.src])
    | _ => UNSUPPORTED masm
  else
    UNSUPPORTED masm

/-- Modelled from the spec: `GenerateXMMVectorMove` of the base class (not under
src/): the full-register move in its register←register, register←memory and
memory←register shapes.  The instructions are the ones `GenerateShift` uses for
the same move: `movapd` between registers, `movaps`/`movapd` by element type
against memory. -/
def ExpressionGenerator.GenerateXMMVectorMove (self : ExpressionGenerator)
    (instr : Op) (masm : MacroAssembler) : Result :=
  if instr.dst != -1 && instr.src != -1 then
    .ok (emit masm .movapd [xmm instr.dst, xmm instr.src])
  else if instr.dst != -1 && instr.src == -1 then
    match self.type_ with
    | .DT_FLOAT => .ok (emit masm .movaps [xmm instr.dst, addrArg instr 0])
    | .DT_DOUBLE => .ok (emit masm .movapd [xmm instr.dst, addrArg instr 0])
    | _ => UNSUPPORTED masm
  else if instr.dst == -1 && instr.src != -1 then
    match self.type_ with
    | .DT_FLOAT => .ok (emit masm .movaps [addrResult instr, xmm instr.src])
    | .DT_DOUBLE => .ok (emit masm .movapd [addrResult instr, xmm instr.src])
    | _ => UNSUPPORTED masm
  else
    UNSUPPORTED masm

/-- Modelled from the spec: `GenerateXMMFltOp` of the base class (not under src/)
for two-operand instructions, called as
`GenerateXMMFltOp(instr, fltopreg, dblopreg, fltopmem, dblopmem, masm)`: one
instruction `op dst, src` picked by element type, against the source register
or, when the source is memory-resident, against the memory operand; a missing
destination or another element type is unsupported. -/
def ExpressionGenerator.GenerateXMMFltOp (self : ExpressionGenerator) (instr : Op)
    (fltopreg dblopreg fltopmem dblopmem : Mnemonic) (masm : MacroAssembler) :
    Result :=
  if instr.dst != -1 && instr.src != -1 then
    match self.type_ with
    | .DT_FLOAT => .ok (emit masm fltopreg [xmm instr.dst, xmm instr.src])
    | .DT_DOUBLE => .ok (emit masm dblopreg [xmm instr.dst, xmm instr.src])
    | _ => UNSUPPORTED masm
  else if instr.dst != -1 && instr.src == -1 then
    match self.type_ with
    | .DT_FLOAT =>
      .ok (emit masm fltopmem [xmm instr.dst, addrArg instr (self.argnum instr)])
    | .DT_DOUBLE =>
      .ok (emit masm dblopmem [xmm instr.dst, addrArg instr (self.argnum instr)])
    | _ => UNSUPPORTED masm
  else
    UNSUPPORTED masm

/-- Modelled from the spec: the overload of `GenerateXMMFltOp` (not under src/) for
two-operand instructions that also take an immediate, called as
`GenerateXMMFltOp(instr, fltopreg, dblopreg, fltopmem, dblopmem, imm, masm)`:
as the two-operand helper, with `imm` passed on as the last operand. -/
def ExpressionGenerator.GenerateXMMFltOpImm (self : ExpressionGenerator) (instr : Op)
    (fltopreg dblopreg fltopmem dblopmem : Mnemonic) (imm : Int)
    (masm : MacroAssembler) : Result :=
  if instr.dst != -1 && instr.src != -1 then
    match self.type_ with
    | .DT_FLOAT =>
      .ok (emit masm fltopreg [xmm instr.dst, xmm instr.src, .imm imm])
    | .DT_DOUBLE =>
      .ok (emit masm dblopreg [xmm instr.dst, xmm instr.src, .imm imm])
    | _ => UNSUPPORTED masm
  else if instr.dst != -1 && instr.src == -1 then
    match self.type_ with
    | .DT_FLOAT =>
      .ok (emit masm fltopmem
        [xmm instr.dst, addrArg instr (self.argnum instr), .imm imm])
    | .DT_DOUBLE =>
      .ok (emit masm dblopmem
        [xmm instr.dst, addrArg instr (self.argnum instr), .imm imm])
    | _ => UNSUPPORTED masm
  else
    UNSUPPORTED masm

/-- Modelled from the spec: the overload of `GenerateXMMFltOp` (not under src/) for
three-operand (AVX) instructions: one instruction `op dst, src, src2` picked by
element type, with the last operand read from memory when the second source is
memory-resident (the `op_reg_reg_reg` and `op_reg_reg_mem` shapes); anything
else is unsupported. -/
def ExpressionGenerator.GenerateXMMFltOp3 (self : ExpressionGenerator) (instr : Op)
    (fltopreg dblopreg fltopmem dblopmem : Mnemonic) (masm : MacroAssembler) :
    Result :=
  if instr.dst != -1 && instr.src != -1 && instr.src2 != -1 then
    match self.type_ with
    | .DT_FLOAT =>
      .ok (emit masm fltopreg [xmm instr.dst, xmm instr.src, xmm instr.src2])
    | .DT_DOUBLE =>
      .ok (emit masm dblopreg [xmm instr.dst, xmm instr.src, xmm instr.src2])
    | _ => UNSUPPORTED masm
  else if instr.dst != -1 && instr.src != -1 && instr.src2 == -1 then
    match self.type_ with
    | .DT_FLOAT =>
      .ok (emit masm fltopmem
        [xmm instr.dst, xmm instr.src, addrArg instr (self.argnum instr)])
    | .DT_DOUBLE =>
      .ok (emit masm dblopmem
        [xmm instr.dst, xmm instr.src, addrArg instr (self.argnum instr)])
    | _ => UNSUPPORTED masm
  else
    UNSUPPORTED masm

/-! ## ScalarFltSSEGenerator (`scalar-flt-sse.cc`) -/

namespace ScalarFltSSEGenerator

/-- The constructor: the capability flags it sets in `model_`. -/
def model : Model :=
  { Model.empty with
    mov_reg_reg := true, mov_reg_imm := true, mov_reg_mem := true,
    mov_mem_reg := true, op_reg_reg := true, op_reg_mem := true,
    func_reg_reg := true, func_reg_mem := true }

/-- `Name()`. -/
def Name : String := "ScalarFltSSE"

/-- `GenerateRelu`: "Generate relu(x) = max(0,x)". -/
def GenerateRelu (self : ExpressionGenerator) (instr : Op)
    (masm : MacroAssembler) : Result :=
  (match self.type_ with
   | .DT_FLOAT => Result.ok (emit masm .xorps [xmm instr.dst, xmm instr.dst])
   | .DT_DOUBLE =>
     if self.cpu.Enabled .SSE2 then
       Result.ok (emit masm .xorpd [xmm instr.dst, xmm instr.dst])
     else
       Result.ok (emit masm .xorps [xmm instr.dst, xmm instr.dst])
   | _ => UNSUPPORTED masm).andThen fun masm =>
  self.GenerateXMMFltOp instr .maxss .maxsd .maxss .maxsd masm

/-- `Generate`: the dispatch on the operation kind. -/
def Generate (self : ExpressionGenerator) (instr : Op)
    (masm : MacroAssembler) : Result :=
  match instr.type with
  | .MOV => self.GenerateXMMScalarFltMove instr masm
  | .ADD => self.GenerateXMMFltOp instr .addss .addsd .addss .addsd masm
  | .SUB => self.GenerateXMMFltOp instr .subss .subsd .subss .subsd masm
  | .MUL => self.GenerateXMMFltOp instr .mulss .mulsd .mulss .mulsd masm
  | .DIV => self.GenerateXMMFltOp instr .divss .divsd .divss .divsd masm
  | .MIN => self.GenerateXMMFltOp instr .minss .minsd .minss .minsd masm
  | .MAX => self.GenerateXMMFltOp instr .maxss .maxsd .maxss .maxsd masm
  | .RELU => GenerateRelu self instr masm
  | _ => UNSUPPORTED masm

end ScalarFltSSEGenerator

/-! ## ScalarFltAVXGenerator (`scalar-flt-avx.cc`) -/

namespace ScalarFltAVXGenerator

/-- The constructor: the capability flags it sets in `model_`; the two
fused-multiply flags only when `CPU::Enabled(FMA3)`. -/
def model (cpu : CPU) : Model :=
  let m : Model :=
    { Model.empty with
      mov_reg_reg := true, mov_reg_imm := true, mov_reg_mem := true,
      mov_mem_reg := true, op_reg_reg_reg := true, op_reg_reg_mem := true,
      func_reg_reg := true, func_reg_mem := true }
  if cpu.Enabled .FMA3 then
    { m with fm_reg_reg_reg := true, fm_reg_reg_mem := true }
  else m

/-- `Name()`. -/
def Name : String := "ScalarFltAVX"

/-- `GenerateRelu`: "Generate relu(x) = max(0,x)". -/
def GenerateRelu (self : ExpressionGenerator) (instr : Op)
    (masm : MacroAssembler) : Result :=
  let masm := emit masm .vpxor [xmm instr.dst, xmm instr.dst, xmm instr.dst]
  match self.type_ with
  | .DT_FLOAT =>
    if instr.dst != -1 && instr.src != -1 then
      .ok (emit masm .vmaxss [xmm instr.dst, xmm instr.dst, xmm instr.src])
    else if instr.dst != -1 && instr.src == -1 then
      .ok (emit masm .vmaxss [xmm instr.dst, xmm instr.dst, addrArg instr 1])
    else
      UNSUPPORTED masm
  | .DT_DOUBLE =>
    if instr.dst != -1 && instr.src != -1 then
      .ok (emit masm .vmaxsd [xmm instr.dst, xmm instr.dst, xmm instr.src])
    else if instr.dst != -1 && instr.src == -1 then
      .ok (emit masm .vmaxsd [xmm instr.dst, xmm instr.dst, addrArg instr 1])
    else
      UNSUPPORTED masm
  | _ => UNSUPPORTED masm

/-- `Generate`: the dispatch on the operation kind. -/
def Generate (self : ExpressionGenerator) (instr : Op)
    (masm : MacroAssembler) : Result :=
  match instr.type with
  | .MOV => self.GenerateXMMScalarFltMove instr masm
  | .ADD => self.GenerateXMMFltOp3 instr .vaddss .vaddsd .vaddss .vaddsd masm
  | .SUB => self.GenerateXMMFltOp3 instr .vsubss .vsubsd .vsubss .vsubsd masm
  | .MUL => self.GenerateXMMFltOp3 instr .vmulss .vmulsd .vmulss .vmulsd masm
  | .DIV => self.GenerateXMMFltOp3 instr .vdivss .vdivsd .vdivss .vdivsd masm
  | .MIN => self.GenerateXMMFltOp3 instr .vminss .vminsd .vminss .vminsd masm
  | .MAX => self.GenerateXMMFltOp3 instr .vmaxss .vmaxsd .vmaxss .vmaxsd masm
  | .RELU => GenerateRelu self instr masm
  | .MULADD132 =>
    self.GenerateXMMFltOp3 instr .vfmadd132ss .vfmadd132sd .vfmadd132ss .vfmadd132sd masm
  | .MULADD213 =>
    self.GenerateXMMFltOp3 instr .vfmadd213ss .vfmadd213sd .vfmadd213ss .vfmadd213sd masm
  | .MULADD231 =>
    self.GenerateXMMFltOp3 instr .vfmadd231ss .vfmadd231sd .vfmadd231ss .vfmadd231sd masm
  | .MULSUB132 =>
    self.GenerateXMMFltOp3 instr .vfmsub132ss .vfmsub132sd .vfmsub132ss .vfmsub132sd masm
  | .MULSUB213 =>
    self.GenerateXMMFltOp3 instr .vfmsub213ss .vfmsub213sd .vfmsub213ss .vfmsub213sd masm
  | .MULSUB231 =>
    self.GenerateXMMFltOp3 instr .vfmsub231ss .vfmsub231sd .vfmsub231ss .vfmsub231sd masm
  | _ => UNSUPPORTED masm

end ScalarFltAVXGenerator

/-! ## VectorFltSSEGenerator (`vector-flt-sse.cc`) -/

namespace VectorFltSSEGenerator

/-- The constructor: the capability flags it sets in `model_`. -/
def model : Model :=
  { Model.empty with
    mov_reg_reg := true, mov_reg_imm := true, mov_reg_mem := true,
    mov_mem_reg := true, op_reg_reg := true, op_reg_imm := true,
    op_reg_mem := true, func_reg_reg := true, func_reg_imm := true,
    func_reg_mem := true }

/-- `Name()`. -/
def Name : String := "VectorFltSSE"

/-- `GenerateRelu`: "Generate relu".  Without SSE2 the zero is loaded from a
fresh data block holding one `float` zero. -/
def GenerateRelu (self : ExpressionGenerator) (instr : Op)
    (masm : MacroAssembler) : Result :=
  (if self.cpu.Enabled .SSE2 then
     match self.type_ with
     | .DT_FLOAT => Result.ok (emit masm .xorps [xmm instr.dst, xmm instr.dst])
     | .DT_DOUBLE => Result.ok (emit masm .xorpd [xmm instr.dst, xmm instr.dst])
     | _ => UNSUPPORTED masm
   else if self.type_ == .DT_FLOAT then
     let data := masm.data.length
     let masm := { masm with data := masm.data ++ [⟨4, [0]⟩] }
     Result.ok (emit masm .movss [xmm instr.dst, .data data])
   else
     UNSUPPORTED masm).andThen fun masm =>
  self.GenerateXMMFltOp instr .maxps .maxpd .maxps .maxpd masm

/-- `GenerateShift`: "Generate left/right shift". -/
def GenerateShift (self : ExpressionGenerator) (instr : Op)
    (masm : MacroAssembler) (left : Bool) (bits : Int) : Result :=
  if instr.dst != -1 then
    (if instr.src != -1 then
       Result.ok (emit masm .movapd [xmm instr.dst, xmm instr.src])
     else
       match self.type_ with
       | .DT_FLOAT => Result.ok (emit masm .movaps [xmm instr.dst, addrArg instr 0])
       | .DT_DOUBLE => Result.ok (emit masm .movapd [xmm instr.dst, addrArg instr 0])
       | _ => UNSUPPORTED masm).andThen fun masm =>
    match self.type_ with
    | .DT_FLOAT =>
      if self.cpu.Enabled .SSE2 then
        if left then
          .ok (emit masm .pslld [xmm instr.dst, .imm bits])
        else
          .ok (emit masm .psrld [xmm instr.dst, .imm bits])
      else
        UNSUPPORTED masm
    | .DT_DOUBLE =>
      if self.cpu.Enabled .SSE2 then
        if left then
          .ok (emit masm .psllq [xmm instr.dst, .imm bits])
        else
          .ok (emit masm .psrlq [xmm instr.dst, .imm bits])
      else
        UNSUPPORTED masm
    | _ => UNSUPPORTED masm
  else
    .fatal .check masm

/-- `GenerateFloor`: "Generate floor rounding". -/
def GenerateFloor (self : ExpressionGenerator) (instr : Op)
    (masm : MacroAssembler) : Result :=
  if self.cpu.Enabled .SSE4_1 then
    self.GenerateXMMFltOpImm instr .roundps .roundpd .roundps .roundpd
      kRoundDown masm
  else
    UNSUPPORTED masm

/-- `GenerateFltToInt`: "Generate float to integer conversion". -/
def GenerateFltToInt (self : ExpressionGenerator) (instr : Op)
    (masm : MacroAssembler) : Result :=
  if self.cpu.Enabled .SSE2 then
    self.GenerateXMMFltOp instr .cvttps2dq .cvttpd2dq .cvttps2dq .cvttpd2dq masm
  else
    UNSUPPORTED masm

/-- `GenerateIntToFlt`: "Generate integer to float conversion". -/
def GenerateIntToFlt (self : ExpressionGenerator) (instr : Op)
    (masm : MacroAssembler) : Result :=
  if self.cpu.Enabled .SSE2 then
    self.GenerateXMMFltOp instr .cvtdq2ps .cvtdq2pd .cvtdq2ps .cvtdq2pd masm
  else
    UNSUPPORTED masm

/-- `GenerateCompare`: "Generate compare". -/
def GenerateCompare (self : ExpressionGenerator) (instr : Op)
    (masm : MacroAssembler) (code : Int) : Result :=
  self.GenerateXMMFltOpImm instr .cmpps .cmppd .cmpps .cmppd code masm

/-- `Generate`: the dispatch on the operation kind. -/
def Generate (self : ExpressionGenerator) (instr : Op)
    (masm : MacroAssembler) : Result :=
  match instr.type with
  | .MOV =>
    if IsClear instr then
      match self.type_ with
      | .DT_FLOAT => .ok (emit masm .xorps [xmm instr.dst, xmm instr.dst])
      | .DT_DOUBLE => .ok (emit masm .xorpd [xmm instr.dst, xmm instr.dst])
      | _ => UNSUPPORTED masm
    else
      self.GenerateXMMVectorMove instr masm
  | .ADD => self.GenerateXMMFltOp instr .addps .addpd .addps .addpd masm
  | .SUB => self.GenerateXMMFltOp instr .subps .subpd .subps .subpd masm
  | .MUL => self.GenerateXMMFltOp instr .mulps .mulpd .mulps .mulpd masm
  | .DIV => self.GenerateXMMFltOp instr .divps .divpd .divps .divpd masm
  | .MIN => self.GenerateXMMFltOp instr .minps .minpd .minps .minpd masm
  | .MAX => self.GenerateXMMFltOp instr .maxps .maxpd .maxps .maxpd masm
  | .RELU => GenerateRelu self instr masm
  | .CMPEQOQ => GenerateCompare self instr masm 0
  | .CMPLTOQ => GenerateCompare self instr masm 17
  | .CMPGTOQ => GenerateCompare self instr masm 30
  | .CMPNGEUQ => GenerateCompare self instr masm 25
  | .AND => self.GenerateXMMFltOp instr .andps .andpd .andps .andpd masm
  | .OR => self.GenerateXMMFltOp instr .orps .orpd .orps .orpd masm
  | .ANDNOT =>
    if self.cpu.Enabled .SSE2 then
      self.GenerateXMMFltOp instr .andnps .andnpd .andnps .andnpd masm
    else
      UNSUPPORTED masm
  | .SHR23 => GenerateShift self instr masm false 23
  | .SHL23 => GenerateShift self instr masm true 23
  | .FLOOR => GenerateFloor self instr masm
  | .CVTFLTINT => GenerateFltToInt self instr masm
  | .CVTINTFLT => GenerateIntToFlt self instr masm
  | .SUBINT => self.GenerateXMMFltOp instr .psubd .psubq .psubd .psubq masm
  | _ => UNSUPPORTED masm

end VectorFltSSEGenerator

/-! ## The generator variants -/

/-- The three concrete generators. -/
inductive Variant
  | ScalarFltSSE | ScalarFltAVX | VectorFltSSE
  deriving DecidableEq, Repr

/-- The virtual call `generator->Generate(instr, masm)`. -/
def Variant.Generate (v : Variant) (self : ExpressionGenerator) (instr : Op)
    (masm : MacroAssembler) : Result :=
  match v with
  | .ScalarFltSSE => ScalarFltSSEGenerator.Generate self instr masm
  | .ScalarFltAVX => ScalarFltAVXGenerator.Generate self instr masm
  | .VectorFltSSE => VectorFltSSEGenerator.Generate self instr masm

/-- The capability model a generator has after construction. -/
def Variant.model (v : Variant) (cpu : CPU) : Model :=
  match v with
  | .ScalarFltSSE => ScalarFltSSEGenerator.model
  | .ScalarFltAVX => ScalarFltAVXGenerator.model cpu
  | .VectorFltSSE => VectorFltSSEGenerator.model

/-! ## Running emitted RELU code on a register file -/

/-- Arithmetic of the target on the lanes a generator works on (one element for
the scalar generators, the whole register for the vector generator): the
all-zero value and the native maximum `max a b` of a first and a second
operand. -/
structure Lanes (V : Type) where
  zero : V
  max : V → V → V

/-- Overwrite register `r` of a register file. -/
def setReg {V : Type} (rf : Int → V) (r : Int) (v : V) : Int → V :=
  fun i => if i = r then v else rf i

/-- Effect of one emitted instruction on the register file, for the instructions
of a RELU lowering with register operands: a self-XOR clears its destination, a
`movss` from a data block holding one zero loads zero, a two-operand maximum
computes `dst := max dst src` and a three-operand maximum `dst := max a b`.
Any other instruction is outside this model (`none`). -/
def step {V : Type} (L : Lanes V) (data : List DataBlock) (rf : Int → V)
    (i : Instr) : Option (Int → V) :=
  match i.op, i.operands with
  | .xorps, [.xmm a, .xmm b] => if a = b then some (setReg rf a L.zero) else none
  | .xorpd, [.xmm a, .xmm b] => if a = b then some (setReg rf a L.zero) else none
  | .vpxor, [.xmm d, .xmm a, .xmm b] =>
    if a = b then some (setReg rf d L.zero) else none
  | .movss, [.xmm d, .data k] =>
    if data.get? k = some ⟨4, [0]⟩ then some (setReg rf d L.zero) else none
  | .maxss, [.xmm d, .xmm s] => some (setReg rf d (L.max (rf d) (rf s)))
  | .maxsd, [.xmm d, .xmm s] => some (setReg rf d (L.max (rf d) (rf s)))
  | .maxps, [.xmm d, .xmm s] => some (setReg rf d (L.max (rf d) (rf s)))
  | .maxpd, [.xmm d, .xmm s] => some (setReg rf d (L.max (rf d) (rf s)))
  | .vmaxss, [.xmm d, .xmm a, .xmm b] => some (setReg rf d (L.max (rf a) (rf b)))
  | .vmaxsd, [.xmm d, .xmm a, .xmm b] => some (setReg rf d (L.max (rf a) (rf b)))
  | _, _ => none

/-- Run a straight-line instruction sequence. -/
def run {V : Type} (L : Lanes V) (data : List DataBlock) :
    List Instr → (Int → V) → Option (Int → V)
  | [], rf => some rf
  | i :: rest, rf =>
    match step L data rf i with
    | some rf1 => run L data rest rf1
    | none => none

/-- Integer-valued lanes: zero and the maximum of two integers. -/
def intLanes : Lanes Int := ⟨0, fun a b => max a b⟩

/-- The micro-operation `RELU dst <- src` on registers, with one argument. -/
def reluOp (dst src : Int) : Op :=
  { type := .RELU, dst := dst, src := src, src2 := -1,
    args := [.register src], result := .register dst }

/-- The empty assembler. -/
def MacroAssembler.empty : MacroAssembler := ⟨[], []⟩

/-- The value register `r` holds after running on `rf` the code a generator emits
for `instr` into an empty assembler (`none` when lowering fails or the code
leaves the model of `step`). -/
def valueAfter {V : Type} (L : Lanes V) (v : Variant) (self : ExpressionGenerator)
    (instr : Op) (rf : Int → V) (r : Int) : Option V :=
  match v.Generate self instr MacroAssembler.empty with
  | .ok masm => (run L masm.data masm.code rf).map fun rf1 => rf1 r
  | .fatal _ _ => none

/-! ## Lowering a sequence, and vocabulary for the statements -/

/-- Modelled from the spec: the driver of the base class (not under src/) that
lowers an operation sequence: "each micro-operation is lowered strictly in the
order it appears in the flattened sequence, with no reordering, no speculative
emission"; a fatal failure aborts, so nothing after it is lowered. -/
def Variant.GenerateSequence (v : Variant) (self : ExpressionGenerator) :
    List Op → MacroAssembler → Result
  | [], masm => .ok masm
  | instr :: rest, masm =>
    (v.Generate self instr masm).andThen fun masm1 =>
      Variant.GenerateSequence v self rest masm1

/-- "Every flag set by `a` is also set by `b`". -/
def Model.subset (a b : Model) : Bool :=
  (a.flags.zip b.flags).all fun p => !p.1 || p.2

/-- The six fused multiply-add/subtract kinds. -/
def fusedKinds : List OpType :=
  [.MULADD132, .MULADD213, .MULADD231, .MULSUB132, .MULSUB213, .MULSUB231]

/-- The kinds only the vector generator lowers. -/
def vectorOnlyKinds : List OpType :=
  [.CMPEQOQ, .CMPLTOQ, .CMPGTOQ, .CMPNGEUQ, .AND, .OR, .ANDNOT, .SHR23, .SHL23,
   .FLOOR, .CVTFLTINT, .CVTINTFLT, .SUBINT]

/-- The kinds that have a `case` label in the `Generate` switch of a generator. -/
def Variant.implemented : Variant → List OpType
  | .ScalarFltSSE => [.MOV, .ADD, .SUB, .MUL, .DIV, .MIN, .MAX, .RELU]
  | .ScalarFltAVX => [.MOV, .ADD, .SUB, .MUL, .DIV, .MIN, .MAX, .RELU] ++ fusedKinds
  | .VectorFltSSE =>
    [.MOV, .ADD, .SUB, .MUL, .DIV, .MIN, .MAX, .RELU] ++ vectorOnlyKinds

/-- The fused multiply-add/subtract instructions. -/
def Mnemonic.isFused : Mnemonic → Bool
  | .vfmadd132ss | .vfmadd132sd | .vfmadd213ss | .vfmadd213sd
  | .vfmadd231ss | .vfmadd231sd
  | .vfmsub132ss | .vfmsub132sd | .vfmsub213ss | .vfmsub213sd
  | .vfmsub231ss | .vfmsub231sd => true
  | _ => false

/-- The predicate codes the spec gives for the four compare kinds: 0 for CMPEQOQ,
17 for CMPLTOQ, 30 for CMPGTOQ and 25 for CMPNGEUQ. -/
def predicateCode : OpType → Option Int
  | .CMPEQOQ => some 0
  | .CMPLTOQ => some 17
  | .CMPGTOQ => some 30
  | .CMPNGEUQ => some 25
  | _ => none

/-- The element types the generators lower: float and double. -/
def DataType.isFlt : DataType → Bool
  | .DT_FLOAT | .DT_DOUBLE => true
  | _ => false

/-- Pick the single- or the double-precision instruction by element type. -/
def DataType.pick (t : DataType) (flt dbl : Mnemonic) : Mnemonic :=
  match t with
  | .DT_DOUBLE => dbl
  | _ => flt

/-- The source operand of an operation with a destination register: the source
register, or the memory operand when the source is memory-resident. -/
def ExpressionGenerator.srcOperand (self : ExpressionGenerator) (instr : Op) :
    Operand :=
  if instr.src = -1 then addrArg instr (self.argnum instr) else xmm instr.src

/-- Memory operands. -/
def Operand.isMemory : Operand → Bool
  | .addr _ | .data _ => true
  | _ => false

/-- The operation `MOV dst <- mem(id)`: a load of a memory-resident value. -/
def loadOp (dst : Int) (id : Nat) : Op :=
  { type := .MOV, dst := dst, src := -1, src2 := -1,
    args := [.memory id], result := .register dst }

/-- The operation `kind dst <- a, b` on registers, in the two-operand form the
SSE generators lower (`dst` and `src` are the registers the instruction names). -/
def binaryOp (kind : OpType) (dst a b : Int) : Op :=
  { type := kind, dst := dst, src := a, src2 := b,
    args := [.register a, .register b], result := .register dst }

/-- The operation `kind dst <- src` on registers, with one argument. -/
def unaryOp (kind : OpType) (dst src : Int) : Op :=
  { type := kind, dst := dst, src := src, src2 := -1,
    args := [.register src], result := .register dst }

/-- A call that either fails as unsupported before touching the assembler, or
returns after appending exactly one instruction. -/
def Result.atomicOne (r : Result) (masm : MacroAssembler) : Prop :=
  r = .fatal .unsupported masm ∨
    ∃ i : Instr, r = .ok { masm with code := masm.code ++ [i] }

/-- The kinds whose lowering emits a first instruction before its last check. -/
def twoStepKinds : List OpType := [.RELU, .SHR23, .SHL23]

/-- The spec's end-to-end scenario
`[MOVE r0 <- mem(a), MOVE r1 <- mem(b), ADD r2 <- r0,r1, RELU r2 <- r2]`, with the
two memory values numbered 0 and 1. -/
def scenario : List Op :=
  [loadOp 0 0, loadOp 1 1, binaryOp .ADD 2 0 1, reluOp 2 2]

end Myelin

namespace Myelin

/-! ## Register reservation -/

/-- Modelled from the spec: a request made to the register index (`index_`, a
class that is not under src/), "requesting that many vector-register slots from
the external allocator"; the other constructors stand for requests of other
resources. -/
inductive Request
  | ReserveXMMRegisters (count : Int)
  | ReserveYMMRegisters (count : Int)
  | ReserveRegisters (count : Int)
  deriving DecidableEq, Repr

/-- Modelled from the spec: `instructions_.NumRegs()` (class `Express`, not under
src/), "the number of distinct live values (registers) the operation sequence
touches": the count of distinct register indices named by its operations. -/
def NumRegs (instructions_ : List Op) : Int :=
  (((instructions_.flatMap fun op => [op.dst, op.src, op.src2]).filter
    fun r => r != -1).dedup.length : Nat)

/-- The members of a generator object: the base-class context read by
`Generate`, the capability model, the requests received so far by the register
index `index_`, and the operation sequence `instructions_` being lowered. -/
structure GeneratorObject where
  base : ExpressionGenerator
  model_ : Model
  index_ : List Request
  instructions_ : List Op

/-- `ScalarFltSSEGenerator::Reserve`: "Reserve XMM registers". -/
def ScalarFltSSEGenerator.Reserve (g : GeneratorObject) : GeneratorObject :=
  { g with index_ := g.index_ ++ [.ReserveXMMRegisters (NumRegs g.instructions_)] }

/-- `ScalarFltAVXGenerator::Reserve`: "Reserve XMM registers". -/
def ScalarFltAVXGenerator.Reserve (g : GeneratorObject) : GeneratorObject :=
  { g with index_ := g.index_ ++ [.ReserveXMMRegisters (NumRegs g.instructions_)] }

/-- `VectorFltSSEGenerator::Reserve`: "Reserve XMM registers". -/
def VectorFltSSEGenerator.Reserve (g : GeneratorObject) : GeneratorObject :=
  { g with index_ := g.index_ ++ [.ReserveXMMRegisters (NumRegs g.instructions_)] }

/-- The virtual call `generator->Reserve()`. -/
def Variant.Reserve (v : Variant) (g : GeneratorObject) : GeneratorObject :=
  match v with
  | .ScalarFltSSE => ScalarFltSSEGenerator.Reserve g
  | .ScalarFltAVX => ScalarFltAVXGenerator.Reserve g
  | .VectorFltSSE => VectorFltSSEGenerator.Reserve g

/-! ## More vocabulary for the statements -/

/-- An instruction that sets register `r` to zero: a self-XOR of `r`, or a
`movss` into `r` from a data block that holds one zero. -/
def Instr.zeroes (data : List DataBlock) (i : Instr) (r : Int) : Bool :=
  match i.op, i.operands with
  | .xorps, [.xmm a, .xmm b] => a == r && b == r
  | .xorpd, [.xmm a, .xmm b] => a == r && b == r
  | .vpxor, [.xmm d, .xmm a, .xmm b] => d == r && a == b
  | .movss, [.xmm d, .data k] => d == r && data.get? k == some ⟨4, [0]⟩
  | _, _ => false

/-- The element-wise maximum instructions. -/
def Mnemonic.isMax : Mnemonic → Bool
  | .maxss | .maxsd | .maxps | .maxpd | .vmaxss | .vmaxsd => true
  | _ => false

/-- The operation `RELU dst <- mem(id)`: a RELU whose input is memory-resident,
its single argument. -/
def reluMemOp (dst : Int) (id : Nat) : Op :=
  { type := .RELU, dst := dst, src := -1, src2 := -1,
    args := [.memory id], result := .register dst }

/-- The operation `kind dst <- mem(id)`: a unary operation on a memory-resident
argument. -/
def unaryMemOp (kind : OpType) (dst : Int) (id : Nat) : Op :=
  { type := kind, dst := dst, src := -1, src2 := -1,
    args := [.memory id], result := .register dst }

/-- The move `GenerateShift` emits first: the source register, or the first
argument when the source is memory-resident, into the destination. -/
def shiftMove (self : ExpressionGenerator) (instr : Op) : Instr :=
  if instr.src = -1 then
    ⟨self.type_.pick .movaps .movapd, [xmm instr.dst, addrArg instr 0]⟩
  else
    ⟨.movapd, [xmm instr.dst, xmm instr.src]⟩

end Myelin

/-!
String stripping (`src/sling/string/strip.cc`).

A `string` is the list of its characters.  The functions below compact the string
in place with a reader and a writer position, as the source does; positions of
type `int` are integers, and a size converted to `int` wraps at 32 bits.
-/

namespace Sling

/-- Conversion of a size to `int`: 32 bits, two's complement. -/
def toInt (n : Nat) : Int := ((n : Int) + 2 ^ 31) % 2 ^ 32 - 2 ^ 31

/-- The read `(*s)[pos]`. -/
def charAt (s : List Char) (pos : Int) : Char := s.getD pos.toNat (Char.ofNat 0)

/-- The write `(*s)[pos] = c`. -/
def setAt (s : List Char) (pos : Int) (c : Char) : List Char := s.set pos.toNat c

/-- The call `s->resize(n)`: truncate, or pad with NUL characters. -/
def resize (s : List Char) (n : Nat) : List Char :=
  s.take n ++ List.replicate (n - s.length) (Char.ofNat 0)

/-- The inner loop of `StripDupCharacters`, "skip subsequent dups":
`while ((input_pos < input_end) && ((*s)[input_pos] == dup_char)) ++input_pos;`
returns the final `input_pos` (which is never before the initial one). -/
def StripDupCharacters.skip (s : List Char) (dup_char : Char) (input_end : Int)
    (input_pos : Int) : { p : Int // input_pos ≤ p } :=
  if input_pos < input_end ∧ charAt s input_pos = dup_char then
    let r := StripDupCharacters.skip s dup_char input_end (input_pos + 1)
    ⟨r.1, by have := r.2; omega⟩
  else
    ⟨input_pos, le_refl _⟩
termination_by (input_end - input_pos).toNat
decreasing_by omega

/-- The outer loop of `StripDupCharacters`, "remove dups by compaction in-place":
returns the string and the final reader and writer positions. -/
def StripDupCharacters.loop (dup_char : Char) (input_end : Int) (s : List Char)
    (input_pos output_pos : Int) : List Char × Int × Int :=
  if input_pos < input_end then
    let curr_char := charAt s input_pos
    let s1 := if output_pos ≠ input_pos then setAt s output_pos curr_char else s
    let input_pos1 := input_pos + 1
    let output_pos1 := output_pos + 1
    let input_pos2 :=
      if curr_char = dup_char then
        (StripDupCharacters.skip s1 dup_char input_end input_pos1).1
      else
        input_pos1
    StripDupCharacters.loop dup_char input_end s1 input_pos2 output_pos1
  else
    (s, input_pos, output_pos)
termination_by (input_end - input_pos).toNat
decreasing_by
  split
  · generalize StripDupCharacters.skip _ dup_char input_end (input_pos + 1) = r
    have := r.2
    omega
  · omega

/-- `StripDupCharacters(s, dup_char, start_pos)`: the string left in `*s` and the
value returned. -/
def StripDupCharacters (s : List Char) (dup_char : Char) (start_pos : Int) :
    List Char × Int :=
  let start_pos := if start_pos < 0 then 0 else start_pos
  let input_end : Int := toInt s.length
  let r := StripDupCharacters.loop dup_char input_end s start_pos start_pos
  let num_deleted : Int := r.2.1 - r.2.2
  (resize r.1 ((s.length : Int) - num_deleted).toNat, num_deleted)

/-- "Replaces any repeated occurrence of the character `c` with single
occurrence": of every run of consecutive `c` one is kept. -/
def collapseRuns (c : Char) (l : List Char) : List Char :=
  l.destutter fun a b => ¬(a = c ∧ b = c)

/-! RemoveExtraWhitespace -/

/-- The first loop of `RemoveExtraWhitespace`, "strip off leading space":
`while (input_pos < input_end && ascii_isspace((*s)[input_pos])) input_pos++;`
returns the final `input_pos`.  `isspace` stands for `ascii_isspace`, which is
declared outside src/. -/
def RemoveExtraWhitespace.lead (isspace : Char → Bool) (s : List Char)
    (input_end : Int) (input_pos : Int) : Int :=
  if input_pos < input_end ∧ isspace (charAt s input_pos) = true then
    RemoveExtraWhitespace.lead isspace s input_end (input_pos + 1)
  else
    input_pos
termination_by (input_end - input_pos).toNat
decreasing_by omega

/-- The main loop of `RemoveExtraWhitespace`: "copy each non-whitespace character
to the right position; for a block of whitespace, print the last one".  Returns
the string and the final writer position. -/
def RemoveExtraWhitespace.loop (isspace : Char → Bool) (input_end : Int)
    (s : List Char) (input_pos output_pos : Int) : List Char × Int :=
  if input_pos < input_end - 1 then
    let c := charAt s input_pos
    let next := charAt s (input_pos + 1)
    if !isspace c || !isspace next then
      let s1 := if output_pos ≠ input_pos then setAt s output_pos c else s
      RemoveExtraWhitespace.loop isspace input_end s1 (input_pos + 1) (output_pos + 1)
    else
      RemoveExtraWhitespace.loop isspace input_end s (input_pos + 1) output_pos
  else
    (s, output_pos)
termination_by (input_end - input_pos).toNat
decreasing_by all_goals omega

/-- `RemoveExtraWhitespace(s)`: "remove leading, trailing, and duplicate internal
whitespace"; the string left in `*s`. -/
def RemoveExtraWhitespace (isspace : Char → Bool) (s : List Char) : List Char :=
  if s.isEmpty then s
  else
    let input_end : Int := toInt s.length
    let input_pos := RemoveExtraWhitespace.lead isspace s input_end 0
    let r := RemoveExtraWhitespace.loop isspace input_end s input_pos 0
    let c := charAt r.1 (input_end - 1)
    if !isspace c then
      resize (setAt r.1 r.2 c) (r.2 + 1).toNat
    else
      resize r.1 r.2.toNat

/-- Of every run of whitespace keep the last character, unless the run ends the
string: a whitespace character is dropped when it is the last character or is
followed by whitespace; every other character is kept. -/
def keepLastOfRuns (isspace : Char → Bool) : List Char → List Char
  | [] => []
  | [x] => if isspace x then [] else [x]
  | x :: y :: rest =>
    if isspace x && isspace y then keepLastOfRuns isspace (y :: rest)
    else x :: keepLastOfRuns isspace (y :: rest)

/-! TrimRunsInString -/

/-- The inner loop of `TrimRunsInString`, "skip to the end of this run of chars
that are in `remove`", entered after `++src`.  Iterators are positions in the
string; `src != src_end` is `src < src_end` for an iterator that never passes
the end.  Returns the string and the final `src` (never before the initial one)
and `dest`. -/
def TrimRunsInString.inner (remove : List Char) (src_end : Nat) (s : List Char)
    (src dest : Nat) : { r : List Char × Nat × Nat // src ≤ r.2.1 } :=
  if _h : src < src_end then
    if remove.contains (charAt s src) = false then
      let s1 := if dest ≠ 0 then setAt s dest (remove.getD 0 (Char.ofNat 0)) else s
      let dest1 := if dest ≠ 0 then dest + 1 else dest
      let s2 := setAt s1 dest1 (charAt s1 src)
      ⟨(s2, src + 1, dest1 + 1), Nat.le_succ src⟩
    else
      let r := TrimRunsInString.inner remove src_end s (src + 1) dest
      ⟨r.1, Nat.le_trans (Nat.le_succ src) r.2⟩
  else
    ⟨(s, src, dest), Nat.le_refl src⟩
termination_by src_end - src

/-- The outer loop of `TrimRunsInString`.  Returns the string and the final
`dest`. -/
def TrimRunsInString.outer (remove : List Char) (src_end : Nat) (s : List Char)
    (src dest : Nat) : List Char × Nat :=
  if h : src < src_end then
    if remove.contains (charAt s src) = false then
      TrimRunsInString.outer remove src_end (setAt s dest (charAt s src))
        (src + 1) (dest + 1)
    else
      let r := TrimRunsInString.inner remove src_end s (src + 1) dest
      TrimRunsInString.outer remove src_end r.1.1 r.1.2.1 r.1.2.2
  else
    (s, dest)
termination_by src_end - src
decreasing_by
  · omega
  · have := (TrimRunsInString.inner remove src_end s (src + 1) dest).2
    omega

/-- `TrimRunsInString(s, remove)`: the string left in `*s` (the final
`s->erase(dest, src_end)` keeps the first `dest` characters). -/
def TrimRunsInString (s : List Char) (remove : List Char) : List Char :=
  let r := TrimRunsInString.outer remove s.length s 0 0
  r.1.take r.2

/-- The maximal runs of characters of `s` that are not in `remove`, in order. -/
def runsOutside (remove : List Char) (s : List Char) : List (List Char) :=
  (s.splitOnP fun x => remove.contains x).filter fun t => !t.isEmpty

/-- What the two loops of `TrimRunsInString` write for the unread characters:
`started` says that something has been written already, `inRun` that the reader
is inside a run of characters of `remove`; `d` is `remove[0]`. -/
def TrimRunsInString.written (remove : List Char) (d : Char) :
    Bool → Bool → List Char → List Char
  | _, _, [] => []
  | started, inRun, x :: xs =>
    if remove.contains x = false then
      (if inRun && started then [d] else []) ++
        x :: TrimRunsInString.written remove d true false xs
    else
      TrimRunsInString.written remove d started true xs

end Sling

/-!
Wikipedia-to-Wikidata map (`src/nlp/wiki/wikipedia-map.cc`).

The frame store is not under src/: it enters as a parameter, through the
operations `WikipediaMap` calls on it.  The loop of `Resolve` has no bound in the
source, so it is run with fuel and a run that exhausts every amount of fuel is a
run that does not return.
-/

namespace WikipediaMap

/-- A handle: nil, or a reference to an object of the store. -/
inductive Handle
  | nil
  | ref (index : Nat)
  deriving DecidableEq, Repr

/-- `Handle::IsNil()`. -/
def Handle.IsNil : Handle → Bool
  | .nil => true
  | .ref _ => false

/-- A frame of the store (`FrameDatum`): its own handle `self` and its slots, as
(name, value) pairs. -/
structure FrameDatum where
  self : Handle
  slots : List (Handle × Handle)
  deriving DecidableEq, Repr

/-- `frame->get(name)`: the value of the first slot called `name`, nil when there
is none. -/
def FrameDatum.get (frame : FrameDatum) (name : Handle) : Handle :=
  match frame.slots.find? fun slot => slot.1 == name with
  | some slot => slot.2
  | none => .nil

/-- The operations of the mapping store that `WikipediaMap` uses: `GetFrame(h)`
(`none` when `h` does not refer to a frame), `LookupExisting(id)` (nil when the
id is unknown) and the id of a frame. -/
structure Store where
  GetFrame : Handle → Option FrameDatum
  LookupExisting : String → Handle
  Id : FrameDatum → String

/-- How a call ends when it ends. -/
inductive Outcome (α : Type)
  /-- The call returns a value. -/
  | returns (value : α)
  /-- The call dereferences a handle that does not refer to a frame. -/
  | undefined
  deriving DecidableEq, Repr

/-- The loop of `WikipediaMap::Resolve`, "recursively resolve redirects", run for
at most `fuel` iterations: `none` when the fuel runs out before the loop is
left. -/
def ResolveLoop (store : Store) (n_redirect_link_ : Handle) :
    Nat → FrameDatum → Option (Outcome Handle)
  | 0, _ => none
  | fuel + 1, frame =>
    let redir := frame.get n_redirect_link_
    if redir.IsNil then some (.returns frame.self)
    else if redir = frame.self then some (.returns frame.self)
    else
      match store.GetFrame redir with
      | some next => ResolveLoop store n_redirect_link_ fuel next
      | none => some .undefined

/-- `WikipediaMap::Resolve(h)` run with fuel. -/
def Resolve (store : Store) (n_redirect_link_ : Handle) (fuel : Nat) (h : Handle) :
    Option (Outcome Handle) :=
  match store.GetFrame h with
  | some frame => ResolveLoop store n_redirect_link_ fuel frame
  | none => some .undefined

/-- `WikipediaMap::Lookup(id)` run with fuel: the Wikidata id, or the empty text. -/
def Lookup (store : Store) (n_redirect_link_ n_qid_ : Handle) (fuel : Nat)
    (id : String) : Option (Outcome String) :=
  let h := store.LookupExisting id
  if h.IsNil then some (.returns "")
  else
    match Resolve store n_redirect_link_ fuel h with
    | none => none
    | some .undefined => some .undefined
    | some (.returns h1) =>
      match store.GetFrame h1 with
      | none => some .undefined
      | some frame =>
        match store.GetFrame (frame.get n_qid_) with
        | none => some (.returns "")
        | some qid => some (.returns (store.Id qid))

/-- The symbol `/wp/redirect/link` in the example stores. -/
def linkSymbol : Handle := .ref 100

/-- The symbol `/w/item/qid` in the example stores. -/
def qidSymbol : Handle := .ref 101

/-- A store made of a list of frames and a list of named handles. -/
def storeOf (frames : List FrameDatum) (names : List (String × Handle)) : Store where
  GetFrame h := frames.find? fun f => f.self == h
  LookupExisting id :=
    match names.find? fun n => n.1 == id with
    | some n => n.2
    | none => .nil
  Id f :=
    match names.find? fun n => n.2 == f.self with
    | some n => n.1
    | none => ""

/-- Two pages redirecting to each other: frame 1 (`/wp/en/A`) has the redirect
link 2 and frame 2 (`/wp/en/B`) the redirect link 1. -/
def redirectCycle : Store :=
  storeOf
    [⟨.ref 1, [(linkSymbol, .ref 2)]⟩, ⟨.ref 2, [(linkSymbol, .ref 1)]⟩]
    [("/wp/en/A", .ref 1), ("/wp/en/B", .ref 2)]

/-- A redirect chain that ends: frame 1 redirects to 2, 2 to 3, and 3 is an
article with Wikidata item 4 (`Q4`); frame 5 redirects to itself. -/
def redirectChain : Store :=
  storeOf
    [⟨.ref 1, [(linkSymbol, .ref 2)]⟩, ⟨.ref 2, [(linkSymbol, .ref 3)]⟩,
     ⟨.ref 3, [(qidSymbol, .ref 4)]⟩, ⟨.ref 4, []⟩,
     ⟨.ref 5, [(linkSymbol, .ref 5)]⟩]
    [("/wp/en/A", .ref 1), ("/wp/en/B", .ref 2), ("/wp/en/C", .ref 3),
     ("Q4", .ref 4), ("/wp/en/E", .ref 5)]

end WikipediaMap

namespace Myelin

/-! ## Shifts -/

/-- What a packed shift instruction does: its direction, the width of the lanes it
shifts and whether it is a logical shift (zeros shifted in) rather than an
arithmetic one (sign bits shifted in). -/
structure ShiftKind where
  left : Bool
  laneBits : Nat
  logical : Bool
  deriving DecidableEq, Repr

/-- The packed shift-by-immediate instructions among the assembler methods:
`pslld`/`psrld` shift 32-bit lanes and `psllq`/`psrlq` 64-bit lanes, all four
logically. -/
def Mnemonic.shiftKind : Mnemonic → Option ShiftKind
  | .pslld => some ⟨true, 32, true⟩
  | .psrld => some ⟨false, 32, true⟩
  | .psllq => some ⟨true, 64, true⟩
  | .psrlq => some ⟨false, 64, true⟩
  | _ => none

/-- The full-register move instructions. -/
def Mnemonic.isVectorMove : Mnemonic → Bool
  | .movaps | .movapd => true
  | _ => false

/-- The source operand of a unary operation: the source register, or the memory
operand of its argument `args[0]` when the source is memory-resident. -/
def unarySource (instr : Op) : Operand :=
  if instr.src = -1 then addrArg instr 0 else xmm instr.src

/-- The lane width of an element type: 64 bits for double, 32 otherwise. -/
def DataType.laneBits : DataType → Nat
  | .DT_DOUBLE => 64
  | _ => 32

/-- The instructions a call has appended to the code of the assembler it started
from. -/
def Result.appended (r : Result) (masm : MacroAssembler) : List Instr :=
  r.masm.code.drop masm.code.length

/-- The zero-constant move `MOV dst <- 0`. -/
def clearOp (dst : Int) : Op :=
  { type := .MOV, dst := dst, src := -1, src2 := -1,
    args := [.constant 0 true], result := .register dst }

end Myelin

/-! # WikidataImporter (`nlp/wiki/wikidata-importer.cc`)

`ConvertTime` with its two helpers `MatchesFormat` and `ParseNumber`.  A string is
the list of its characters; a handle is either a reference into the store or a
tagged integer; of the store only `IsString`/`GetString` are used. -/

namespace WikidataImporter

/-- A handle as `ConvertTime` meets it: a reference to an object of the store, or
the tagged integer `Handle::Integer(n)` builds. -/
inductive Handle
  | ref (address : Nat)
  | integer (n : Int)
  deriving DecidableEq, Repr

/-- `Handle::Integer(n)`. -/
def Handle.Integer (n : Int) : Handle := .integer n

/-- The part of `Store` that `ConvertTime` reads: `strings h` is the text of the
string object behind `h` when `IsString(h)` holds, and nothing otherwise. -/
structure Store where
  strings : Handle → Option (List Char)

/-- `Store::IsString`. -/
def Store.IsString (store : Store) (h : Handle) : Bool := (store.strings h).isSome

/-- `Store::GetString(h)->str()`. -/
def Store.GetString (store : Store) (h : Handle) : List Char :=
  (store.strings h).getD []

/-- The loop of `MatchesFormat`: both pointers advance together, and a character
of the string has to equal the format character unless that is `?`. -/
def MatchesFormat.loop : List Char → List Char → Bool
  | s :: str, f :: format =>
    if f != '?' && f != s then false else MatchesFormat.loop str format
  | _, _ => true

/-- `MatchesFormat(str, format)`: "Check if string matches format with wild
cards." -/
def MatchesFormat (str format : List Char) : Bool :=
  if str.length != format.length then false else MatchesFormat.loop str format

/-- The loop of `ParseNumber`: a character outside `'0'..'9'` ends the parse with
`-1`.  The characters are compared and subtracted as integers. -/
def ParseNumber.loop (number : Int) : List Char → Int
  | [] => number
  | digit :: rest =>
    if digit.toNat < '0'.toNat || digit.toNat > '9'.toNat then -1
    else ParseNumber.loop (number * 10 + ((digit.toNat : Int) - ('0'.toNat : Int))) rest

/-- `ParseNumber(str)`.  The callers pass at most four characters, so the `int`
accumulator stays below 10^4 and cannot overflow. -/
def ParseNumber (str : List Char) : Int := ParseNumber.loop 0 str

/-- `Text::substr(pos, n)`. -/
def substr (str : List Char) (pos n : Nat) : List Char := (str.drop pos).take n

/-- The format string of `ConvertTime`, `"+????-??-??T00:00:00Z"`. -/
def simpleDateFormat : List Char :=
  ['+', '?', '?', '?', '?', '-', '?', '?', '-', '?', '?',
   'T', '0', '0', ':', '0', '0', ':', '0', '0', 'Z']

/-- `ConvertTime(store, timestamp)`: "Convert Wikidata timestamp." -/
def ConvertTime (store : Store) (timestamp : Handle) : Handle :=
  if !store.IsString timestamp then timestamp else
  let str := store.GetString timestamp
  if !MatchesFormat str simpleDateFormat then timestamp else
  let year := ParseNumber (substr str 1 4)
  let month := ParseNumber (substr str 6 2)
  let day := ParseNumber (substr str 9 2)
  if year < 1000 || month < 0 || day < 0 then timestamp else
  if day == 0 && month == 0 then
    Handle.Integer year
  else if day == 0 then
    Handle.Integer (year * 100 + month)
  else
    Handle.Integer (year * 10000 + month * 100 + day)

/-! ### The specification side -/

/-- A decimal digit. -/
def isDigit (c : Char) : Bool := decide ('0'.toNat ≤ c.toNat) && decide (c.toNat ≤ '9'.toNat)

/-- The number a list of decimal digits denotes. -/
def decimal (digits : List Char) : Int :=
  digits.foldl (fun n c => n * 10 + ((c.toNat : Int) - 48)) 0

/-- The string `+YYYY-MM-DDT00:00:00Z` with the given field characters. -/
def simpleDate (y1 y2 y3 y4 m1 m2 d1 d2 : Char) : List Char :=
  ['+', y1, y2, y3, y4, '-', m1, m2, '-', d1, d2,
   'T', '0', '0', ':', '0', '0', ':', '0', '0', 'Z']

/-- The integer-encoded date as the specification words it: the year alone when
month and day are both zero, year and month when only the day is zero, and the
full date otherwise. -/
def encodeDate (year month day : Int) : Int :=
  if month = 0 ∧ day = 0 then year
  else if day = 0 then year * 100 + month
  else year * 10000 + month * 100 + day

/-- The input is a string of the simple date shape with digits in its three
fields and a year of at least 1000. -/
def IsSimpleDate (store : Store) (timestamp : Handle) : Prop :=
  ∃ y1 y2 y3 y4 m1 m2 d1 d2 : Char,
    store.strings timestamp = some (simpleDate y1 y2 y3 y4 m1 m2 d1 d2) ∧
    (∀ c ∈ [y1, y2, y3, y4, m1, m2, d1, d2], isDigit c = true) ∧
    1000 ≤ decimal [y1, y2, y3, y4]

/-- A store holding one string, behind the reference 7. -/
def storeWith (str : String) : Store where
  strings := fun h => if h = .ref 7 then some str.toList else none

end WikidataImporter

/-! # Buffer (`sling/stream/buffer.cc`)

The buffer owns one allocation `[floor_, ceil_)` and keeps the unread bytes in
`[begin_, end_)`.  The allocation is the list of its bytes; `begin_` and `end_`
are kept as offsets from `floor_`, and the null buffer is the empty allocation.
Sizes are `size_t` and pointers are 64 bits wide: sums and differences are taken
modulo 2^64.  `realloc` may fail, in which case the `CHECK` on its result aborts,
and a copy that leaves the allocation is undefined: an operation gives no result
then. -/

namespace Sling

/-- A `size_t` value computed from `n`: the arithmetic is modulo 2^64. -/
def toSize (n : Nat) : Nat := n % 2 ^ 64

/-- The difference `a - b` of two pointers into the allocation as a `size_t`. -/
def sizeDiff (a b : Nat) : Nat := (a + 2 ^ 64 - b) % 2 ^ 64

/-- The state of a `Buffer`: the bytes of the allocation and the two offsets. -/
structure Buffer where
  mem : List Nat
  begin_ : Nat
  end_ : Nat
  deriving DecidableEq, Repr

namespace Buffer

/-- Modelled from the spec: `capacity()` of `buffer.h` (not under src/), the size of
the allocation, which `Ensure` computes as `ceil_ - floor_`. -/
def capacity (b : Buffer) : Nat := b.mem.length

/-- Modelled from the spec: `available()` of `buffer.h` (not under src/), the number of
unread bytes `end_ - begin_`. -/
def available (b : Buffer) : Nat := sizeDiff b.end_ b.begin_

/-- `realloc(ptr, size)`: when the allocator provides a block of `size` bytes
(`avail size`), it holds the old bytes up to the smaller of the two sizes; the
new bytes are unspecified and taken as 0.  Otherwise the result is null. -/
def realloc (avail : Nat → Bool) (mem : List Nat) (size : Nat) : Option (List Nat) :=
  if avail size then some (mem.take size ++ List.replicate (size - mem.length) 0)
  else none

/-- `memmove(floor_ + dst, floor_ + src, n)`: the allocation afterwards.  Both
regions have to lie inside the allocation. -/
def memmove (mem : List Nat) (dst src n : Nat) : Option (List Nat) :=
  if src + n ≤ mem.length ∧ dst + n ≤ mem.length then
    some (mem.take dst ++ (mem.drop src).take n ++ mem.drop (dst + n))
  else none

/-- `memcpy(floor_ + dst, data, size)`: the allocation afterwards.  The region
written has to lie inside the allocation. -/
def memcpy (mem : List Nat) (dst : Nat) (data : List Nat) : Option (List Nat) :=
  if dst + data.length ≤ mem.length then
    some (mem.take dst ++ data ++ mem.drop (dst + data.length))
  else none

/-- `memcpy(data, floor_ + src, size)`: the bytes copied out.  The region read has
to lie inside the allocation. -/
def memread (mem : List Nat) (src size : Nat) : Option (List Nat) :=
  if src + size ≤ mem.length then some ((mem.drop src).take size) else none

/-- `Buffer::Reset(size)`. -/
def Reset (avail : Nat → Bool) (b : Buffer) (size : Nat) : Option Buffer :=
  if size != b.capacity then
    if size == 0 then
      some ⟨[], 0, 0⟩
    else
      match realloc avail b.mem size with
      | none => none
      | some mem => some ⟨mem, 0, 0⟩
  else
    some ⟨b.mem, 0, 0⟩

/-- `Buffer::Resize(size)`: `begin_` is put at its old offset in the new
allocation and `end_` at `used` bytes after it. -/
def Resize (avail : Nat → Bool) (b : Buffer) (size : Nat) : Option Buffer :=
  if size != b.capacity then
    let offset := b.begin_
    let used := sizeDiff b.end_ b.begin_
    match realloc avail b.mem size with
    | none => none
    | some mem => some ⟨mem, offset, toSize (offset + used)⟩
  else
    some b

/-- `Buffer::Flush()`. -/
def Flush (b : Buffer) : Option Buffer :=
  if b.begin_ > 0 then
    let used := sizeDiff b.end_ b.begin_
    match memmove b.mem 0 b.begin_ used with
    | none => none
    | some mem => some ⟨mem, 0, toSize (0 + used)⟩
  else
    some b

/-- The loop `while (newsize < minsize) newsize *= 2` of `Ensure`, on `size_t`.
It need not end (a `newsize` that wrapped to 0 stays 0), so it runs on fuel. -/
def Ensure.grow : Nat → Nat → Nat → Option Nat
  | 0, _, _ => none
  | fuel + 1, newsize, minsize =>
    if newsize < minsize then Ensure.grow fuel (toSize (newsize * 2)) minsize
    else some newsize

/-- `Buffer::Ensure(size)`. -/
def Ensure (avail : Nat → Bool) (fuel : Nat) (b : Buffer) (size : Nat) :
    Option Buffer :=
  let minsize := toSize (b.end_ + size)
  let newsize := b.capacity
  let newsize := if newsize == 0 then 4096 else newsize
  match Ensure.grow fuel newsize minsize with
  | none => none
  | some newsize => b.Resize avail newsize

/-- `Buffer::Clear()`. -/
def Clear (_b : Buffer) : Buffer := ⟨[], 0, 0⟩

/-- `Buffer::Append(size)`: returns the offset of the appended region. -/
def Append (avail : Nat → Bool) (fuel : Nat) (b : Buffer) (size : Nat) :
    Option (Nat × Buffer) :=
  match b.Ensure avail fuel size with
  | none => none
  | some b => some (b.end_, { b with end_ := toSize (b.end_ + size) })

/-- `Buffer::Consume(size)`: returns the offset of the consumed region.  The
`DCHECK_LE(size, available())` is compiled out of release builds. -/
def Consume (b : Buffer) (size : Nat) : Nat × Buffer :=
  (b.begin_, { b with begin_ := toSize (b.begin_ + size) })

/-- `Buffer::Read(data, size)`: returns the bytes copied out to `data`; the
`CHECK_LE(size, available())` aborts otherwise. -/
def Read (b : Buffer) (size : Nat) : Option (List Nat × Buffer) :=
  if size ≤ b.available then
    match memread b.mem b.begin_ size with
    | none => none
    | some data => some (data, { b with begin_ := toSize (b.begin_ + size) })
  else
    none

/-- `Buffer::Write(data, size)`, with `data` the `size` bytes written. -/
def Write (avail : Nat → Bool) (fuel : Nat) (b : Buffer) (data : List Nat) :
    Option Buffer :=
  match b.Ensure avail fuel data.length with
  | none => none
  | some b =>
    match memcpy b.mem b.end_ data with
    | none => none
    | some mem => some ⟨mem, b.begin_, toSize (b.end_ + data.length)⟩

/-! ### The specification side -/

/-- The buffer invariant `floor_ <= begin_ <= end_ <= ceil_`, on offsets. -/
def Valid (b : Buffer) : Prop := b.begin_ ≤ b.end_ ∧ b.end_ ≤ b.capacity

instance (b : Buffer) : Decidable b.Valid := by
  unfold Valid
  infer_instance

/-- The unread bytes, those at the offsets `[begin_, end_)`. -/
def unread (b : Buffer) : List Nat := (b.mem.take b.end_).drop b.begin_

/-- The free space after `end_`. -/
def remaining (b : Buffer) : Nat := b.capacity - b.end_

/-- The buffer of a default-constructed `Buffer`: all four pointers null. -/
def null : Buffer := ⟨[], 0, 0⟩

/-- An allocator that provides every nonzero size up to a megabyte. -/
def smallHeap (size : Nat) : Bool := decide (0 < size) && decide (size ≤ 2 ^ 20)

end Buffer

end Sling

/-! # NumberAnnotator (`sling/nlp/ner/measures.cc`)

`NumberAnnotator::Annotate` with the two overloads of `ParseNumber`.  A word is
the list of its characters (bytes).  The `double` accumulator of `ParseNumber`
holds an integer until the final `value *= scale`; it is kept exactly, as the
digits read, the sign and the number of decimals, so a `Float` result carries the
decimal number before its rounding to `double` (an `Integer` result lies within
`kMinInt..kMaxInt`, where `double` is exact).  `Handle::kMinInt` and
`Handle::kMaxInt` are declared outside src/ and are parameters. -/

namespace NumberAnnotator

/-- The handles `Annotate` produces: nil, a tagged integer, a float (here the
decimal `mantissa / 10^decimals`), and the frame `{isa: n_time_, is: number}`
built for a year. -/
inductive Handle
  | nil
  | Integer (n : Int)
  | Float (mantissa : Int) (decimals : Nat)
  | time (number : Handle)
  deriving DecidableEq, Repr

/-- `Handle::IsNil`. -/
def Handle.IsNil : Handle → Bool
  | .nil => true
  | _ => false

/-- `Handle::IsInt`. -/
def Handle.IsInt : Handle → Bool
  | .Integer _ => true
  | _ => false

/-- `Handle::AsInt`, used on integer handles only. -/
def Handle.AsInt : Handle → Int
  | .Integer n => n
  | _ => 0

/-- The span flags `Annotate` passes to the chart. -/
inductive SpanFlag
  | SPAN_NUMBER | SPAN_DATE
  deriving DecidableEq, Repr

/-- The number formats. -/
inductive Format
  | STANDARD | IMPERIAL | NORWEGIAN
  deriving DecidableEq, Repr

/-- One call `chart->Add(begin, end, match, flags)`. -/
structure Added where
  begin_ : Int
  end_ : Int
  match_ : Handle
  flags : SpanFlag
  deriving DecidableEq, Repr

/-- The test `c >= '0' && c <= '9'`. -/
def isDigit (c : Char) : Bool := decide ('0'.toNat ≤ c.toNat) && decide (c.toNat ≤ '9'.toNat)

/-- The integer part of `ParseNumber`: the loop `while (p < end)` over digits and
thousand separators.  `pos` is the offset of `p`, `group` the offset of the
current group when one was started.  The result is nothing when the loop returns
`Handle::nil()`, and otherwise the value, the group, and the rest of the string
from `p` on (empty, or starting with the decimal separator). -/
def ParseNumber.integerPart (tsep dsep : Char) :
    List Char → Nat → Nat → Option Nat → Option (Nat × Option Nat × Nat × List Char)
  | [], pos, value, group => some (value, group, pos, [])
  | c :: rest, pos, value, group =>
    if isDigit c then
      ParseNumber.integerPart tsep dsep rest (pos + 1) (value * 10 + (c.toNat - '0'.toNat)) group
    else if c = tsep then
      if group.any (fun g => pos - g != 3) then none
      else ParseNumber.integerPart tsep dsep rest (pos + 1) value (some (pos + 1))
    else if c = dsep then
      some (value, group, pos, c :: rest)
    else
      none

/-- The decimal part of `ParseNumber`: the loop over digits and the separator
`msep`, counting the decimals (`scale /= 10.0`).  It ends at the end of the string
or returns `Handle::nil()`. -/
def ParseNumber.decimalPart (msep : Char) :
    List Char → Nat → Nat → Nat → Option Nat → Option (Nat × Nat × Option Nat × Nat)
  | [], pos, value, decimals, group => some (value, decimals, group, pos)
  | c :: rest, pos, value, decimals, group =>
    if isDigit c then
      ParseNumber.decimalPart msep rest (pos + 1) (value * 10 + (c.toNat - '0'.toNat))
        (decimals + 1) group
    else if c = msep then
      if group.any (fun g => pos - g != 3) then none
      else ParseNumber.decimalPart msep rest (pos + 1) value decimals (some (pos + 1))
    else
      none

/-- The end of `ParseNumber`, "Compute number": `value *= scale`, then a float for
a decimal or out-of-range value and an integer otherwise. -/
def ParseNumber.compute (kMinInt kMaxInt : Int) (negative decimal : Bool)
    (value decimals : Nat) : Handle :=
  let signed : Int := if negative then -(value : Int) else (value : Int)
  if decimal || signed < kMinInt * 10 ^ decimals || signed > kMaxInt * 10 ^ decimals then
    .Float signed decimals
  else
    .Integer signed

/-- The body of `ParseNumber` after the sign: `p` is the string from the offset
`pos` on, `negative` tells whether `scale` was set to `-1.0`. -/
def ParseNumber.afterSign (kMinInt kMaxInt : Int) (tsep dsep msep : Char)
    (negative : Bool) (p : List Char) (pos : Nat) : Handle :=
  match ParseNumber.integerPart tsep dsep p pos 0 none with
  | none => .nil
  | some (value, group, pos, rest) =>
    if group.any (fun g => pos - g != 3) then .nil else
    match rest with
    | [] => ParseNumber.compute kMinInt kMaxInt negative false value 0
    | c :: rest =>
      if c = dsep then
        match ParseNumber.decimalPart msep rest (pos + 1) value 0 none with
        | none => .nil
        | some (value, decimals, group, pos) =>
          if group.any (fun g => pos - g != 3) then .nil
          else ParseNumber.compute kMinInt kMaxInt negative true value decimals
      else .nil

/-- `ParseNumber(str, tsep, dsep, msep)`. -/
def ParseNumber (kMinInt kMaxInt : Int) (str : List Char) (tsep dsep msep : Char) :
    Handle :=
  match str with
  | [] => .nil
  | c0 :: tail =>
    if c0 == '-' then
      ParseNumber.afterSign kMinInt kMaxInt tsep dsep msep true tail 1
    else if c0 == '+' then
      ParseNumber.afterSign kMinInt kMaxInt tsep dsep msep false tail 1
    else
      ParseNumber.afterSign kMinInt kMaxInt tsep dsep msep false (c0 :: tail) 0

/-- `ParseNumber(str, format)`. -/
def ParseNumberFormat (kMinInt kMaxInt : Int) (str : List Char) (format : Format) :
    Handle :=
  match format with
  | .STANDARD =>
    let number := ParseNumber kMinInt kMaxInt str '.' ',' (Char.ofNat 0)
    if number.IsNil then ParseNumber kMinInt kMaxInt str ',' '.' (Char.ofNat 0) else number
  | .IMPERIAL =>
    let number := ParseNumber kMinInt kMaxInt str ',' '.' (Char.ofNat 0)
    if number.IsNil then ParseNumber kMinInt kMaxInt str '.' ',' (Char.ofNat 0) else number
  | .NORWEGIAN =>
    let number := ParseNumber kMinInt kMaxInt str ' ' '.' ' '
    if number.IsNil then ParseNumber kMinInt kMaxInt str '.' ',' (Char.ofNat 0) else number

/-- The scan "Check if token contains digits": the pair `(has_digits, all_digits)`
after the loop.  Both branches are as in the source; the second assigns `true`. -/
def digitScan (word : List Char) : Bool × Bool :=
  word.foldl (fun (s : Bool × Bool) c => if isDigit c then (true, s.2) else (s.1, true))
    (false, true)

/-- The body of the token loop of `Annotate` for token `t` with text `word`: the
calls of `chart->Add` it makes, appended to those made before. -/
def AnnotateToken (kMinInt kMaxInt : Int) (format : Format) (t : Int)
    (word : List Char) (chart : List Added) : List Added :=
  let (has_digits, all_digits) := digitScan word
  if has_digits then
    let number := ParseNumberFormat kMinInt kMaxInt word format
    if !number.IsNil then
      if word.length == 4 && all_digits && number.IsInt then
        let value := number.AsInt
        if value >= 1582 && value <= 2038 then
          chart ++ [⟨t, t + 1, .time number, .SPAN_DATE⟩]
        else
          chart ++ [⟨t, t + 1, number, .SPAN_NUMBER⟩]
      else
        chart ++ [⟨t, t + 1, number, .SPAN_NUMBER⟩]
    else chart
  else chart

/-- The format `Annotate` picks from the document language (`english` when the
document has none). -/
def documentFormat (isEnglish : Bool) : Format :=
  if isEnglish then .IMPERIAL else .STANDARD

/-- The token loop of `Annotate`, from token `t` on. -/
def Annotate.loop (kMinInt kMaxInt : Int) (format : Format) :
    Int → List (List Char) → List Added → List Added
  | _, [], chart => chart
  | t, word :: rest, chart =>
    Annotate.loop kMinInt kMaxInt format (t + 1) rest
      (AnnotateToken kMinInt kMaxInt format t word chart)

/-- `NumberAnnotator::Annotate(chart)` on the tokens `begin .. end - 1` of the chart,
given by their words: the calls of `chart->Add` in order. -/
def Annotate (kMinInt kMaxInt : Int) (isEnglish : Bool) (begin_ : Int)
    (words : List (List Char)) : List Added :=
  Annotate.loop kMinInt kMaxInt (documentFormat isEnglish) begin_ words []

/-! ### The specification side -/

/-- The number a word of decimal digits denotes. -/
def decimal (word : List Char) : Nat :=
  word.foldl (fun n c => n * 10 + (c.toNat - 48)) 0

/-- The year rule as the specification words it: exactly four ASCII digits and
nothing else, with a value from 1582 to 2038. -/
def IsYear (word : List Char) : Prop :=
  word.length = 4 ∧ (∀ c ∈ word, isDigit c = true) ∧ 1582 ≤ decimal word ∧
    decimal word ≤ 2038

instance (word : List Char) : Decidable (IsYear word) := by
  unfold IsYear
  infer_instance

/-- The annotation the specification gives token `t` with text `word`: the year
frame with `SPAN_DATE` for a year; otherwise, for a word with a digit that parses
as a number, that number with `SPAN_NUMBER`; otherwise none. -/
def expected (kMinInt kMaxInt : Int) (format : Format) (t : Int) (word : List Char) :
    List Added :=
  if IsYear word then
    [⟨t, t + 1, .time (.Integer (decimal word)), .SPAN_DATE⟩]
  else if word.any isDigit ∧ ParseNumberFormat kMinInt kMaxInt word format ≠ .nil then
    [⟨t, t + 1, ParseNumberFormat kMinInt kMaxInt word format, .SPAN_NUMBER⟩]
  else
    []

/-- The annotations the specification gives the tokens `t, t + 1, ...` with the
given words. -/
def expectedAll (kMinInt kMaxInt : Int) (format : Format) :
    Int → List (List Char) → List Added
  | _, [] => []
  | t, word :: rest =>
    expected kMinInt kMaxInt format t word ++ expectedAll kMinInt kMaxInt format (t + 1) rest

end NumberAnnotator

/-! # SpanChart (`sling/nlp/ner/chart.cc`)

`SpanChart::Solve`.  The costs are `float`; they enter as a linearly ordered type
`C` (the floats without NaN) with the addition `add`, of which nothing is assumed.
Token positions are natural numbers: they run from 0 to `size_`. -/

namespace SpanChart

/-- The fields of a chart item that `Solve` reads or writes: whether `matches` is
non-null, whether `aux` is non-nil, the cost and the split point. -/
structure Item (C : Type) where
  matches_ : Bool
  aux : Bool
  cost : C
  split : Int

/-- Modelled from the spec: the accessor `item(b, e)` of `chart.h` (not under src/),
which gives the item of the span `[b, e)`; the items are kept by their span, so
distinct spans have distinct items. -/
abbrev Items (C : Type) := Nat → Nat → Item C

/-- An assignment through `item(b, e)`. -/
def setItem {C : Type} (items : Items C) (b e : Nat) (it : Item C) : Items C :=
  fun b2 e2 => if b2 = b ∧ e2 = e then it else items b2 e2

/-- The loop `for (int l = 1; l <= maxlen_; l++)` of the segment search from `b`,
with `k` rounds left: a span `[b, b + l)` with matches or an auxiliary item moves
`segment_end` up to its end.  The segment end is carried with its bounds. -/
def Solve.lengths {C : Type} (size_ : Nat) (items : Items C) (lo b : Nat) :
    Nat → Nat → { n : Nat // lo ≤ n ∧ n ≤ size_ } → { n : Nat // lo ≤ n ∧ n ≤ size_ }
  | 0, _, segment_end => segment_end
  | k + 1, l, segment_end =>
    if h : b + l > size_ then segment_end
    else if (items b (b + l)).matches_ || (items b (b + l)).aux then
      Solve.lengths size_ items lo b k (l + 1)
        (if h2 : b + l > segment_end.1 then ⟨b + l, by omega, by omega⟩ else segment_end)
    else
      Solve.lengths size_ items lo b k (l + 1) segment_end

/-- The loop `for (int b = segment_begin; b < segment_end; ++b)` of the segment
search, "Find next segment". -/
def Solve.findEnd {C : Type} (size_ maxlen_ : Nat) (items : Items C) (lo : Nat)
    (b : Nat) (segment_end : { n : Nat // lo ≤ n ∧ n ≤ size_ }) :
    { n : Nat // lo ≤ n ∧ n ≤ size_ } :=
  if _h : b < segment_end.1 then
    Solve.findEnd size_ maxlen_ items lo (b + 1)
      (Solve.lengths size_ items lo b maxlen_ 1 segment_end)
  else segment_end
termination_by size_ - b
decreasing_by
  have := segment_end.2
  omega

/-- The body of the innermost loop, "Consider the split [s;s+n) and [s+n;s+l)". -/
def Solve.relax {C : Type} [LinearOrder C] (add : C → C → C) (s l : Nat)
    (items : Items C) (n : Nat) : Items C :=
  let cost := add (items s (s + n)).cost (items (s + n) (s + l)).cost
  if cost < (items s (s + l)).cost then
    setItem items s (s + l) { items s (s + l) with cost := cost, split := n }
  else items

/-- The loop `for (int n = 1; n < l; ++n)`, "Find best split of span [s;s+l)". -/
def Solve.bestSplit {C : Type} [LinearOrder C] (add : C → C → C) (s l : Nat)
    (items : Items C) : Items C :=
  (List.range' 1 (l - 1)).foldl (Solve.relax add s l) items

/-- The loop `for (int s = segment_begin; s <= segment_end - l; ++s)`, "Find best
covering for all spans of length l". -/
def Solve.spans {C : Type} [LinearOrder C] (add : C → C → C)
    (segment_begin segment_end l : Nat) (items : Items C) : Items C :=
  (List.range' segment_begin (segment_end + 1 - (segment_begin + l))).foldl
    (fun items s => Solve.bestSplit add s l items) items

/-- The loop `for (int l = 2; l <= segment_size; ++l)`, "Compute best span
covering for the segment". -/
def Solve.cover {C : Type} [LinearOrder C] (add : C → C → C)
    (segment_begin segment_end : Nat) (items : Items C) : Items C :=
  (List.range' 2 (segment_end - segment_begin - 1)).foldl
    (fun items l => Solve.spans add segment_begin segment_end l items) items

/-- The step "Mark segment split". -/
def Solve.mark {C : Type} (size_ : Nat) (segment_begin segment_end : Nat)
    (items : Items C) : Items C :=
  if segment_end ≠ size_ then
    setItem items segment_begin size_
      { items segment_begin size_ with split := (segment_end : Int) - segment_begin }
  else items

/-- The loop `while (segment_begin < size_)` of `Solve`, from `segment_begin` on.
Next to the items it returns the segments `(segment_begin, segment_end)` it went
through, which the source does not keep; they serve the statements only. -/
def Solve.loop {C : Type} [LinearOrder C] (add : C → C → C) (size_ maxlen_ : Nat)
    (items : Items C) (segment_begin : Nat) : Items C × List (Nat × Nat) :=
  if h : segment_begin < size_ then
    let segment_end := Solve.findEnd size_ maxlen_ items (segment_begin + 1) segment_begin
      ⟨segment_begin + 1, le_rfl, h⟩
    let covered := Solve.cover add segment_begin segment_end.1 items
    let marked := Solve.mark size_ segment_begin segment_end.1 covered
    let rest := Solve.loop add size_ maxlen_ marked segment_end.1
    (rest.1, (segment_begin, segment_end.1) :: rest.2)
  else (items, [])
termination_by size_ - segment_begin
decreasing_by
  generalize Solve.findEnd size_ maxlen_ items (segment_begin + 1) segment_begin _ = r
  have := r.2
  omega

/-- `SpanChart::Solve()`: the items after the call. -/
def Solve {C : Type} [LinearOrder C] (add : C → C → C) (size_ maxlen_ : Nat)
    (items : Items C) : Items C :=
  (Solve.loop add size_ maxlen_ items 0).1

/-- The segments `Solve` goes through. -/
def Solve.segments {C : Type} [LinearOrder C] (add : C → C → C) (size_ maxlen_ : Nat)
    (items : Items C) : List (Nat × Nat) :=
  (Solve.loop add size_ maxlen_ items 0).2

/-- The items the constructor leaves, `item(b, e).cost = e - b`, with the costs
`Populate` sets to 1 for the spans with matches.  Integer costs; -1 stands for an
unset split. -/
def initial (matched : List (Nat × Nat)) : Items Int :=
  fun b e => if (b, e) ∈ matched then ⟨true, false, 1, -1⟩ else ⟨false, false, (e : Int) - b, -1⟩

/-! ### The specification side -/

/-- The span `[s, s + l)` is solved: its final cost is at most the sum of the final
costs of the two parts of every split; it is at most the cost before; and either
cost and split are the ones before, or the cost went down and the split names a
split point whose sum is the final cost. -/
def Solved {C : Type} [LinearOrder C] (add : C → C → C) (before after : Items C)
    (s l : Nat) : Prop :=
  (∀ n, 0 < n → n < l →
    (after s (s + l)).cost ≤ add (after s (s + n)).cost (after (s + n) (s + l)).cost) ∧
  (after s (s + l)).cost ≤ (before s (s + l)).cost ∧
  (((after s (s + l)).cost = (before s (s + l)).cost ∧
      (after s (s + l)).split = (before s (s + l)).split) ∨
    ((after s (s + l)).cost < (before s (s + l)).cost ∧
      ∃ n : Nat, 0 < n ∧ n < l ∧ (after s (s + l)).split = n ∧
        (after s (s + l)).cost =
          add (after s (s + n)).cost (after (s + n) (s + l)).cost))

/-- The state of the span `[s, s + l)` after the splits below `a` were considered,
with the costs of the parts read from `parts`: the cost is at most every sum
considered and at most the cost before, and either nothing was assigned or the
cost went down and the split names a point considered whose sum is the cost. -/
def SplitState {C : Type} [LinearOrder C] (add : C → C → C) (parts before cur : Items C)
    (s l a : Nat) : Prop :=
  (∀ n, 0 < n → n < a →
    (cur s (s + l)).cost ≤ add (parts s (s + n)).cost (parts (s + n) (s + l)).cost) ∧
  (cur s (s + l)).cost ≤ (before s (s + l)).cost ∧
  (((cur s (s + l)).cost = (before s (s + l)).cost ∧
      (cur s (s + l)).split = (before s (s + l)).split) ∨
    ((cur s (s + l)).cost < (before s (s + l)).cost ∧
      ∃ n : Nat, 0 < n ∧ n < a ∧ (cur s (s + l)).split = n ∧
        (cur s (s + l)).cost =
          add (parts s (s + n)).cost (parts (s + n) (s + l)).cost))

end SpanChart

/-! ## Theorems -/

namespace Myelin

/-! ### RELU on registers -/

/-- With distinct destination and source registers the RELU code of every
generator leaves `max(0, x)` in the destination, `x` being the value the source
held (float or double, SSE2 enabled). -/
theorem relu_distinct_registers {V : Type} (L : Lanes V) (v : Variant)
    (self : ExpressionGenerator) (d s : Int) (rf : Int → V)
    (hty : self.type_.isFlt = true) (hsse2 : self.cpu.sse2 = true)
    (hd : d ≠ -1) (hs : s ≠ -1) (hds : d ≠ s) :
    valueAfter L v self (reluOp d s) rf d = some (L.max L.zero (rf s)) := by
  obtain ⟨ty, cpu, argnum⟩ := self
  have hsd : ¬ s = d := fun h => hds h.symm
  cases v <;> cases ty <;>
    simp_all [valueAfter, Variant.Generate, ScalarFltSSEGenerator.Generate,
      ScalarFltAVXGenerator.Generate, VectorFltSSEGenerator.Generate,
      ScalarFltSSEGenerator.GenerateRelu, ScalarFltAVXGenerator.GenerateRelu,
      VectorFltSSEGenerator.GenerateRelu, ExpressionGenerator.GenerateXMMFltOp,
      reluOp, Result.andThen, emit, xmm, MacroAssembler.empty, CPU.Enabled,
      DataType.isFlt, run, step, setReg, UNSUPPORTED]

/-- With the destination equal to the source register the RELU code of every
generator leaves `max(0, 0)` in it, whatever value it held (float or double,
SSE2 enabled). -/
theorem relu_same_register {V : Type} (L : Lanes V) (v : Variant)
    (self : ExpressionGenerator) (r : Int) (rf : Int → V)
    (hty : self.type_.isFlt = true) (hsse2 : self.cpu.sse2 = true)
    (hr : r ≠ -1) :
    valueAfter L v self (reluOp r r) rf r = some (L.max L.zero L.zero) := by
  obtain ⟨ty, cpu, argnum⟩ := self
  cases v <;> cases ty <;>
    simp_all [valueAfter, Variant.Generate, ScalarFltSSEGenerator.Generate,
      ScalarFltAVXGenerator.Generate, VectorFltSSEGenerator.Generate,
      ScalarFltSSEGenerator.GenerateRelu, ScalarFltAVXGenerator.GenerateRelu,
      VectorFltSSEGenerator.GenerateRelu, ExpressionGenerator.GenerateXMMFltOp,
      reluOp, Result.andThen, emit, xmm, MacroAssembler.empty, CPU.Enabled,
      DataType.isFlt, run, step, setReg, UNSUPPORTED]

/-- C1, at the failing input `RELU r2 <- r2` with r2 holding 5: on each of the
three generators, for float and for double, the emitted code leaves 0 in r2,
while max(0, 5) is 5. -/
theorem relu_in_place_loses_input (v : Variant) :
    valueAfter intLanes v ⟨.DT_FLOAT, ⟨true, true, true⟩, fun _ => 0⟩
        (reluOp 2 2) (fun _ => 5) 2 = some 0 ∧
      valueAfter intLanes v ⟨.DT_DOUBLE, ⟨true, true, true⟩, fun _ => 0⟩
        (reluOp 2 2) (fun _ => 5) 2 = some 0 ∧
      intLanes.max intLanes.zero 5 = 5 := by
  cases v <;> decide

/-! ### Capability flags -/

/-- C2 as stated fails: the baseline scalar generator sets `op_reg_reg` (and
`op_reg_mem`), the AVX scalar generator does not, with or without FMA3; so its
flag set is not a superset of the baseline's for any CPU feature set. -/
theorem scalar_flags_not_monotonic :
    ScalarFltSSEGenerator.model.op_reg_reg = true ∧
      (ScalarFltAVXGenerator.model ⟨true, true, true⟩).op_reg_reg = false ∧
      ¬ (∀ cpu : CPU,
          Model.subset ScalarFltSSEGenerator.model
            (ScalarFltAVXGenerator.model cpu) = true) := by
  refine ⟨rfl, rfl, fun h => ?_⟩
  have h1 := h ⟨true, true, true⟩
  revert h1
  decide

/-- C2, amended: for every CPU feature set, every flag the baseline scalar
generator sets other than the two-operand flags `op_reg_reg` and `op_reg_mem` is
also set by the AVX scalar generator, which sets the three-operand flags
`op_reg_reg_reg` and `op_reg_reg_mem` in their place and leaves the two-operand
ones unset. -/
theorem scalar_flags_monotonic_up_to_operand_form (cpu : CPU) :
    Model.subset
        { ScalarFltSSEGenerator.model with op_reg_reg := false, op_reg_mem := false }
        (ScalarFltAVXGenerator.model cpu) = true ∧
      ScalarFltSSEGenerator.model.op_reg_reg = true ∧
      ScalarFltSSEGenerator.model.op_reg_mem = true ∧
      (ScalarFltAVXGenerator.model cpu).op_reg_reg = false ∧
      (ScalarFltAVXGenerator.model cpu).op_reg_mem = false ∧
      (ScalarFltAVXGenerator.model cpu).op_reg_reg_reg = true ∧
      (ScalarFltAVXGenerator.model cpu).op_reg_reg_mem = true := by
  obtain ⟨sse2, sse41, fma3⟩ := cpu
  cases sse2 <;> cases sse41 <;> cases fma3 <;> decide

/-! ### Fused multiply-add/subtract -/

/-- C4: on a compare micro-operation (CMPEQOQ, CMPLTOQ, CMPGTOQ, CMPNGEUQ) the
vector SSE generator emits, for float (`cmpps`) and for double (`cmppd`) and for
a register- or memory-resident source alike, one compare instruction whose
immediate is the predicate code of the kind: 0, 17, 30 and 25; it fails with
nothing emitted on another element type or without a destination register; the
two scalar generators lower no compare at all, so no generator emits another
code for these kinds. -/
theorem compare_predicate_codes (self : ExpressionGenerator) (instr : Op)
    (masm : MacroAssembler) (c : Int) (h : predicateCode instr.type = some c) :
    Variant.Generate .VectorFltSSE self instr masm =
        (if self.type_.isFlt = true ∧ instr.dst ≠ -1 then
          .ok (emit masm (self.type_.pick .cmpps .cmppd)
            [xmm instr.dst, self.srcOperand instr, .imm c])
         else .fatal .unsupported masm) ∧
      Variant.Generate .ScalarFltSSE self instr masm = .fatal .unsupported masm ∧
      Variant.Generate .ScalarFltAVX self instr masm = .fatal .unsupported masm := by
  obtain ⟨ty, cpu, argnum⟩ := self
  obtain ⟨kind, dst, src, src2, args, result⟩ := instr
  cases kind <;> simp only [predicateCode, Option.some.injEq, reduceCtorEq] at h <;>
    subst h <;> refine ⟨?_, rfl, rfl⟩ <;>
    by_cases hd : dst = -1 <;> by_cases hs : src = -1 <;> cases ty <;>
    simp [Variant.Generate, VectorFltSSEGenerator.Generate,
      VectorFltSSEGenerator.GenerateCompare,
      ExpressionGenerator.GenerateXMMFltOpImm, ExpressionGenerator.srcOperand,
      DataType.isFlt, DataType.pick, UNSUPPORTED, hd, hs]

/-- C4 at a concrete input: `CMPLTOQ r0 <- r1` on doubles emits
`cmppd xmm0, xmm1, 17`. -/
theorem compare_predicate_codes_witness :
    predicateCode (unaryOp .CMPLTOQ 0 1).type = some 17 ∧
      Variant.Generate .VectorFltSSE ⟨.DT_DOUBLE, ⟨false, false, false⟩, fun _ => 1⟩
          (unaryOp .CMPLTOQ 0 1) MacroAssembler.empty =
        .ok ⟨[⟨.cmppd, [.xmm 0, .xmm 1, .imm 17]⟩], []⟩ :=
  ⟨rfl,
   (compare_predicate_codes ⟨.DT_DOUBLE, ⟨false, false, false⟩, fun _ => 1⟩
      (unaryOp .CMPLTOQ 0 1) MacroAssembler.empty 17 rfl).1.trans (by decide)⟩

/-! ### Zero-constant move -/

/-- C5: on the vector SSE generator a MOV whose source is a statically known
all-zero value (`IsClear`), for element type float or double, emits exactly one
instruction, `xorps dst, dst` for float and `xorpd dst, dst` for double; it has
no memory operand and no data block is created. -/
theorem zero_move_is_self_xor (self : ExpressionGenerator) (instr : Op)
    (masm : MacroAssembler) (hclear : IsClear instr = true)
    (hty : self.type_.isFlt = true) :
    Variant.Generate .VectorFltSSE self instr masm =
        .ok { code := masm.code ++
                [⟨self.type_.pick .xorps .xorpd, [.xmm instr.dst, .xmm instr.dst]⟩],
              data := masm.data } ∧
      [Operand.xmm instr.dst, Operand.xmm instr.dst].all
        (fun o => !o.isMemory) = true := by
  obtain ⟨ty, cpu, argnum⟩ := self
  obtain ⟨kind, dst, src, src2, args, result⟩ := instr
  have hk : kind = .MOV := by
    simp only [IsClear, Bool.and_eq_true, beq_iff_eq] at hclear
    exact hclear.1
  subst hk
  refine ⟨?_, by simp [Operand.isMemory]⟩
  cases ty <;>
    simp_all [Variant.Generate, VectorFltSSEGenerator.Generate, DataType.isFlt,
      DataType.pick, emit, xmm]

/-- C5 at a concrete input: `MOV r3 <- 0` on floats emits `xorps xmm3, xmm3`. -/
theorem zero_move_is_self_xor_witness :
    IsClear ⟨.MOV, 3, -1, -1, [.constant 7 true], .register 3⟩ = true ∧
      Variant.Generate .VectorFltSSE ⟨.DT_FLOAT, ⟨true, true, true⟩, fun _ => 0⟩
          ⟨.MOV, 3, -1, -1, [.constant 7 true], .register 3⟩ MacroAssembler.empty =
        .ok ⟨[⟨.xorps, [.xmm 3, .xmm 3]⟩], []⟩ :=
  ⟨rfl,
   (zero_move_is_self_xor ⟨.DT_FLOAT, ⟨true, true, true⟩, fun _ => 0⟩
      ⟨.MOV, 3, -1, -1, [.constant 7 true], .register 3⟩ MacroAssembler.empty
      rfl rfl).1⟩

/-! ### Kinds a generator does not implement -/

/-- C9: on a kind that has no case in its dispatch, `Generate` of each generator
fails as unsupported with nothing emitted; the thirteen vector-only kinds have no
case in either scalar generator and the six fused kinds have none in either SSE
generator. -/
theorem unimplemented_kind_fails (v : Variant) (self : ExpressionGenerator)
    (instr : Op) (masm : MacroAssembler) (h : instr.type ∉ v.implemented) :
    v.Generate self instr masm = .fatal .unsupported masm ∧
      (∀ k ∈ vectorOnlyKinds,
        k ∉ Variant.implemented .ScalarFltSSE ∧
        k ∉ Variant.implemented .ScalarFltAVX) ∧
      (∀ k ∈ fusedKinds,
        k ∉ Variant.implemented .ScalarFltSSE ∧
        k ∉ Variant.implemented .VectorFltSSE) := by
  refine ⟨?_, by decide, by decide⟩
  obtain ⟨kind, dst, src, src2, args, result⟩ := instr
  replace h : kind ∉ v.implemented := h
  cases v <;> cases kind <;>
    first
    | rfl
    | (exfalso; revert h; decide)

/-- C9 at a concrete input: FLOOR on the scalar AVX generator. -/
theorem unimplemented_kind_fails_witness :
    (unaryOp .FLOOR 0 1).type ∉ Variant.implemented .ScalarFltAVX ∧
      Variant.Generate .ScalarFltAVX ⟨.DT_FLOAT, ⟨true, true, true⟩, fun _ => 0⟩
          (unaryOp .FLOOR 0 1) MacroAssembler.empty =
        .fatal .unsupported MacroAssembler.empty :=
  ⟨by decide,
   (unimplemented_kind_fails .ScalarFltAVX
      ⟨.DT_FLOAT, ⟨true, true, true⟩, fun _ => 0⟩ (unaryOp .FLOOR 0 1)
      MacroAssembler.empty (by decide)).1⟩

/-! ### Floor -/

/-- C10: on the vector SSE generator a FLOOR with element type float or double
and a destination register is lowered if and only if SSE4.1 is enabled: with
SSE4.1 it emits exactly one rounding instruction (`roundps` for float, `roundpd`
for double) carrying the round-down mode; without it the operation fails as
unsupported and nothing is emitted. -/
theorem floor_needs_sse41 (self : ExpressionGenerator) (instr : Op)
    (masm : MacroAssembler) (hk : instr.type = .FLOOR)
    (hty : self.type_.isFlt = true) (hd : instr.dst ≠ -1) :
    Variant.Generate .VectorFltSSE self instr masm =
        (if self.cpu.Enabled .SSE4_1 = true then
          .ok (emit masm (self.type_.pick .roundps .roundpd)
            [xmm instr.dst, self.srcOperand instr, .imm kRoundDown])
         else .fatal .unsupported masm) ∧
      ((Variant.Generate .VectorFltSSE self instr masm).succeeded = true ↔
        self.cpu.Enabled .SSE4_1 = true) := by
  obtain ⟨ty, cpu, argnum⟩ := self
  obtain ⟨kind, dst, src, src2, args, result⟩ := instr
  simp only at hk hd hty
  subst hk
  by_cases h41 : cpu.Enabled .SSE4_1 = true <;> by_cases hs : src = -1 <;>
    cases ty <;>
    simp_all [Variant.Generate, VectorFltSSEGenerator.Generate,
      VectorFltSSEGenerator.GenerateFloor,
      ExpressionGenerator.GenerateXMMFltOpImm, ExpressionGenerator.srcOperand,
      DataType.isFlt, DataType.pick, UNSUPPORTED, Result.succeeded]

/-- C10 at a concrete input: `FLOOR r0 <- r1` on floats, without SSE4.1. -/
theorem floor_needs_sse41_witness :
    (unaryOp .FLOOR 0 1).type = .FLOOR ∧
      DataType.isFlt .DT_FLOAT = true ∧ (unaryOp .FLOOR 0 1).dst ≠ -1 ∧
      Variant.Generate .VectorFltSSE ⟨.DT_FLOAT, ⟨true, false, true⟩, fun _ => 0⟩
          (unaryOp .FLOOR 0 1) MacroAssembler.empty =
        .fatal .unsupported MacroAssembler.empty :=
  ⟨rfl, rfl, by decide,
   (floor_needs_sse41 ⟨.DT_FLOAT, ⟨true, false, true⟩, fun _ => 0⟩
      (unaryOp .FLOOR 0 1) MacroAssembler.empty rfl rfl (by decide)).1.trans
     (by decide)⟩

/-! ### Shape of what one call emits -/

/-- The two-operand helper fails with nothing emitted or emits one instruction. -/
theorem helper_emits (self : ExpressionGenerator) (instr : Op)
    (a b c d : Mnemonic) (masm : MacroAssembler) :
    (self.GenerateXMMFltOp instr a b c d masm).atomicOne masm := by
  unfold ExpressionGenerator.GenerateXMMFltOp Result.atomicOne
  obtain ⟨ty, cpu, argnum⟩ := self
  cases ty <;> simp only [UNSUPPORTED, emit] <;> split_ifs <;> simp

/-- The helper with an immediate fails with nothing emitted or emits one
instruction. -/
theorem helper_imm_emits (self : ExpressionGenerator) (instr : Op)
    (a b c d : Mnemonic) (imm : Int) (masm : MacroAssembler) :
    (self.GenerateXMMFltOpImm instr a b c d imm masm).atomicOne masm := by
  unfold ExpressionGenerator.GenerateXMMFltOpImm Result.atomicOne
  obtain ⟨ty, cpu, argnum⟩ := self
  cases ty <;> simp only [UNSUPPORTED, emit] <;> split_ifs <;> simp

/-- The three-operand helper fails with nothing emitted or emits one
instruction. -/
theorem helper3_emits (self : ExpressionGenerator) (instr : Op)
    (a b c d : Mnemonic) (masm : MacroAssembler) :
    (self.GenerateXMMFltOp3 instr a b c d masm).atomicOne masm := by
  unfold ExpressionGenerator.GenerateXMMFltOp3 Result.atomicOne
  obtain ⟨ty, cpu, argnum⟩ := self
  cases ty <;> simp only [UNSUPPORTED, emit] <;> split_ifs <;> simp

/-- The scalar move fails with nothing emitted or emits one instruction. -/
theorem scalar_move_emits (self : ExpressionGenerator) (instr : Op)
    (masm : MacroAssembler) :
    (self.GenerateXMMScalarFltMove instr masm).atomicOne masm := by
  unfold ExpressionGenerator.GenerateXMMScalarFltMove Result.atomicOne
  obtain ⟨ty, cpu, argnum⟩ := self
  cases ty <;> simp only [UNSUPPORTED, emit] <;> split_ifs <;> simp

/-- The vector move fails with nothing emitted or emits one instruction. -/
theorem vector_move_emits (self : ExpressionGenerator) (instr : Op)
    (masm : MacroAssembler) :
    (self.GenerateXMMVectorMove instr masm).atomicOne masm := by
  unfold ExpressionGenerator.GenerateXMMVectorMove Result.atomicOne
  obtain ⟨ty, cpu, argnum⟩ := self
  cases ty <;> simp only [UNSUPPORTED, emit] <;> split_ifs <;> simp

/-- Outside RELU and the two shifts, `Generate` of every generator fails with
nothing emitted or emits exactly one instruction. -/
theorem generate_one_step (v : Variant) (self : ExpressionGenerator) (instr : Op)
    (masm : MacroAssembler) (h : instr.type ∉ twoStepKinds) :
    (v.Generate self instr masm).atomicOne masm := by
  obtain ⟨kind, dst, src, src2, args, result⟩ := instr
  replace h : kind ∉ twoStepKinds := h
  cases v <;> cases kind <;>
    first
    | (exfalso; revert h; decide)
    | exact Or.inl rfl
    | exact helper_emits _ _ _ _ _ _ _
    | exact helper3_emits _ _ _ _ _ _ _
    | exact helper_imm_emits _ _ _ _ _ _ _ _
    | exact scalar_move_emits _ _ _
    | (simp only [Variant.Generate, VectorFltSSEGenerator.Generate,
        VectorFltSSEGenerator.GenerateFloor, VectorFltSSEGenerator.GenerateFltToInt,
        VectorFltSSEGenerator.GenerateIntToFlt]
       split_ifs
       all_goals
        first
        | exact Or.inl rfl
        | exact helper_emits _ _ _ _ _ _ _
        | exact helper_imm_emits _ _ _ _ _ _ _ _
        | exact vector_move_emits _ _ _
        | (obtain ⟨ty, cpu, argnum⟩ := self
           cases ty <;> simp [Result.atomicOne, UNSUPPORTED, emit]))

/-- RELU and the shifts: `Generate` of every generator returns after emitting two
instructions, or fails after emitting at most one. -/
theorem generate_two_step (v : Variant) (self : ExpressionGenerator) (instr : Op)
    (masm : MacroAssembler) (h : instr.type ∈ twoStepKinds) :
    match v.Generate self instr masm with
    | .ok m => ∃ e, m.code = masm.code ++ e ∧ e.length = 2
    | .fatal _ m => ∃ e, m.code = masm.code ++ e ∧ e.length ≤ 1 := by
  obtain ⟨kind, dst, src, src2, args, result⟩ := instr
  obtain ⟨ty, cpu, argnum⟩ := self
  replace h : kind ∈ twoStepKinds := h
  simp only [twoStepKinds, List.mem_cons, List.mem_singleton, List.not_mem_nil,
    or_false] at h
  rcases h with h | h | h <;> subst h <;> cases v <;> cases ty <;>
    simp only [Variant.Generate, ScalarFltSSEGenerator.Generate,
      ScalarFltAVXGenerator.Generate, VectorFltSSEGenerator.Generate,
      ScalarFltSSEGenerator.GenerateRelu, ScalarFltAVXGenerator.GenerateRelu,
      VectorFltSSEGenerator.GenerateRelu, VectorFltSSEGenerator.GenerateShift,
      ExpressionGenerator.GenerateXMMFltOp, Result.andThen, UNSUPPORTED, emit] <;>
    (try split_ifs) <;> simp

/-- A successful `Generate` has appended at least one instruction. -/
theorem generate_ok_emits (v : Variant) (self : ExpressionGenerator) (instr : Op)
    (masm m : MacroAssembler) (h : v.Generate self instr masm = .ok m) :
    ∃ e, m.code = masm.code ++ e ∧ 1 ≤ e.length := by
  by_cases hk : instr.type ∈ twoStepKinds
  · have h2 := generate_two_step v self instr masm hk
    rw [h] at h2
    obtain ⟨e, he, hlen⟩ := h2
    exact ⟨e, he, by omega⟩
  · rcases generate_one_step v self instr masm hk with h1 | ⟨i, h1⟩
    · rw [h] at h1
      cases h1
    · rw [h] at h1
      cases h1
      exact ⟨[i], rfl, by simp⟩

/-- A failed `Generate` has appended at most one instruction, and none outside
RELU and the two shifts. -/
theorem generate_fatal_emits (v : Variant) (self : ExpressionGenerator)
    (instr : Op) (masm : MacroAssembler) (why : Failure) (m : MacroAssembler)
    (h : v.Generate self instr masm = .fatal why m) :
    (instr.type ∉ twoStepKinds → m = masm) ∧
      ∃ e, m.code = masm.code ++ e ∧ e.length ≤ 1 := by
  by_cases hk : instr.type ∈ twoStepKinds
  · have h2 := generate_two_step v self instr masm hk
    rw [h] at h2
    exact ⟨fun hn => absurd hk hn, h2⟩
  · rcases generate_one_step v self instr masm hk with h1 | ⟨i, h1⟩
    · rw [h] at h1
      cases h1
      exact ⟨fun _ => rfl, [], by simp, by simp⟩
    · rw [h] at h1
      cases h1

/-- Lowering a concatenation: the first part, then the second. -/
theorem generateSequence_append (v : Variant) (self : ExpressionGenerator)
    (xs ys : List Op) (masm : MacroAssembler) :
    v.GenerateSequence self (xs ++ ys) masm =
      (v.GenerateSequence self xs masm).andThen (v.GenerateSequence self ys) := by
  induction xs generalizing masm with
  | nil => rfl
  | cons x xs ih =>
    simp only [List.cons_append, Variant.GenerateSequence]
    cases hx : v.Generate self x masm with
    | ok m => simpa [Result.andThen] using ih m
    | fatal why m => rfl

/-- A successfully lowered sequence has appended at least one instruction per
operation. -/
theorem generateSequence_ok_emits (v : Variant) (self : ExpressionGenerator)
    (ops : List Op) (masm m : MacroAssembler)
    (h : v.GenerateSequence self ops masm = .ok m) :
    ∃ e, m.code = masm.code ++ e ∧ ops.length ≤ e.length := by
  induction ops generalizing masm with
  | nil =>
    simp only [Variant.GenerateSequence, Result.ok.injEq] at h
    subst h
    exact ⟨[], by simp, by simp⟩
  | cons x xs ih =>
    simp only [Variant.GenerateSequence] at h
    cases hx : v.Generate self x masm with
    | ok m1 =>
      rw [hx] at h
      obtain ⟨e1, he1, hl1⟩ := generate_ok_emits v self x masm m1 hx
      obtain ⟨e2, he2, hl2⟩ := ih m1 h
      refine ⟨e1 ++ e2, ?_, ?_⟩
      · rw [he2, he1, List.append_assoc]
      · simp only [List.length_cons, List.length_append]
        omega
    | fatal why m1 =>
      rw [hx] at h
      cases h

/-! ### Failure inside one micro-operation -/

/-- C6 as stated fails: a failing lowering can have emitted an instruction.  On
the AVX scalar generator a RELU with an unsupported element type, or without a
destination register, fails after `vpxor` has been emitted; on the vector SSE
generator a shift without SSE2 fails after the move into the destination has
been emitted. -/
theorem failure_after_partial_emission :
    Variant.Generate .ScalarFltAVX ⟨.DT_INT32, ⟨true, true, true⟩, fun _ => 0⟩
        (reluOp 0 1) MacroAssembler.empty =
      .fatal .unsupported ⟨[⟨.vpxor, [.xmm 0, .xmm 0, .xmm 0]⟩], []⟩ ∧
    Variant.Generate .ScalarFltAVX ⟨.DT_FLOAT, ⟨true, true, true⟩, fun _ => 0⟩
        (reluOp (-1) 1) MacroAssembler.empty =
      .fatal .unsupported ⟨[⟨.vpxor, [.xmm (-1), .xmm (-1), .xmm (-1)]⟩], []⟩ ∧
    Variant.Generate .VectorFltSSE ⟨.DT_FLOAT, ⟨false, true, true⟩, fun _ => 0⟩
        (unaryOp .SHL23 0 1) MacroAssembler.empty =
      .fatal .unsupported ⟨[⟨.movapd, [.xmm 0, .xmm 1]⟩], []⟩ := by
  decide

/-- C6, amended: when lowering a micro-operation fails, at most one instruction
has been emitted for it, and none at all unless the operation is a RELU or a
shift (SHR23, SHL23), whose lowerings emit their first instruction before their
last check. -/
theorem failure_emits_at_most_one (v : Variant) (self : ExpressionGenerator)
    (instr : Op) (masm : MacroAssembler) (why : Failure) (m : MacroAssembler)
    (h : v.Generate self instr masm = .fatal why m) :
    (instr.type ∉ twoStepKinds → m = masm) ∧
      ∃ e, m.code = masm.code ++ e ∧ e.length ≤ 1 :=
  generate_fatal_emits v self instr masm why m h

/-- C6, amended, at a concrete input: a float RELU without a destination register
on the scalar SSE generator fails with one instruction, the zeroing, emitted. -/
theorem failure_emits_at_most_one_witness :
    Variant.Generate .ScalarFltSSE ⟨.DT_FLOAT, ⟨true, true, true⟩, fun _ => 0⟩
        (reluOp (-1) 1) MacroAssembler.empty =
      .fatal .unsupported ⟨[⟨.xorps, [.xmm (-1), .xmm (-1)]⟩], []⟩ ∧
    ∃ e, [(⟨.xorps, [.xmm (-1), .xmm (-1)]⟩ : Instr)] =
      MacroAssembler.empty.code ++ e ∧ e.length ≤ 1 :=
  ⟨by decide,
   (failure_emits_at_most_one .ScalarFltSSE
      ⟨.DT_FLOAT, ⟨true, true, true⟩, fun _ => 0⟩ (reluOp (-1) 1)
      MacroAssembler.empty .unsupported
      ⟨[⟨.xorps, [.xmm (-1), .xmm (-1)]⟩], []⟩ (by decide)).2⟩

/-! ### Failure inside a sequence -/

/-- C7 as stated fails: on the vector SSE generator without SSE4.1 the sequence
`[MOV r0 <- mem(0), FLOOR r1 <- r0]` fails at the FLOOR, and the load of the MOV
that precedes it has been emitted. -/
theorem sequence_failure_keeps_earlier_code :
    Variant.GenerateSequence .VectorFltSSE
        ⟨.DT_FLOAT, ⟨true, false, true⟩, fun _ => 0⟩
        [loadOp 0 0, unaryOp .FLOOR 1 0] MacroAssembler.empty =
      .fatal .unsupported
        ⟨[⟨.movaps, [.xmm 0, .addr (some (.memory 0))]⟩], []⟩ := by
  decide

/-- C7, amended: lowering a sequence goes operation by operation and aborts at
the first operation whose lowering fails; by then the instructions of the
operations before it have been emitted (at least one per operation), at most one
instruction of the failing operation, and nothing for the operations after it. -/
theorem sequence_stops_at_first_failure (v : Variant) (self : ExpressionGenerator)
    (pre : List Op) (bad : Op) (post : List Op) (masm m1 : MacroAssembler)
    (why : Failure) (m2 : MacroAssembler)
    (hpre : v.GenerateSequence self pre masm = .ok m1)
    (hbad : v.Generate self bad m1 = .fatal why m2) :
    v.GenerateSequence self (pre ++ bad :: post) masm = .fatal why m2 ∧
      ∃ e1 e2, m1.code = masm.code ++ e1 ∧ pre.length ≤ e1.length ∧
        m2.code = m1.code ++ e2 ∧ e2.length ≤ 1 := by
  refine ⟨?_, ?_⟩
  · rw [generateSequence_append, hpre]
    simp [Result.andThen, Variant.GenerateSequence, hbad]
  · obtain ⟨e1, he1, hl1⟩ := generateSequence_ok_emits v self pre masm m1 hpre
    obtain ⟨e2, he2, hl2⟩ :=
      (generate_fatal_emits v self bad m1 why m2 hbad).2
    exact ⟨e1, e2, he1, hl1, he2, hl2⟩

/-- C7, amended, at a concrete input: `[MOV r0 <- mem(0), FLOOR r1 <- r0,
RELU r2 <- r2]` on the vector SSE generator without SSE4.1 aborts at the FLOOR
with the load emitted and nothing for the RELU. -/
theorem sequence_stops_at_first_failure_witness :
    Variant.GenerateSequence .VectorFltSSE
        ⟨.DT_FLOAT, ⟨true, false, true⟩, fun _ => 0⟩
        ([loadOp 0 0] ++ unaryOp .FLOOR 1 0 :: [reluOp 2 2])
        MacroAssembler.empty =
      .fatal .unsupported
        ⟨[⟨.movaps, [.xmm 0, .addr (some (.memory 0))]⟩], []⟩ :=
  (sequence_stops_at_first_failure .VectorFltSSE
    ⟨.DT_FLOAT, ⟨true, false, true⟩, fun _ => 0⟩ [loadOp 0 0]
    (unaryOp .FLOOR 1 0) [reluOp 2 2] MacroAssembler.empty
    ⟨[⟨.movaps, [.xmm 0, .addr (some (.memory 0))]⟩], []⟩ .unsupported
    ⟨[⟨.movaps, [.xmm 0, .addr (some (.memory 0))]⟩], []⟩
    (by decide) (by decide)).1

/-! ### The end-to-end scenario -/

/-- C8, evaluated: on the vector SSE generator with element type float the
scenario emits five instructions, none a branch: two loads, an add into r2, then
`xorps xmm2, xmm2` and `maxps xmm2, xmm2`.  The register cleared is r2 itself,
the one that holds the input of the RELU, not a scratch register, and the
maximum is taken of r2 against itself: on every register file the last two
instructions leave 0 in r2. -/
theorem scenario_clears_the_relu_input :
    Variant.GenerateSequence .VectorFltSSE
        ⟨.DT_FLOAT, ⟨true, true, true⟩, fun _ => 0⟩ scenario
        MacroAssembler.empty =
      .ok ⟨[⟨.movaps, [.xmm 0, .addr (some (.memory 0))]⟩,
            ⟨.movaps, [.xmm 1, .addr (some (.memory 1))]⟩,
            ⟨.addps, [.xmm 2, .xmm 0]⟩,
            ⟨.xorps, [.xmm 2, .xmm 2]⟩,
            ⟨.maxps, [.xmm 2, .xmm 2]⟩], []⟩ ∧
    ([Mnemonic.movaps, .movaps, .addps, .xorps, .maxps].all
      (fun m => !m.isBranch) = true) ∧
    ∀ rf : Int → Int,
      (run intLanes [] [⟨.xorps, [.xmm 2, .xmm 2]⟩, ⟨.maxps, [.xmm 2, .xmm 2]⟩]
        rf).map (fun rf1 => rf1 2) = some 0 := by
  refine ⟨by decide, by decide, fun rf => ?_⟩
  simp [run, step, setReg, intLanes]

end Myelin

namespace Myelin

/-! ### Conversions and shifts -/

/-- C11 as stated fails for the shifts: with SSE2 enabled `SHL23 r0 <- r1` on
floats emits two instructions, the move of the source into the destination and
then the shift, and so does `SHR23 r0 <- mem(0)` on doubles. -/
theorem shift_emits_two_instructions :
    Variant.Generate .VectorFltSSE ⟨.DT_FLOAT, ⟨true, true, true⟩, fun _ => 0⟩
        (unaryOp .SHL23 0 1) MacroAssembler.empty =
      .ok ⟨[⟨.movapd, [.xmm 0, .xmm 1]⟩, ⟨.pslld, [.xmm 0, .imm 23]⟩], []⟩ ∧
    Variant.Generate .VectorFltSSE ⟨.DT_DOUBLE, ⟨true, true, true⟩, fun _ => 0⟩
        (unaryMemOp .SHR23 0 0) MacroAssembler.empty =
      .ok ⟨[⟨.movapd, [.xmm 0, .addr (some (.memory 0))]⟩,
            ⟨.psrlq, [.xmm 0, .imm 23]⟩], []⟩ := by
  decide

/-- C11, amended: on the vector SSE generator with SSE2 enabled, for element type
float or double and a source in a register or in memory, CVTFLTINT and
CVTINTFLT each lower to exactly one instruction (the conversion), while SHL23
and SHR23 each lower to exactly two: the move of the source into the
destination register, then the shift of that register by 23. -/
theorem conversion_one_shift_two (self : ExpressionGenerator) (instr : Op)
    (masm : MacroAssembler) (hsse2 : self.cpu.Enabled .SSE2 = true)
    (hty : self.type_.isFlt = true) (hd : instr.dst ≠ -1) :
    (instr.type = .CVTFLTINT →
      Variant.Generate .VectorFltSSE self instr masm =
        .ok { masm with code := masm.code ++
          [⟨self.type_.pick .cvttps2dq .cvttpd2dq,
            [xmm instr.dst, self.srcOperand instr]⟩] }) ∧
    (instr.type = .CVTINTFLT →
      Variant.Generate .VectorFltSSE self instr masm =
        .ok { masm with code := masm.code ++
          [⟨self.type_.pick .cvtdq2ps .cvtdq2pd,
            [xmm instr.dst, self.srcOperand instr]⟩] }) ∧
    (instr.type = .SHL23 →
      Variant.Generate .VectorFltSSE self instr masm =
        .ok { masm with code := masm.code ++
          [shiftMove self instr,
           ⟨self.type_.pick .pslld .psllq, [xmm instr.dst, .imm 23]⟩] }) ∧
    (instr.type = .SHR23 →
      Variant.Generate .VectorFltSSE self instr masm =
        .ok { masm with code := masm.code ++
          [shiftMove self instr,
           ⟨self.type_.pick .psrld .psrlq, [xmm instr.dst, .imm 23]⟩] }) := by
  obtain ⟨ty, cpu, argnum⟩ := self
  obtain ⟨kind, dst, src, src2, args, result⟩ := instr
  simp only at hd hty hsse2
  refine ⟨?_, ?_, ?_, ?_⟩ <;> intro hk <;> simp only at hk <;> subst hk <;>
    by_cases hs : src = -1 <;> cases ty <;>
    simp_all [Variant.Generate, VectorFltSSEGenerator.Generate,
      VectorFltSSEGenerator.GenerateFltToInt, VectorFltSSEGenerator.GenerateIntToFlt,
      VectorFltSSEGenerator.GenerateShift, ExpressionGenerator.GenerateXMMFltOp,
      ExpressionGenerator.srcOperand, shiftMove, DataType.isFlt, DataType.pick,
      UNSUPPORTED, Result.andThen, emit]

/-- C11, amended, at a concrete input: `CVTINTFLT r0 <- r1` on floats is the one
instruction `cvtdq2ps xmm0, xmm1`. -/
theorem conversion_one_shift_two_witness :
    CPU.Enabled ⟨true, false, false⟩ .SSE2 = true ∧
      DataType.isFlt .DT_FLOAT = true ∧ (unaryOp .CVTINTFLT 0 1).dst ≠ -1 ∧
      Variant.Generate .VectorFltSSE ⟨.DT_FLOAT, ⟨true, false, false⟩, fun _ => 0⟩
          (unaryOp .CVTINTFLT 0 1) MacroAssembler.empty =
        .ok ⟨[⟨.cvtdq2ps, [.xmm 0, .xmm 1]⟩], []⟩ :=
  ⟨rfl, rfl, by decide,
   ((conversion_one_shift_two ⟨.DT_FLOAT, ⟨true, false, false⟩, fun _ => 0⟩
      (unaryOp .CVTINTFLT 0 1) MacroAssembler.empty rfl rfl (by decide)).2.1
        rfl).trans (by decide)⟩

/-! ### RELU with a memory-resident input -/

/-- C12, evaluated: on the AVX scalar generator `RELU r0 <- mem(0)`, whose single
argument is `args[0]`, emits the clear of r0 and then a maximum whose memory
operand is `addr(args[1])`, an index past the end of the argument list, for float
and for double; the shift lowering of the vector generator addresses `args[0]`
for the same operand shape. -/
theorem avx_relu_addresses_missing_argument :
    Variant.Generate .ScalarFltAVX ⟨.DT_FLOAT, ⟨true, true, true⟩, fun _ => 0⟩
        (reluMemOp 0 0) MacroAssembler.empty =
      .ok ⟨[⟨.vpxor, [.xmm 0, .xmm 0, .xmm 0]⟩,
            ⟨.vmaxss, [.xmm 0, .xmm 0, .addr none]⟩], []⟩ ∧
    Variant.Generate .ScalarFltAVX ⟨.DT_DOUBLE, ⟨true, true, true⟩, fun _ => 0⟩
        (reluMemOp 0 0) MacroAssembler.empty =
      .ok ⟨[⟨.vpxor, [.xmm 0, .xmm 0, .xmm 0]⟩,
            ⟨.vmaxsd, [.xmm 0, .xmm 0, .addr none]⟩], []⟩ ∧
    (reluMemOp 0 0).args = [.memory 0] ∧
    addrArg (reluMemOp 0 0) 0 = .addr (some (.memory 0)) ∧
    shiftMove ⟨.DT_FLOAT, ⟨true, true, true⟩, fun _ => 0⟩ (unaryMemOp .SHL23 0 0) =
      ⟨.movaps, [.xmm 0, .addr (some (.memory 0))]⟩ := by
  decide

/-- Whenever RELU lowering succeeds, on every generator, it has emitted exactly
two instructions, neither a branch: one that sets the destination register to
zero, then a maximum whose first operand is the destination register and whose
last operand, when the source is in a register, is the source register. -/
theorem relu_emits_zero_then_max (v : Variant) (self : ExpressionGenerator)
    (instr : Op) (masm m : MacroAssembler) (hk : instr.type = .RELU)
    (h : v.Generate self instr masm = .ok m) :
    ∃ z mx : Instr, m.code = masm.code ++ [z, mx] ∧
      z.zeroes m.data instr.dst = true ∧ mx.op.isMax = true ∧
      mx.operands.head? = some (xmm instr.dst) ∧
      (instr.src ≠ -1 → mx.operands.getLast? = some (xmm instr.src)) ∧
      z.op.isBranch = false ∧ mx.op.isBranch = false := by
  obtain ⟨ty, cpu, argnum⟩ := self
  obtain ⟨kind, dst, src, src2, args, result⟩ := instr
  simp only at hk
  subst hk
  revert h
  cases v <;> cases ty <;>
    simp only [Variant.Generate, ScalarFltSSEGenerator.Generate,
      ScalarFltAVXGenerator.Generate, VectorFltSSEGenerator.Generate,
      ScalarFltSSEGenerator.GenerateRelu, ScalarFltAVXGenerator.GenerateRelu,
      VectorFltSSEGenerator.GenerateRelu, ExpressionGenerator.GenerateXMMFltOp,
      Result.andThen, UNSUPPORTED, emit] <;>
    (try split_ifs) <;> intro h <;>
    first
    | (cases h; done)
    | (cases h
       refine ⟨_, _, List.append_assoc _ [_] [_], ?_⟩
       simp_all [Instr.zeroes, Mnemonic.isMax, Mnemonic.isBranch, xmm])

/-- C13, evaluated: with the input in a register every generator emits for
`RELU r0 <- r1` two instructions, a zeroing of r0 and a maximum of r0 and r1,
neither a branch; but for `RELU r0 <- mem(0)` on the AVX scalar generator the
maximum takes, next to the zeroed register, the memory operand `addr(args[1])`,
which is not the input `addr(args[0])`. -/
theorem relu_maximum_misses_memory_input :
    (∀ v : Variant, ∃ z mx : Instr,
      v.Generate ⟨.DT_FLOAT, ⟨true, true, true⟩, fun _ => 0⟩ (reluOp 0 1)
          MacroAssembler.empty = .ok ⟨[z, mx], []⟩ ∧
        z.zeroes [] 0 = true ∧ mx.op.isMax = true ∧
        mx.operands.head? = some (.xmm 0) ∧ mx.operands.getLast? = some (.xmm 1) ∧
        z.op.isBranch = false ∧ mx.op.isBranch = false) ∧
    (∃ z mx : Instr,
      Variant.Generate .ScalarFltAVX ⟨.DT_FLOAT, ⟨true, true, true⟩, fun _ => 0⟩
          (reluMemOp 0 0) MacroAssembler.empty = .ok ⟨[z, mx], []⟩ ∧
        z.zeroes [] 0 = true ∧ mx.op.isMax = true ∧
        mx.operands.getLast? = some (.addr none) ∧
        Operand.addr none ≠ addrArg (reluMemOp 0 0) 0) := by
  refine ⟨fun v => ?_, ?_⟩
  · cases v
    · exact ⟨⟨.xorps, [.xmm 0, .xmm 0]⟩, ⟨.maxss, [.xmm 0, .xmm 1]⟩, by decide⟩
    · exact ⟨⟨.vpxor, [.xmm 0, .xmm 0, .xmm 0]⟩,
        ⟨.vmaxss, [.xmm 0, .xmm 0, .xmm 1]⟩, by decide⟩
    · exact ⟨⟨.xorps, [.xmm 0, .xmm 0]⟩, ⟨.maxps, [.xmm 0, .xmm 1]⟩, by decide⟩
  · exact ⟨⟨.vpxor, [.xmm 0, .xmm 0, .xmm 0]⟩,
      ⟨.vmaxss, [.xmm 0, .xmm 0, .addr none]⟩, by decide⟩

/-! ### Fused flags and FMA3 -/

/-- C14: the AVX scalar generator has both fused flags set exactly when FMA3 is
enabled at construction; its flags `mov_reg_reg`, `mov_reg_imm`, `mov_reg_mem`,
`mov_mem_reg`, `op_reg_reg_reg`, `op_reg_reg_mem`, `func_reg_reg` and
`func_reg_mem` are set for every CPU feature set (and its four remaining flags
for none); neither SSE generator sets a fused flag under any CPU feature set. -/
theorem fused_flags_follow_fma3 (cpu : CPU) :
    ((ScalarFltAVXGenerator.model cpu).fm_reg_reg_reg = true ↔
        cpu.Enabled .FMA3 = true) ∧
      ((ScalarFltAVXGenerator.model cpu).fm_reg_reg_mem = true ↔
        cpu.Enabled .FMA3 = true) ∧
      (ScalarFltAVXGenerator.model cpu).mov_reg_reg = true ∧
      (ScalarFltAVXGenerator.model cpu).mov_reg_imm = true ∧
      (ScalarFltAVXGenerator.model cpu).mov_reg_mem = true ∧
      (ScalarFltAVXGenerator.model cpu).mov_mem_reg = true ∧
      (ScalarFltAVXGenerator.model cpu).op_reg_reg_reg = true ∧
      (ScalarFltAVXGenerator.model cpu).op_reg_reg_mem = true ∧
      (ScalarFltAVXGenerator.model cpu).func_reg_reg = true ∧
      (ScalarFltAVXGenerator.model cpu).func_reg_mem = true ∧
      (ScalarFltAVXGenerator.model cpu).op_reg_reg = false ∧
      (ScalarFltAVXGenerator.model cpu).op_reg_imm = false ∧
      (ScalarFltAVXGenerator.model cpu).op_reg_mem = false ∧
      (ScalarFltAVXGenerator.model cpu).func_reg_imm = false ∧
      (Variant.model .ScalarFltSSE cpu).fm_reg_reg_reg = false ∧
      (Variant.model .ScalarFltSSE cpu).fm_reg_reg_mem = false ∧
      (Variant.model .VectorFltSSE cpu).fm_reg_reg_reg = false ∧
      (Variant.model .VectorFltSSE cpu).fm_reg_reg_mem = false := by
  obtain ⟨sse2, sse41, fma3⟩ := cpu
  cases sse2 <;> cases sse41 <;> cases fma3 <;> decide

/-! ### Register reservation -/

/-- C15: on each of the three generators `Reserve` adds exactly one request to the
register index, a request for `NumRegs()` XMM registers of the operation
sequence being lowered, and leaves the rest of the generator (capability model,
element type and CPU context, operation sequence) as it was. -/
theorem reserve_requests_numregs (v : Variant) (g : GeneratorObject) :
    (v.Reserve g).index_ =
        g.index_ ++ [.ReserveXMMRegisters (NumRegs g.instructions_)] ∧
      (v.Reserve g).model_ = g.model_ ∧
      (v.Reserve g).instructions_ = g.instructions_ ∧
      (v.Reserve g).base = g.base := by
  cases v <;> exact ⟨rfl, rfl, rfl, rfl⟩

end Myelin

namespace Sling

/-! ### In-place compaction: reads and writes -/

/-- A size below 2^31 converts to `int` unchanged. -/
theorem toInt_of_lt (n : Nat) (h : n < 2 ^ 31) : toInt n = (n : Int) := by
  unfold toInt
  omega

/-- Reading inside the string gives the head of the unread part. -/
theorem drop_eq_charAt_cons (s : List Char) (i : Nat) (h : i < s.length) :
    s.drop i = charAt s (i : Int) :: s.drop (i + 1) := by
  rw [List.drop_eq_getElem_cons h]
  congr 1
  simp [charAt, List.getD_eq_getElem?_getD, List.getElem?_eq_getElem h]

/-- A write behind the reader leaves the unread part as it was. -/
theorem drop_setAt (s : List Char) (o i : Nat) (c : Char) (h : o < i) :
    (setAt s (o : Int) c).drop i = s.drop i := by
  simp [setAt, List.drop_set_of_lt c s h]

/-- A write at the writer position appends to what has been written. -/
theorem take_setAt (s : List Char) (o : Nat) (c : Char) (h : o < s.length) :
    (setAt s (o : Int) c).take (o + 1) = s.take o ++ [c] := by
  simp only [setAt, Int.toNat_ofNat]
  rw [List.set_eq_take_append_cons_drop, if_pos h, List.take_append_eq_append_take]
  simp [List.take_take, Nat.min_eq_left (Nat.le_of_lt h)]

/-- Keeping the character under the reader, when the writer is at the reader. -/
theorem take_succ_charAt (s : List Char) (i : Nat) (h : i < s.length) :
    s.take (i + 1) = s.take i ++ [charAt s (i : Int)] := by
  rw [List.take_succ]
  simp [charAt, List.getD_eq_getElem?_getD, List.getElem?_eq_getElem h]

/-- A write does not change the length. -/
theorem length_setAt (s : List Char) (o : Int) (c : Char) :
    (setAt s o c).length = s.length := by
  simp [setAt]

/-- Two strings that agree from position `k` on agree from any later position on. -/
theorem drop_eq_of_drop_eq (a b : List Char) (k m : Nat) (h : a.drop k = b.drop k)
    (hkm : k ≤ m) : a.drop m = b.drop m := by
  have := congrArg (List.drop (m - k)) h
  simp only [List.drop_drop] at this
  have e : k + (m - k) = m := by omega
  rw [e] at this
  exact this

/-! ### StripDupCharacters -/

/-- A character other than `c` is kept, and the rest is collapsed on its own. -/
theorem collapseRuns_cons_ne (c x : Char) (l : List Char) (h : x ≠ c) :
    collapseRuns c (x :: l) = x :: collapseRuns c l := by
  cases l with
  | nil => simp [collapseRuns]
  | cons y l =>
    simp only [collapseRuns, List.destutter_cons_cons]
    rw [if_pos (fun hh => h hh.1)]
    rfl

/-- A `c` is kept, and the `c`s that follow it are dropped. -/
theorem collapseRuns_cons_eq (c : Char) (l : List Char) :
    collapseRuns c (c :: l) =
      c :: collapseRuns c (l.dropWhile fun y => decide (y = c)) := by
  induction l with
  | nil => simp [collapseRuns]
  | cons y l ih =>
    by_cases hy : y = c
    · subst hy
      have h1 : collapseRuns y (y :: y :: l) = collapseRuns y (y :: l) := by
        simp [collapseRuns, List.destutter_cons', List.destutter']
      rw [h1, ih]
      simp [List.dropWhile_cons]
    · have h1 : collapseRuns c (c :: y :: l) = c :: collapseRuns c (y :: l) := by
        simp [collapseRuns, List.destutter_cons', List.destutter', hy]
      rw [h1]
      simp [List.dropWhile_cons, hy]

/-- The inner loop stops at the first position at or after the reader that does
not hold `dup_char` (or at the end). -/
theorem StripDupCharacters.skip_spec (s : List Char) (c : Char) (i : Nat)
    (hi : i ≤ s.length) :
    ∃ j : Nat, (StripDupCharacters.skip s c (s.length : Int) (i : Int)).1 = (j : Int) ∧
      i ≤ j ∧ j ≤ s.length ∧
      s.drop j = (s.drop i).dropWhile fun y => decide (y = c) := by
  generalize hk : s.length - i = k
  induction k using Nat.strong_induction_on generalizing i with
  | _ k ih =>
    rw [StripDupCharacters.skip]
    by_cases hlt : i < s.length
    · by_cases hc : charAt s (i : Int) = c
      · have hcond : ((i : Int) < (s.length : Int) ∧ charAt s (i : Int) = c) :=
          ⟨by exact_mod_cast hlt, hc⟩
        simp only [hcond, and_self, if_true]
        obtain ⟨j, hj, hij, hjn, hdrop⟩ :=
          ih (s.length - (i + 1)) (by omega) (i + 1) (by omega) rfl
        refine ⟨j, ?_, by omega, hjn, ?_⟩
        · rw [← hj]
          norm_cast
        · rw [hdrop, drop_eq_charAt_cons s i hlt, hc]
          simp [List.dropWhile_cons]
      · have hcond : ¬ ((i : Int) < (s.length : Int) ∧ charAt s (i : Int) = c) :=
          fun h => hc h.2
        simp only [hcond, if_false]
        refine ⟨i, rfl, le_refl _, hi, ?_⟩
        rw [drop_eq_charAt_cons s i hlt]
        simp [List.dropWhile_cons, hc]
    · have hcond : ¬ ((i : Int) < (s.length : Int) ∧ charAt s (i : Int) = c) :=
        fun h => hlt (by exact_mod_cast h.1)
      simp only [hcond, if_false]
      refine ⟨i, rfl, le_refl _, hi, ?_⟩
      have : s.length ≤ i := by omega
      simp [List.drop_eq_nil_of_le this]

/-- The outer loop: started with the writer not ahead of the reader, it ends with
the reader at the end, and what has been written is what had been written
before followed by the unread part with its runs collapsed. -/
theorem StripDupCharacters.stripLoop_spec (c : Char) (n : Nat) (s : List Char)
    (i o : Nat) (hn : s.length = n) (hoi : o ≤ i) (hi : i ≤ n) :
    ∃ o1 : Nat,
      (StripDupCharacters.loop c (n : Int) s (i : Int) (o : Int)).2.1 = (n : Int) ∧
      (StripDupCharacters.loop c (n : Int) s (i : Int) (o : Int)).2.2 = (o1 : Int) ∧
      (StripDupCharacters.loop c (n : Int) s (i : Int) (o : Int)).1.length = n ∧
      o1 ≤ n ∧
      (StripDupCharacters.loop c (n : Int) s (i : Int) (o : Int)).1.take o1 =
        s.take o ++ collapseRuns c (s.drop i) := by
  generalize hk : n - i = k
  induction k using Nat.strong_induction_on generalizing s i o with
  | _ k ih =>
    rw [StripDupCharacters.loop]
    by_cases hlt : i < n
    · have hlt1 : ((i : Int) < (n : Int)) := by exact_mod_cast hlt
      simp only [hlt1, if_true]
      have hlen : i < s.length := by omega
      -- the string after the write
      obtain ⟨s1, hs1, hs1len, hs1drop, hs1take⟩ :
          ∃ s1, (if (o : Int) ≠ (i : Int) then setAt s (o : Int) (charAt s (i : Int))
              else s) = s1 ∧ s1.length = n ∧ s1.drop (i + 1) = s.drop (i + 1) ∧
            s1.take (o + 1) = s.take o ++ [charAt s (i : Int)] := by
        by_cases hoeq : o = i
        · subst hoeq
          exact ⟨s, by simp, hn, rfl, take_succ_charAt s o hlen⟩
        · have hne : (o : Int) ≠ (i : Int) := by exact_mod_cast hoeq
          refine ⟨_, rfl, ?_, ?_, ?_⟩
          · rw [if_pos hne, length_setAt, hn]
          · rw [if_pos hne]
            exact drop_setAt s o (i + 1) _ (by omega)
          · rw [if_pos hne]
            exact take_setAt s o _ (by omega)
      rw [hs1]
      by_cases hc : charAt s (i : Int) = c
      · simp only [hc, if_true]
        obtain ⟨j, hj, hij, hjn, hdrop⟩ :=
          StripDupCharacters.skip_spec s1 c (i + 1) (by omega)
        rw [hs1len] at hj
        have hj1 : (StripDupCharacters.skip s1 c (n : Int) ((i : Int) + 1)).1
            = (j : Int) := by
          rw [← hj]
          norm_cast
        rw [hj1]
        have ho1 : ((o : Int) + 1) = ((o + 1 : Nat) : Int) := by norm_cast
        rw [ho1]
        obtain ⟨o1, h1, h2, h3, h4, h5⟩ :=
          ih (n - j) (by omega) s1 j (o + 1) hs1len (by omega) (by omega) rfl
        refine ⟨o1, h1, h2, h3, h4, ?_⟩
        rw [h5, hs1take, hdrop, hs1drop, drop_eq_charAt_cons s i hlen, hc,
          collapseRuns_cons_eq]
        simp
      · simp only [hc, if_false]
        have ho1 : ((o : Int) + 1) = ((o + 1 : Nat) : Int) := by norm_cast
        have hi1 : ((i : Int) + 1) = ((i + 1 : Nat) : Int) := by norm_cast
        rw [ho1, hi1]
        obtain ⟨o1, h1, h2, h3, h4, h5⟩ :=
          ih (n - (i + 1)) (by omega) s1 (i + 1) (o + 1) hs1len (by omega)
            (by omega) rfl
        refine ⟨o1, h1, h2, h3, h4, ?_⟩
        rw [h5, hs1take, hs1drop, drop_eq_charAt_cons s i hlen,
          collapseRuns_cons_ne c _ _ hc]
        simp
    · have hlt1 : ¬ ((i : Int) < (n : Int)) := fun h => hlt (by exact_mod_cast h)
      simp only [hlt1, if_false]
      have hin : i = n := by omega
      subst hin
      refine ⟨o, rfl, rfl, hn, hoi, ?_⟩
      simp [List.drop_eq_nil_of_le (Nat.le_of_eq hn), collapseRuns]

/-- Dropping leading `c`s loses no other character. -/
theorem filter_ne_dropWhile (c : Char) (l : List Char) :
    (l.dropWhile fun y => decide (y = c)).filter (fun y => decide (y ≠ c)) =
      l.filter fun y => decide (y ≠ c) := by
  induction l with
  | nil => rfl
  | cons x l ih =>
    by_cases hx : x = c
    · simp [List.dropWhile_cons, hx, ih]
      simpa [hx] using ih
    · simp [List.dropWhile_cons, hx]

/-- Collapsing the runs of `c` loses no other character. -/
theorem filter_ne_collapseRuns (c : Char) (l : List Char) :
    (collapseRuns c l).filter (fun y => decide (y ≠ c)) =
      l.filter fun y => decide (y ≠ c) := by
  generalize hk : l.length = k
  induction k using Nat.strong_induction_on generalizing l with
  | _ k ih =>
    cases l with
    | nil => simp [collapseRuns]
    | cons x l =>
      by_cases hx : x = c
      · subst hx
        rw [collapseRuns_cons_eq]
        have hlen : (l.dropWhile fun y => decide (y = x)).length < k := by
          have := (List.dropWhile_sublist (fun y => decide (y = x)) (l := l)).length_le
          simp only [List.length_cons] at hk
          omega
        have := ih _ hlen _ rfl
        rw [List.filter_cons_of_neg (by simp), this, filter_ne_dropWhile,
          List.filter_cons_of_neg (by simp)]
      · rw [collapseRuns_cons_ne c x l hx]
        simp only [List.length_cons] at hk
        have := ih l.length (by omega) l rfl
        rw [List.filter_cons_of_pos (by simpa using hx), this,
          List.filter_cons_of_pos (by simpa using hx)]

/-- A run of `c` alone collapses to a single `c`. -/
theorem collapseRuns_replicate (c : Char) (n : Nat) (h : 0 < n) :
    collapseRuns c (List.replicate n c) = [c] := by
  obtain ⟨m, rfl⟩ : ∃ m, n = m + 1 := ⟨n - 1, by omega⟩
  clear h
  induction m with
  | zero => simp [collapseRuns]
  | succ m ih =>
    rw [List.replicate_succ, collapseRuns_cons_eq, List.replicate_succ]
    simp only [List.dropWhile_cons, decide_True, if_true]
    have hd : (List.replicate m c).dropWhile (fun y => decide (y = c)) = [] := by
      rw [List.dropWhile_eq_nil_iff]
      intro x hx
      simp [List.eq_of_mem_replicate hx]
    rw [hd]
    simp [collapseRuns]

/-- On a string of exactly 2^31 characters the size converts to a negative `int`,
the loop does not run and the string is left as it is. -/
theorem stripDupCharacters_of_length (s : List Char) (c : Char)
    (h : s.length = 2 ^ 31) : StripDupCharacters s c 0 = (s, 0) := by
  have ht : toInt (2 ^ 31) = -(2 ^ 31) := by
    unfold toInt
    norm_num
  simp only [StripDupCharacters, h, ht]
  rw [StripDupCharacters.loop]
  have hr : ∀ n, n = s.length → resize s n = s := by
    intro n hn
    simp [resize, hn]
  simp only [Int.reduceNeg, Int.reducePow, Int.reduceLT, if_false, le_refl, if_true,
    sub_self, sub_zero, lt_self_iff_false]
  refine Prod.ext (hr _ ?_) rfl
  simp [h]

/-- C17 as stated fails on very long strings: on the string of 2^31 slashes
`StripDupCharacters(s, '/', 0)` removes nothing and returns 0, while the run of
slashes collapsed is the single slash. -/
theorem stripDupCharacters_int_overflow :
    StripDupCharacters (List.replicate (2 ^ 31) '/') '/' 0 =
        (List.replicate (2 ^ 31) '/', 0) ∧
      collapseRuns '/' (List.replicate (2 ^ 31) '/') = ['/'] :=
  ⟨stripDupCharacters_of_length _ _ (List.length_replicate _ _),
   collapseRuns_replicate _ _ (by norm_num)⟩

/-- C17, amended: for every string `s` shorter than 2^31, character `c` and start position
`p` (a negative `p` counts as 0), `StripDupCharacters(s, c, p)` leaves the part
before `p` as it was, followed by the part from `p` on with every run of
consecutive `c` replaced by a single `c`; the part from `p` on has no two
adjacent `c`, the result is a subsequence of `s` with the same characters other
than `c` in the same order, and the value returned is the number of characters
removed, the decrease in length. -/
theorem stripDupCharacters_collapses_runs (s : List Char) (c : Char) (p : Int)
    (hlen : s.length < 2 ^ 31) :
    (StripDupCharacters s c p).1 =
        s.take p.toNat ++ collapseRuns c (s.drop p.toNat) ∧
      (StripDupCharacters s c p).2 =
        (s.length : Int) - ((StripDupCharacters s c p).1.length : Int) ∧
      ((StripDupCharacters s c p).1.drop p.toNat).Chain'
        (fun a b => ¬(a = c ∧ b = c)) ∧
      (StripDupCharacters s c p).1.Sublist s ∧
      (StripDupCharacters s c p).1.filter (fun y => decide (y ≠ c)) =
        s.filter fun y => decide (y ≠ c) := by
  have hstart : (if p < 0 then 0 else p) = ((p.toNat : Nat) : Int) := by
    split <;> omega
  have hres : (StripDupCharacters s c p).1 =
        s.take p.toNat ++ collapseRuns c (s.drop p.toNat) ∧
      (StripDupCharacters s c p).2 =
        (s.length : Int) - ((StripDupCharacters s c p).1.length : Int) := by
    simp only [StripDupCharacters, hstart, toInt_of_lt s.length hlen]
    by_cases hp : p.toNat ≤ s.length
    · obtain ⟨o1, h1, h2, h3, h4, h5⟩ :=
        StripDupCharacters.stripLoop_spec c s.length s p.toNat p.toNat rfl (le_refl _) hp
      rw [h1, h2]
      have hto : ((s.length : Int) - ((s.length : Int) - (o1 : Int))).toNat = o1 := by
        omega
      rw [hto]
      have hr : resize (StripDupCharacters.loop c (s.length : Int) s
          (p.toNat : Int) (p.toNat : Int)).1 o1 =
          s.take p.toNat ++ collapseRuns c (s.drop p.toNat) := by
        rw [resize, h5, h3]
        simp [Nat.sub_eq_zero_of_le h4]
      refine ⟨hr, ?_⟩
      rw [hr, ← h5, List.length_take, h3]
      omega
    · have hlt : ¬ ((p.toNat : Int) < (s.length : Int)) := by omega
      rw [StripDupCharacters.loop]
      simp only [hlt, if_false]
      have h0 : ((s.length : Int) - ((p.toNat : Int) - (p.toNat : Int))).toNat
          = s.length := by omega
      rw [h0]
      have hr : resize s s.length = s := by simp [resize]
      rw [hr]
      have hd : s.drop p.toNat = [] := List.drop_eq_nil_of_le (by omega)
      have ht : s.take p.toNat = s := List.take_of_length_le (by omega)
      simp [hd, ht, collapseRuns]
  refine ⟨hres.1, hres.2, ?_, ?_, ?_⟩
  · rw [hres.1]
    by_cases hp : p.toNat ≤ s.length
    · rw [List.drop_append_eq_append_drop]
      simp only [List.length_take, Nat.min_eq_left hp, Nat.sub_self, List.drop_zero]
      rw [List.drop_eq_nil_of_le (by simp [Nat.min_eq_left hp]), List.nil_append]
      exact List.destutter_is_chain' _ _
    · rw [List.drop_eq_nil_of_le]
      · exact List.chain'_nil
      · have hd : s.drop p.toNat = [] := List.drop_eq_nil_of_le (by omega)
        simp [hd, collapseRuns]
  · rw [hres.1]
    have h1 : (collapseRuns c (s.drop p.toNat)).Sublist (s.drop p.toNat) :=
      List.destutter_sublist _ _
    have h2 := List.Sublist.append (List.Sublist.refl (s.take p.toNat)) h1
    rwa [List.take_append_drop] at h2
  · rw [hres.1, List.filter_append, filter_ne_collapseRuns, ← List.filter_append,
      List.take_append_drop]

/-- C17, amended, at the example of the source comment:
`StripDupCharacters("a//b/c//d", '/', 0)` yields `"a/b/c/d"` and returns 2. -/
theorem stripDupCharacters_collapses_runs_witness :
    ['a', '/', '/', 'b', '/', 'c', '/', '/', 'd'].length < 2 ^ 31 ∧
      StripDupCharacters ['a', '/', '/', 'b', '/', 'c', '/', '/', 'd'] '/' 0 =
        (['a', '/', 'b', '/', 'c', '/', 'd'], 2) := by
  have h := stripDupCharacters_collapses_runs
    ['a', '/', '/', 'b', '/', 'c', '/', '/', 'd'] '/' 0 (by decide)
  have h1 : (StripDupCharacters ['a', '/', '/', 'b', '/', 'c', '/', '/', 'd'] '/' 0).1
      = ['a', '/', 'b', '/', 'c', '/', 'd'] := h.1.trans (by decide)
  refine ⟨by decide, Prod.ext h1 ?_⟩
  rw [h.2.1, h1]
  decide

/-! ### TrimRunsInString -/

/-- The inner loop keeps the length, the order of the positions and the unread
part, and what it writes is what `written` says for a reader inside a run. -/
theorem TrimRunsInString.inner_spec (remove : List Char) (n : Nat) (s : List Char)
    (src dest : Nat) (hn : s.length = n) (hds : dest < src) (hs : src ≤ n) :
    ∃ (s1 : List Char) (src1 dest1 : Nat),
      (TrimRunsInString.inner remove n s src dest).1 = (s1, src1, dest1) ∧
      s1.length = n ∧ dest1 ≤ src1 ∧ src1 ≤ n ∧
      s1.take dest1 ++ TrimRunsInString.written remove (remove.getD 0 (Char.ofNat 0))
          (decide (dest1 ≠ 0)) false (s1.drop src1) =
        s.take dest ++ TrimRunsInString.written remove (remove.getD 0 (Char.ofNat 0))
          (decide (dest ≠ 0)) true (s.drop src) := by
  generalize hk : n - src = k
  induction k using Nat.strong_induction_on generalizing src with
  | _ k ih =>
    rw [TrimRunsInString.inner]
    by_cases hlt : src < n
    · have hlen : src < s.length := by omega
      simp only [hlt, dite_true]
      by_cases hc : remove.contains (charAt s (src : Int)) = false
      · simp only [hc, if_true]
        have hc' : charAt s (src : Int) ∉ remove := by simpa using hc
        by_cases hd0 : dest = 0
        · subst hd0
          simp only [ne_eq, not_true_eq_false, if_false]
          refine ⟨_, _, _, rfl, by simp [length_setAt, hn], by omega, by omega, ?_⟩
          rw [take_setAt s 0 _ (by omega), drop_setAt s 0 (src + 1) _ (by omega),
            drop_eq_charAt_cons s src hlen]
          simp [TrimRunsInString.written, hc']
        · simp only [ne_eq, hd0, not_false_eq_true, if_true]
          have hlen1 : (setAt s (dest : Int) (remove.getD 0 (Char.ofNat 0))).length = n := by
            rw [length_setAt, hn]
          have hread : charAt (setAt s (dest : Int) (remove.getD 0 (Char.ofNat 0)))
              (src : Int) = charAt s (src : Int) := by
            have h1 := drop_eq_charAt_cons
              (setAt s (dest : Int) (remove.getD 0 (Char.ofNat 0))) src (by omega)
            rw [drop_setAt s dest src _ hds, drop_eq_charAt_cons s src hlen] at h1
            exact (List.cons.inj h1).1.symm
          refine ⟨_, _, _, rfl, by simp [length_setAt, hn], by omega, by omega, ?_⟩
          have hcast : ((dest : Int) + 1) = ((dest + 1 : Nat) : Int) := by norm_cast
          have hcast2 : (((dest + 1 : Nat) : Int)) = ((dest : Int) + 1) := by norm_cast
          rw [hread]
          have e1 : (setAt (setAt s (dest : Int) (remove.getD 0 (Char.ofNat 0)))
              ((dest + 1 : Nat) : Int) (charAt s (src : Int))).take (dest + 1 + 1) =
              s.take dest ++ [remove.getD 0 (Char.ofNat 0)] ++ [charAt s (src : Int)] := by
            rw [take_setAt _ (dest + 1) _ (by omega), take_setAt s dest _ (by omega)]
          have e2 : (setAt (setAt s (dest : Int) (remove.getD 0 (Char.ofNat 0)))
              ((dest + 1 : Nat) : Int) (charAt s (src : Int))).drop (src + 1) =
              s.drop (src + 1) := by
            rw [drop_setAt _ (dest + 1) (src + 1) _ (by omega),
              drop_setAt s dest (src + 1) _ (by omega)]
          rw [e1, e2, drop_eq_charAt_cons s src hlen]
          simp [TrimRunsInString.written, hc', hd0]
      · simp only [hc, if_false]
        obtain ⟨s1, src1, dest1, h1, h2, h3, h4, h5⟩ :=
          ih (n - (src + 1)) (by omega) (src + 1) (by omega) (by omega) rfl
        refine ⟨s1, src1, dest1, h1, h2, h3, h4, ?_⟩
        have hc' : charAt s (src : Int) ∈ remove := by simpa using hc
        rw [h5, drop_eq_charAt_cons s src hlen]
        simp [TrimRunsInString.written, hc']
    · simp only [hlt, dite_false]
      refine ⟨s, src, dest, rfl, hn, by omega, hs, ?_⟩
      have : s.drop src = [] := List.drop_eq_nil_of_le (by omega)
      simp [this, TrimRunsInString.written]

/-- The outer loop: what it leaves in the first `dest` positions is what had been
written before followed by what `written` says for the unread part. -/
theorem TrimRunsInString.outer_spec (remove : List Char) (n : Nat) (s : List Char)
    (src dest : Nat) (hn : s.length = n) (hds : dest ≤ src) (hs : src ≤ n) :
    (TrimRunsInString.outer remove n s src dest).1.take
        (TrimRunsInString.outer remove n s src dest).2 =
      s.take dest ++ TrimRunsInString.written remove (remove.getD 0 (Char.ofNat 0))
        (decide (dest ≠ 0)) false (s.drop src) := by
  generalize hk : n - src = k
  induction k using Nat.strong_induction_on generalizing s src dest with
  | _ k ih =>
    rw [TrimRunsInString.outer]
    by_cases hlt : src < n
    · have hlen : src < s.length := by omega
      simp only [hlt, dite_true]
      by_cases hc : remove.contains (charAt s (src : Int)) = false
      · simp only [hc, if_true]
        have hc' : charAt s (src : Int) ∉ remove := by simpa using hc
        rw [ih (n - (src + 1)) (by omega) _ (src + 1) (dest + 1)
          (by rw [length_setAt, hn]) (by omega) (by omega) rfl]
        rw [take_setAt s dest _ (by omega), drop_setAt s dest (src + 1) _ (by omega),
          drop_eq_charAt_cons s src hlen]
        simp [TrimRunsInString.written, hc']
      · rw [if_neg hc]
        have hc' : charAt s (src : Int) ∈ remove := by simpa using hc
        obtain ⟨s1, src1, dest1, h1, h2, h3, h4, h5⟩ :=
          TrimRunsInString.inner_spec remove n s (src + 1) dest hn (by omega) (by omega)
        have hge := (TrimRunsInString.inner remove n s (src + 1) dest).2
        rw [h1] at hge
        simp only [h1] at hge ⊢
        rw [ih (n - src1) (by omega) s1 src1 dest1 h2 h3 h4 rfl, h5,
          drop_eq_charAt_cons s src hlen]
        simp [TrimRunsInString.written, hc']
    · simp only [hlt, dite_false]
      have : s.drop src = [] := List.drop_eq_nil_of_le (by omega)
      simp [this, TrimRunsInString.written]

/-- What the loops write, in terms of the pieces of the string between characters
of `remove`: `hd` is the piece the reader is in and `tl` the pieces after it. -/
theorem TrimRunsInString.written_pieces (remove : List Char) (d : Char)
    (l : List Char) (started inRun : Bool) (hd : List Char) (tl : List (List Char))
    (h : (l.splitOnP fun x => remove.contains x) = hd :: tl) :
    TrimRunsInString.written remove d started inRun l =
      (if inRun && started && !hd.isEmpty then [d] else []) ++ hd ++
        (if (tl.filter fun t => !t.isEmpty).isEmpty then []
         else (if started || !hd.isEmpty then [d] else []) ++
           List.intercalate [d] (tl.filter fun t => !t.isEmpty)) := by
  induction l generalizing started inRun hd tl with
  | nil =>
    simp only [List.splitOnP_nil, List.cons.injEq] at h
    obtain ⟨rfl, rfl⟩ := h
    simp [TrimRunsInString.written]
  | cons x xs ih =>
    obtain ⟨hd1, tl1, h1⟩ : ∃ hd1 tl1,
        (xs.splitOnP fun x => remove.contains x) = hd1 :: tl1 := by
      cases hsp : (xs.splitOnP fun x => remove.contains x) with
      | nil => exact absurd hsp (List.splitOnP_ne_nil _ _)
      | cons a b => exact ⟨a, b, rfl⟩
    rw [List.splitOnP_cons, h1] at h
    by_cases hx : remove.contains x = true
    · simp only [hx, if_true, List.cons.injEq] at h
      obtain ⟨rfl, rfl⟩ := h
      rw [TrimRunsInString.written, if_neg (by rw [hx]; decide),
        ih started true hd1 tl1 h1]
      cases hd1 with
      | nil => simp
      | cons a b =>
        cases hf : (tl1.filter fun t => !t.isEmpty) with
        | nil => cases started <;> simp [hf, List.intercalate]
        | cons t ts => cases started <;> simp [hf, List.intercalate]
    · simp only [hx, List.modifyHead, List.cons.injEq] at h
      obtain ⟨rfl, rfl⟩ := h
      have hx' : remove.contains x = false := by simpa using hx
      rw [TrimRunsInString.written, if_pos hx', ih true false hd1 tl h1]
      cases inRun <;> cases started <;> simp

/-- No piece between characters of `remove` holds a character of `remove`. -/
theorem splitOnP_pieces_outside (remove : List Char) (l : List Char) :
    ∀ t ∈ (l.splitOnP fun x => remove.contains x), ∀ x ∈ t, x ∉ remove := by
  induction l with
  | nil => simp
  | cons a l ih =>
    rw [List.splitOnP_cons]
    by_cases ha : remove.contains a = true
    · simp only [ha, if_true, List.mem_cons]
      rintro t (rfl | ht) x hx
      · simp at hx
      · exact ih t ht x hx
    · simp only [ha]
      cases hsp : (l.splitOnP fun x => remove.contains x) with
      | nil => simp [List.modifyHead]
      | cons hd tl =>
        rw [hsp] at ih
        simp only [Bool.false_eq_true, if_false, List.modifyHead, List.mem_cons]
        rintro t (rfl | ht) x hx
        · rcases List.mem_cons.1 hx with rfl | hx
          · simpa using ha
          · exact ih hd (List.mem_cons_self _ _) x hx
        · exact ih t (List.mem_cons_of_mem _ ht) x hx

/-- The first character of non-empty lists joined by a separator is the first
character of the first list. -/
theorem head?_intercalate (d : Char) (t : List Char) (ts : List (List Char))
    (ht : t ≠ []) : (List.intercalate [d] (t :: ts)).head? = t.head? := by
  cases t with
  | nil => exact absurd rfl ht
  | cons a b => cases ts <;> simp [List.intercalate]

/-- The last character of non-empty lists joined by a separator is the last
character of the last list. -/
theorem getLast?_intercalate (d : Char) (ts : List (List Char))
    (hne : ∀ t ∈ ts, t ≠ []) (x : Char)
    (hx : (List.intercalate [d] ts).getLast? = some x) :
    ∃ t ∈ ts, t.getLast? = some x := by
  induction ts with
  | nil => simp [List.intercalate] at hx
  | cons t ts ih =>
    cases ts with
    | nil =>
      refine ⟨t, List.mem_cons_self _ _, ?_⟩
      simpa [List.intercalate] using hx
    | cons u us =>
      have hu : u ≠ [] := hne u (by simp)
      have h2 : List.intercalate [d] (t :: u :: us) =
          (t ++ [d]) ++ List.intercalate [d] (u :: us) := by
        simp [List.intercalate]
      have hne2 : List.intercalate [d] (u :: us) ≠ [] := by
        cases u with
        | nil => exact absurd rfl hu
        | cons a b => cases us <;> simp [List.intercalate]
      rw [h2, List.getLast?_append_of_ne_nil _ hne2] at hx
      obtain ⟨t1, ht1, hlast⟩ := ih (fun t ht => hne t (List.mem_cons_of_mem _ ht)) hx
      exact ⟨t1, List.mem_cons_of_mem _ ht1, hlast⟩

/-- C18: for every string `s` and character set `remove`, `TrimRunsInString(s,
remove)` leaves the maximal runs of characters of `s` that are not in `remove`
(each non-empty and free of characters of `remove`), in their order, joined by
one `remove[0]` between consecutive runs; the result neither starts nor ends
with a character of `remove`. -/
theorem trimRunsInString_joins_runs (s remove : List Char) :
    TrimRunsInString s remove =
        List.intercalate [remove.getD 0 (Char.ofNat 0)] (runsOutside remove s) ∧
      (∀ t ∈ runsOutside remove s, t ≠ [] ∧ ∀ x ∈ t, x ∉ remove) ∧
      (∀ x, (TrimRunsInString s remove).head? = some x → x ∉ remove) ∧
      (∀ x, (TrimRunsInString s remove).getLast? = some x → x ∉ remove) := by
  have hruns : ∀ t ∈ runsOutside remove s, t ≠ [] ∧ ∀ x ∈ t, x ∉ remove := by
    intro t ht
    simp only [runsOutside, List.mem_filter, Bool.not_eq_true',
      List.isEmpty_eq_false] at ht
    refine ⟨?_, splitOnP_pieces_outside remove s t ht.1⟩
    intro h
    simp [h] at ht
  have hmain : TrimRunsInString s remove =
      List.intercalate [remove.getD 0 (Char.ofNat 0)] (runsOutside remove s) := by
    obtain ⟨hd, tl, hsp⟩ : ∃ hd tl,
        (s.splitOnP fun x => remove.contains x) = hd :: tl := by
      cases hsp : (s.splitOnP fun x => remove.contains x) with
      | nil => exact absurd hsp (List.splitOnP_ne_nil _ _)
      | cons a b => exact ⟨a, b, rfl⟩
    have h1 := TrimRunsInString.outer_spec remove s.length s 0 0 rfl (le_refl _)
      (Nat.zero_le _)
    simp only [TrimRunsInString, h1, List.take_zero, List.nil_append, List.drop_zero]
    rw [TrimRunsInString.written_pieces remove _ s _ _ hd tl hsp]
    simp only [runsOutside, hsp]
    cases hd with
    | nil =>
      cases hf : (tl.filter fun t => !t.isEmpty) <;>
        simp [hf, List.intercalate]
    | cons a b =>
      cases hf : (tl.filter fun t => !t.isEmpty) <;>
        simp [hf, List.intercalate]
  refine ⟨hmain, hruns, ?_, ?_⟩
  · intro x hx
    rw [hmain] at hx
    cases hr : runsOutside remove s with
    | nil => simp [hr, List.intercalate] at hx
    | cons t ts =>
      have ht := hruns t (by simp [hr])
      rw [hr, head?_intercalate _ t ts ht.1] at hx
      exact ht.2 x (List.mem_of_mem_head? hx)
  · intro x hx
    rw [hmain] at hx
    obtain ⟨t, ht, hlast⟩ := getLast?_intercalate _ _ (fun t ht => (hruns t ht).1) x hx
    exact (hruns t ht).2 x (List.mem_of_mem_getLast? hlast)

/-- C18 at the examples of the source comment, with `remove = " :,()"`:
`"  a:(b):c  "` becomes `"a b c"` and `"first,last::(area)phone, ::zip"` becomes
`"first last area phone zip"`. -/
theorem trimRunsInString_joins_runs_witness :
    TrimRunsInString "  a:(b):c  ".toList " :,()".toList = "a b c".toList ∧
      TrimRunsInString "first,last::(area)phone, ::zip".toList " :,()".toList =
        "first last area phone zip".toList :=
  ⟨(trimRunsInString_joins_runs _ _).1.trans (by decide),
   (trimRunsInString_joins_runs _ _).1.trans (by decide)⟩

/-! ### RemoveExtraWhitespace -/

/-- The first loop stops at the first position at or after the reader that does
not hold whitespace (or at the end). -/
theorem RemoveExtraWhitespace.lead_spec (ws : Char → Bool) (s : List Char) (i : Nat)
    (hi : i ≤ s.length) :
    ∃ j : Nat, RemoveExtraWhitespace.lead ws s (s.length : Int) (i : Int) = (j : Int) ∧
      i ≤ j ∧ j ≤ s.length ∧ s.drop j = (s.drop i).dropWhile ws := by
  generalize hk : s.length - i = k
  induction k using Nat.strong_induction_on generalizing i with
  | _ k ih =>
    rw [RemoveExtraWhitespace.lead]
    by_cases hlt : i < s.length
    · by_cases hc : ws (charAt s (i : Int)) = true
      · have hcond : ((i : Int) < (s.length : Int) ∧ ws (charAt s (i : Int)) = true) :=
          ⟨by exact_mod_cast hlt, hc⟩
        simp only [hcond, and_self, if_true]
        obtain ⟨j, hj, hij, hjn, hdrop⟩ :=
          ih (s.length - (i + 1)) (by omega) (i + 1) (by omega) rfl
        refine ⟨j, ?_, by omega, hjn, ?_⟩
        · rw [← hj]
          norm_cast
        · rw [hdrop, drop_eq_charAt_cons s i hlt]
          simp [List.dropWhile_cons, hc]
      · have hcond : ¬ ((i : Int) < (s.length : Int) ∧ ws (charAt s (i : Int)) = true) :=
          fun h => hc h.2
        simp only [hcond, if_false]
        refine ⟨i, rfl, le_refl _, hi, ?_⟩
        rw [drop_eq_charAt_cons s i hlt]
        simp [List.dropWhile_cons, hc]
    · have hcond : ¬ ((i : Int) < (s.length : Int) ∧ ws (charAt s (i : Int)) = true) :=
        fun h => hlt (by exact_mod_cast h.1)
      simp only [hcond, if_false]
      refine ⟨i, rfl, le_refl _, hi, ?_⟩
      have : s.length ≤ i := by omega
      simp [List.drop_eq_nil_of_le this]

/-- The main loop: started before the last character with the writer not ahead of
the reader, it keeps the length and the last character, and what it has written,
followed by what is kept of the last character, is what had been written before
followed by what is kept of the unread part. -/
theorem RemoveExtraWhitespace.whitespaceLoop_spec (ws : Char → Bool) (n : Nat) (s : List Char)
    (i o : Nat) (hn : s.length = n) (hoi : o ≤ i) (hi : i < n) :
    ∃ (s1 : List Char) (o1 : Nat),
      RemoveExtraWhitespace.loop ws (n : Int) s (i : Int) (o : Int) = (s1, (o1 : Int)) ∧
      s1.length = n ∧ o1 < n ∧ s1.drop (n - 1) = s.drop (n - 1) ∧
      s1.take o1 ++ keepLastOfRuns ws (s.drop (n - 1)) =
        s.take o ++ keepLastOfRuns ws (s.drop i) := by
  generalize hk : n - i = k
  induction k using Nat.strong_induction_on generalizing s i o with
  | _ k ih =>
    rw [RemoveExtraWhitespace.loop]
    by_cases hlt : i + 1 < n
    · have hlt1 : ((i : Int) < (n : Int) - 1) := by omega
      simp only [hlt1, if_true]
      have hlen : i < s.length := by omega
      have hlen2 : i + 1 < s.length := by omega
      have hi1 : ((i : Int) + 1) = ((i + 1 : Nat) : Int) := by norm_cast
      have ho1 : ((o : Int) + 1) = ((o + 1 : Nat) : Int) := by norm_cast
      obtain ⟨x, y, hx, hy, hdrop1, hdrop2⟩ : ∃ x y, charAt s (i : Int) = x ∧
          charAt s ((i : Int) + 1) = y ∧ s.drop (i + 1) = y :: s.drop (i + 1 + 1) ∧
          s.drop i = x :: y :: s.drop (i + 1 + 1) := by
        refine ⟨_, _, rfl, rfl, ?_, ?_⟩
        · rw [drop_eq_charAt_cons s (i + 1) hlen2, hi1]
        · rw [drop_eq_charAt_cons s i hlen, drop_eq_charAt_cons s (i + 1) hlen2, hi1]
      simp only [hx, hy]
      by_cases hkeep : (!ws x || !ws y) = true
      · simp only [hkeep, if_true]
        obtain ⟨s1, hs1, hs1len, hs1drop, hs1take⟩ :
            ∃ s1, (if (o : Int) ≠ (i : Int) then setAt s (o : Int) x
                else s) = s1 ∧ s1.length = n ∧ s1.drop (i + 1) = s.drop (i + 1) ∧
              s1.take (o + 1) = s.take o ++ [x] := by
          by_cases hoeq : o = i
          · subst hoeq
            refine ⟨s, by simp, hn, rfl, ?_⟩
            rw [take_succ_charAt s o hlen, hx]
          · have hne : (o : Int) ≠ (i : Int) := by exact_mod_cast hoeq
            refine ⟨_, rfl, ?_, ?_, ?_⟩
            · rw [if_pos hne, length_setAt, hn]
            · rw [if_pos hne]
              exact drop_setAt s o (i + 1) _ (by omega)
            · rw [if_pos hne]
              exact take_setAt s o _ (by omega)
        rw [hs1, hi1, ho1]
        obtain ⟨s2, o2, h1, h2, h3, h4, h5⟩ :=
          ih (n - (i + 1)) (by omega) s1 (i + 1) (o + 1) hs1len (by omega) hlt rfl
        have hlast : s1.drop (n - 1) = s.drop (n - 1) :=
          drop_eq_of_drop_eq s1 s (i + 1) (n - 1) hs1drop (by omega)
        refine ⟨s2, o2, h1, h2, h3, h4.trans hlast, ?_⟩
        rw [← hlast, h5, hs1take, hs1drop, hdrop2, hdrop1]
        cases hwx : ws x <;> cases hwy : ws y <;>
          simp [keepLastOfRuns, hwx, hwy] at hkeep ⊢
      · simp only [hkeep, if_false]
        rw [hi1]
        obtain ⟨s2, o2, h1, h2, h3, h4, h5⟩ :=
          ih (n - (i + 1)) (by omega) s (i + 1) o hn (by omega) hlt rfl
        refine ⟨s2, o2, h1, h2, h3, h4, ?_⟩
        rw [h5, hdrop2, hdrop1]
        cases hwx : ws x <;> cases hwy : ws y <;>
          simp [keepLastOfRuns, hwx, hwy] at hkeep ⊢
    · have hlt1 : ¬ ((i : Int) < (n : Int) - 1) := by omega
      simp only [hlt1, if_false]
      have hin : i = n - 1 := by omega
      subst hin
      exact ⟨s, o, rfl, hn, by omega, rfl, rfl⟩

/-- A leading non-whitespace character is kept. -/
theorem keepLastOfRuns_cons_of_not (ws : Char → Bool) (x : Char) (l : List Char)
    (hx : ws x = false) :
    keepLastOfRuns ws (x :: l) = x :: keepLastOfRuns ws l := by
  cases l with
  | nil => simp [keepLastOfRuns, hx]
  | cons y r => simp [keepLastOfRuns, hx]

/-- What is kept is a subsequence. -/
theorem keepLastOfRuns_sublist (ws : Char → Bool) (l : List Char) :
    (keepLastOfRuns ws l).Sublist l := by
  induction l with
  | nil => simp [keepLastOfRuns]
  | cons x l ih =>
    cases l with
    | nil =>
      cases hx : ws x <;> simp [keepLastOfRuns, hx]
    | cons y r =>
      by_cases h : (ws x && ws y) = true
      · simp only [keepLastOfRuns, h, if_true]
        exact List.Sublist.cons _ ih
      · simp only [keepLastOfRuns, h]
        exact List.Sublist.cons₂ _ ih

/-- No non-whitespace character is dropped. -/
theorem filter_keepLastOfRuns (ws : Char → Bool) (l : List Char) :
    (keepLastOfRuns ws l).filter (fun x => !ws x) = l.filter fun x => !ws x := by
  induction l with
  | nil => simp [keepLastOfRuns]
  | cons x l ih =>
    cases l with
    | nil =>
      cases hx : ws x <;> simp [keepLastOfRuns, hx]
    | cons y r =>
      by_cases h : (ws x && ws y) = true
      · have hx : ws x = true := by
          simp only [Bool.and_eq_true] at h
          exact h.1
        simp only [keepLastOfRuns, h, if_true]
        rw [ih]
        exact (List.filter_cons_of_neg (by simp [hx])).symm
      · simp only [keepLastOfRuns, h]
        simp only [Bool.false_eq_true, if_false, List.filter_cons, ih]

/-- What is kept does not end with whitespace. -/
theorem getLast?_keepLastOfRuns (ws : Char → Bool) (l : List Char) (z : Char)
    (hz : (keepLastOfRuns ws l).getLast? = some z) : ws z = false := by
  induction l with
  | nil => simp [keepLastOfRuns] at hz
  | cons x l ih =>
    cases l with
    | nil =>
      cases hx : ws x
      · simp [keepLastOfRuns, hx] at hz
        rw [← hz]
        exact hx
      · simp [keepLastOfRuns, hx] at hz
    | cons y r =>
      by_cases h : (ws x && ws y) = true
      · simp only [keepLastOfRuns, h, if_true] at hz
        exact ih hz
      · simp only [keepLastOfRuns, h, Bool.false_eq_true, if_false] at hz
        cases hk : keepLastOfRuns ws (y :: r) with
        | nil =>
          rw [hk] at hz
          simp only [List.getLast?_singleton, Option.some.injEq] at hz
          subst hz
          cases hy : ws y
          · rw [keepLastOfRuns_cons_of_not ws y r hy] at hk
            cases hk
          · cases hx : ws x
            · rfl
            · simp [hx, hy] at h
        | cons a b =>
          rw [hk, List.getLast?_cons_cons] at hz
          rw [hk] at ih
          exact ih hz

/-- What is kept has no two adjacent whitespace characters. -/
theorem chain'_keepLastOfRuns (ws : Char → Bool) (l : List Char) :
    (keepLastOfRuns ws l).Chain' (fun a b => ¬(ws a = true ∧ ws b = true)) := by
  induction l with
  | nil => simp [keepLastOfRuns]
  | cons x l ih =>
    cases l with
    | nil =>
      cases hx : ws x <;> simp [keepLastOfRuns, hx]
    | cons y r =>
      by_cases h : (ws x && ws y) = true
      · simp only [keepLastOfRuns, h, if_true]
        exact ih
      · simp only [keepLastOfRuns, h, Bool.false_eq_true, if_false]
        rw [List.chain'_cons']
        refine ⟨?_, ih⟩
        intro a ha
        cases hy : ws y
        · rw [keepLastOfRuns_cons_of_not ws y r hy] at ha
          simp only [List.head?_cons, Option.mem_def, Option.some.injEq] at ha
          subst ha
          simp [hy]
        · cases hx : ws x
          · simp
          · simp [hx, hy] at h

/-- A string without adjacent whitespace that does not end with whitespace is
kept whole. -/
theorem keepLastOfRuns_eq_self (ws : Char → Bool) (l : List Char)
    (hc : l.Chain' (fun a b => ¬(ws a = true ∧ ws b = true)))
    (hl : ∀ z, l.getLast? = some z → ws z = false) : keepLastOfRuns ws l = l := by
  induction l with
  | nil => simp [keepLastOfRuns]
  | cons x l ih =>
    cases l with
    | nil =>
      have := hl x (by simp)
      simp [keepLastOfRuns, this]
    | cons y r =>
      rw [List.chain'_cons] at hc
      have h : ¬ ((ws x && ws y) = true) := by
        simpa [Bool.and_eq_true] using hc.1
      simp only [keepLastOfRuns, h, Bool.false_eq_true, if_false]
      rw [ih hc.2 (fun z hz => hl z (by rw [List.getLast?_cons_cons]; exact hz))]

/-- Dropping leading whitespace loses no non-whitespace character. -/
theorem filter_dropWhile_ws (ws : Char → Bool) (l : List Char) :
    (l.dropWhile ws).filter (fun x => !ws x) = l.filter fun x => !ws x := by
  induction l with
  | nil => rfl
  | cons x l ih =>
    cases hx : ws x
    · simp [List.dropWhile_cons, hx]
    · simp [List.dropWhile_cons, hx, ih]

/-- What is left after dropping leading whitespace does not start with
whitespace. -/
theorem head?_dropWhile_ws (ws : Char → Bool) (l : List Char) (x : Char)
    (hx : (l.dropWhile ws).head? = some x) : ws x = false := by
  induction l with
  | nil => simp at hx
  | cons a l ih =>
    cases ha : ws a
    · simp [List.dropWhile_cons, ha] at hx
      rw [← hx]
      exact ha
    · simp only [List.dropWhile_cons, ha, if_true] at hx
      exact ih hx

/-- On a string shorter than 2^31 `RemoveExtraWhitespace` drops the leading
whitespace and keeps, of what follows, every character except the whitespace
characters that end the string or are followed by whitespace. -/
theorem removeExtraWhitespace_eq (ws : Char → Bool) (s : List Char)
    (hlen : s.length < 2 ^ 31) :
    RemoveExtraWhitespace ws s = keepLastOfRuns ws (s.dropWhile ws) := by
  unfold RemoveExtraWhitespace
  cases hs : s with
  | nil => simp [keepLastOfRuns]
  | cons a t =>
    rw [← hs]
    have hne : s.isEmpty = false := by simp [hs]
    have hpos : 0 < s.length := by simp [hs]
    simp only [hne, Bool.false_eq_true, if_false, toInt_of_lt s.length hlen]
    obtain ⟨j, hj, -, hjn, hdrop⟩ := RemoveExtraWhitespace.lead_spec ws s 0 (Nat.zero_le _)
    simp only [List.drop_zero, Nat.cast_zero] at hj hdrop
    rw [hj, ← hdrop]
    have hn1 : ((s.length : Int) - 1) = ((s.length - 1 : Nat) : Int) := by omega
    have hlastdrop : s.drop (s.length - 1) = [charAt s ((s.length - 1 : Nat) : Int)] := by
      rw [drop_eq_charAt_cons s (s.length - 1) (by omega)]
      have : s.length - 1 + 1 = s.length := by omega
      simp [this]
    have h0 : ((0 : Nat) : Int) = 0 := rfl
    by_cases hjlt : j < s.length
    · obtain ⟨s1, o1, h1, h2, h3, h4, h5⟩ :=
        RemoveExtraWhitespace.whitespaceLoop_spec ws s.length s j 0 rfl (Nat.zero_le _) hjlt
      rw [h0] at h1
      rw [h1]
      simp only [hn1]
      have hc : charAt s1 ((s.length - 1 : Nat) : Int) =
          charAt s ((s.length - 1 : Nat) : Int) := by
        have e := drop_eq_charAt_cons s1 (s.length - 1) (by omega)
        rw [h4, hlastdrop] at e
        exact (List.cons.inj e).1.symm
      rw [hc]
      rw [hlastdrop] at h5
      simp only [List.take_zero, List.nil_append] at h5
      rw [← h5]
      cases hw : ws (charAt s ((s.length - 1 : Nat) : Int))
      · simp only [Bool.not_false, if_true]
        have hto : ((o1 : Int) + 1).toNat = o1 + 1 := by omega
        rw [hto, resize, take_setAt s1 o1 _ (by omega), length_setAt, h2]
        simp [keepLastOfRuns, hw, Nat.sub_eq_zero_of_le (show o1 + 1 ≤ s.length by omega)]
      · simp only [Bool.not_true, Bool.false_eq_true, if_false]
        rw [resize, h2]
        simp [keepLastOfRuns, hw, Nat.sub_eq_zero_of_le (show o1 ≤ s.length by omega)]
    · have hjeq : j = s.length := by omega
      subst hjeq
      rw [RemoveExtraWhitespace.loop]
      have hcond : ¬ ((s.length : Int) < (s.length : Int) - 1) := by omega
      simp only [hcond, if_false]
      simp only [hn1]
      have hall : ∀ x ∈ s, ws x = true := by
        have hd : s.dropWhile ws = [] := by
          rw [← hdrop]
          exact List.drop_eq_nil_of_le (le_refl _)
        exact List.dropWhile_eq_nil_iff.1 hd
      have hmem : charAt s ((s.length - 1 : Nat) : Int) ∈ s := by
        have : charAt s ((s.length - 1 : Nat) : Int) ∈ s.drop (s.length - 1) := by
          rw [hlastdrop]
          exact List.mem_singleton_self _
        exact List.mem_of_mem_drop this
      rw [hall _ hmem]
      simp [resize, keepLastOfRuns]

/-- On a string of 2^32 + 1 characters that starts with a non-whitespace
character the size converts to the `int` 1 and only that character is left. -/
theorem removeExtraWhitespace_of_length (ws : Char → Bool) (a : Char)
    (t : List Char) (ha : ws a = false) (ht : t.length = 2 ^ 32) :
    RemoveExtraWhitespace ws (a :: t) = [a] := by
  have hi : toInt (2 ^ 32 + 1) = 1 := by
    unfold toInt
    norm_num
  have hc : charAt (a :: t) 0 = a := by
    simp [charAt]
  unfold RemoveExtraWhitespace
  simp only [List.isEmpty_cons, Bool.false_eq_true, if_false, List.length_cons, ht, hi]
  rw [RemoveExtraWhitespace.lead]
  simp only [hc, ha, Bool.false_eq_true, and_false, if_false]
  rw [RemoveExtraWhitespace.loop]
  simp only [sub_self, lt_self_iff_false, if_false, hc, ha, Bool.not_false, if_true]
  simp [resize, setAt]

/-- Filtering out what a list of equal characters does not hold changes
nothing. -/
theorem filter_replicate_of_not (ws : Char → Bool) (a : Char) (n : Nat)
    (ha : ws a = false) :
    ((List.replicate n a).filter fun c => !ws c) = List.replicate n a := by
  rw [List.filter_eq_self]
  intro x hx
  rw [List.eq_of_mem_replicate hx, ha]
  rfl

/-- C19 as stated fails on very long strings: on the string of 2^32 + 1 letters
`a`, whose size converts to the `int` 1, `RemoveExtraWhitespace` leaves the single
letter `a`, although none of the 2^32 letters after the first is whitespace: the
non-whitespace characters of the input are not all kept. -/
theorem removeExtraWhitespace_int_overflow :
    RemoveExtraWhitespace (fun c => c == ' ') ('a' :: List.replicate (2 ^ 32) 'a') =
        ['a'] ∧
      ((List.replicate (2 ^ 32) 'a').filter fun c => !(c == ' ')) =
        List.replicate (2 ^ 32) 'a' :=
  ⟨removeExtraWhitespace_of_length (fun c => c == ' ') 'a' (List.replicate (2 ^ 32) 'a')
     (by decide) (List.length_replicate _ _),
   filter_replicate_of_not (fun c => c == ' ') 'a' (2 ^ 32) (by decide)⟩

/-- C19, amended: for every string `s` shorter than 2^31 characters, after
`RemoveExtraWhitespace(s)` the string does not start with whitespace, does not
end with whitespace and has no two adjacent whitespace characters; its
non-whitespace characters are those of the input in the same order; it is the
input without its leading whitespace in which, of every run of whitespace, the
last character is kept (none for a run that ends the string); and a second
application changes nothing. -/
theorem removeExtraWhitespace_normalises (ws : Char → Bool) (s : List Char)
    (hlen : s.length < 2 ^ 31) :
    (∀ x, (RemoveExtraWhitespace ws s).head? = some x → ws x = false) ∧
      (∀ x, (RemoveExtraWhitespace ws s).getLast? = some x → ws x = false) ∧
      (RemoveExtraWhitespace ws s).Chain' (fun a b => ¬(ws a = true ∧ ws b = true)) ∧
      (RemoveExtraWhitespace ws s).filter (fun x => !ws x) = s.filter (fun x => !ws x) ∧
      RemoveExtraWhitespace ws s = keepLastOfRuns ws (s.dropWhile ws) ∧
      RemoveExtraWhitespace ws (RemoveExtraWhitespace ws s) =
        RemoveExtraWhitespace ws s := by
  have heq := removeExtraWhitespace_eq ws s hlen
  have hhead : ∀ x, (RemoveExtraWhitespace ws s).head? = some x → ws x = false := by
    intro x hx
    rw [heq] at hx
    cases hd : s.dropWhile ws with
    | nil => simp [hd, keepLastOfRuns] at hx
    | cons a l =>
      have ha : ws a = false := head?_dropWhile_ws ws s a (by simp [hd])
      rw [hd, keepLastOfRuns_cons_of_not ws a l ha] at hx
      simp only [List.head?_cons, Option.some.injEq] at hx
      rw [← hx]
      exact ha
  have hlast : ∀ x, (RemoveExtraWhitespace ws s).getLast? = some x → ws x = false := by
    intro x hx
    rw [heq] at hx
    exact getLast?_keepLastOfRuns ws _ x hx
  have hchain : (RemoveExtraWhitespace ws s).Chain'
      (fun a b => ¬(ws a = true ∧ ws b = true)) := by
    rw [heq]
    exact chain'_keepLastOfRuns ws _
  refine ⟨hhead, hlast, hchain, ?_, heq, ?_⟩
  · rw [heq, filter_keepLastOfRuns, filter_dropWhile_ws]
  · have hlen2 : (RemoveExtraWhitespace ws s).length < 2 ^ 31 := by
      have h1 := (keepLastOfRuns_sublist ws (s.dropWhile ws)).length_le
      have h2 := (List.dropWhile_sublist ws (l := s)).length_le
      rw [heq]
      omega
    rw [removeExtraWhitespace_eq ws _ hlen2]
    have hdw : (RemoveExtraWhitespace ws s).dropWhile ws = RemoveExtraWhitespace ws s := by
      cases hr : RemoveExtraWhitespace ws s with
      | nil => rfl
      | cons a l =>
        have ha : ws a = false := hhead a (by simp [hr])
        simp [List.dropWhile_cons, ha]
    rw [hdw]
    exact keepLastOfRuns_eq_self ws _ hchain hlast

/-- C19, amended, at a concrete input: `"  a  b \t c   "` becomes `"a b c"`. -/
theorem removeExtraWhitespace_normalises_witness :
    "  a  b \t c   ".toList.length < 2 ^ 31 ∧
      RemoveExtraWhitespace (fun c => c == ' ' || c == '\t') "  a  b \t c   ".toList =
        "a b c".toList :=
  ⟨by decide,
   (removeExtraWhitespace_normalises (fun c => c == ' ' || c == '\t')
      "  a  b \t c   ".toList (by decide)).2.2.2.2.1.trans (by decide)⟩

end Sling

namespace WikipediaMap

/-! ### Resolving redirects -/

/-- On two pages that redirect to each other the loop of `Resolve` is not left,
whatever the fuel, from either page. -/
theorem resolveLoop_cycle (fuel : Nat) :
    ResolveLoop redirectCycle linkSymbol fuel ⟨.ref 1, [(linkSymbol, .ref 2)]⟩ = none ∧
      ResolveLoop redirectCycle linkSymbol fuel ⟨.ref 2, [(linkSymbol, .ref 1)]⟩ = none := by
  induction fuel with
  | zero => exact ⟨rfl, rfl⟩
  | succ n ih =>
    constructor
    · have h : ResolveLoop redirectCycle linkSymbol (n + 1)
          ⟨.ref 1, [(linkSymbol, .ref 2)]⟩ =
          ResolveLoop redirectCycle linkSymbol n ⟨.ref 2, [(linkSymbol, .ref 1)]⟩ := by
        rfl
      rw [h, ih.2]
    · have h : ResolveLoop redirectCycle linkSymbol (n + 1)
          ⟨.ref 2, [(linkSymbol, .ref 1)]⟩ =
          ResolveLoop redirectCycle linkSymbol n ⟨.ref 1, [(linkSymbol, .ref 2)]⟩ := by
        rfl
      rw [h, ih.1]

/-- When the loop of `Resolve` is left with a handle, that handle is the `self` of
a frame whose redirect link is absent or points to itself. -/
theorem resolveLoop_returns_terminal (store : Store) (link : Handle) (fuel : Nat)
    (frame : FrameDatum) (h : Handle)
    (hr : ResolveLoop store link fuel frame = some (.returns h)) :
    ∃ last : FrameDatum, last.self = h ∧
      ((last.get link).IsNil = true ∨ last.get link = last.self) := by
  induction fuel generalizing frame with
  | zero => simp [ResolveLoop] at hr
  | succ n ih =>
    simp only [ResolveLoop] at hr
    split at hr
    · rename_i hnil
      simp only [Option.some.injEq, Outcome.returns.injEq] at hr
      exact ⟨frame, hr, Or.inl hnil⟩
    · split at hr
      · rename_i hself
        simp only [Option.some.injEq, Outcome.returns.injEq] at hr
        exact ⟨frame, hr, Or.inr hself⟩
      · split at hr
        · exact ih _ hr
        · simp at hr

/-- C20, at the failing input: in the store where `/wp/en/A` redirects to
`/wp/en/B` and `/wp/en/B` back to `/wp/en/A`, `Resolve` of the frame of
`/wp/en/A`, an existing frame, does not return for any amount of fuel, and
neither does `Lookup("/wp/en/A")`; on a chain that ends (A to B to C, and a page
redirecting to itself) they return the last frame and its Wikidata id. -/
theorem resolve_does_not_return_on_cycle (fuel : Nat) :
    redirectCycle.GetFrame (.ref 1) = some ⟨.ref 1, [(linkSymbol, .ref 2)]⟩ ∧
      Resolve redirectCycle linkSymbol fuel (.ref 1) = none ∧
      Lookup redirectCycle linkSymbol qidSymbol fuel "/wp/en/A" = none ∧
      Resolve redirectChain linkSymbol 3 (.ref 1) = some (.returns (.ref 3)) ∧
      Resolve redirectChain linkSymbol 3 (.ref 5) = some (.returns (.ref 5)) ∧
      Lookup redirectChain linkSymbol qidSymbol 3 "/wp/en/A" = some (.returns "Q4") := by
  have hg : redirectCycle.GetFrame (.ref 1) = some ⟨.ref 1, [(linkSymbol, .ref 2)]⟩ := by
    decide
  have hr : Resolve redirectCycle linkSymbol fuel (.ref 1) = none := by
    unfold Resolve
    rw [hg]
    exact (resolveLoop_cycle fuel).1
  have hl : redirectCycle.LookupExisting "/wp/en/A" = .ref 1 := by decide
  refine ⟨hg, hr, ?_, by decide, by decide, by decide⟩
  unfold Lookup
  simp only [hl, Handle.IsNil, Bool.false_eq_true, if_false, hr]

end WikipediaMap

namespace Myelin

/-! ### The shift instructions -/

/-- With SSE2, a supported element type and a destination register, a shift is
lowered to the move of the source into the destination followed by the shift
instruction picked by direction and element type, with the immediate `bits`. -/
theorem generateShift_eq (self : ExpressionGenerator) (instr : Op)
    (masm : MacroAssembler) (left : Bool) (bits : Int)
    (hsse2 : self.cpu.Enabled .SSE2 = true) (hty : self.type_.isFlt = true)
    (hd : instr.dst ≠ -1) :
    VectorFltSSEGenerator.GenerateShift self instr masm left bits =
      .ok { masm with code := masm.code ++
        [shiftMove self instr,
         ⟨if left then self.type_.pick .pslld .psllq else self.type_.pick .psrld .psrlq,
          [xmm instr.dst, .imm bits]⟩] } := by
  obtain ⟨ty, cpu, argnum⟩ := self
  obtain ⟨kind, dst, src, src2, args, result⟩ := instr
  simp only at hd hty hsse2
  by_cases hs : src = -1 <;> cases ty <;> cases left <;>
    simp_all [VectorFltSSEGenerator.GenerateShift, shiftMove, DataType.isFlt,
      DataType.pick, UNSUPPORTED, Result.andThen, emit]

/-- C21: on the vector SSE generator with SSE2 enabled (element type float or
double, destination in a register), SHL23 and SHR23 emit a full-register move of
the operation's source operand into the destination register, then one shift
instruction on that register with the immediate 23; the shift is logical, to the
left for SHL23 and to the right for SHR23, on 32-bit lanes for float (`pslld`,
`psrld`) and on 64-bit lanes for double (`psllq`, `psrlq`). -/
theorem shift_is_logical_by_23 (self : ExpressionGenerator) (instr : Op)
    (masm : MacroAssembler) (hsse2 : self.cpu.Enabled .SSE2 = true)
    (hty : self.type_.isFlt = true) (hd : instr.dst ≠ -1)
    (hk : instr.type = .SHL23 ∨ instr.type = .SHR23) :
    ∃ mv sh : Instr,
      Variant.Generate .VectorFltSSE self instr masm =
        .ok { masm with code := masm.code ++ [mv, sh] } ∧
      mv.op.isVectorMove = true ∧
      mv.operands = [xmm instr.dst, unarySource instr] ∧
      sh.operands = [xmm instr.dst, .imm 23] ∧
      sh.op.shiftKind =
        some ⟨decide (instr.type = .SHL23), self.type_.laneBits, true⟩ ∧
      sh.op = (if instr.type = .SHL23 then self.type_.pick .pslld .psllq
        else self.type_.pick .psrld .psrlq) := by
  have hgen : ∀ left : Bool,
      (if left then OpType.SHL23 else OpType.SHR23) = instr.type →
      Variant.Generate .VectorFltSSE self instr masm =
        VectorFltSSEGenerator.GenerateShift self instr masm left 23 := by
    intro left hl
    obtain ⟨kind, dst, src, src2, args, result⟩ := instr
    simp only at hl
    subst hl
    cases left <;> rfl
  have hmove : (shiftMove self instr).op.isVectorMove = true ∧
      (shiftMove self instr).operands = [xmm instr.dst, unarySource instr] := by
    unfold shiftMove unarySource
    obtain ⟨ty, cpu, argnum⟩ := self
    split <;> cases ty <;> simp_all [Mnemonic.isVectorMove, DataType.pick, DataType.isFlt]
  rcases hk with hk | hk
  · refine ⟨shiftMove self instr,
      ⟨self.type_.pick .pslld .psllq, [xmm instr.dst, .imm 23]⟩,
      ?_, hmove.1, hmove.2, rfl, ?_, ?_⟩
    · rw [hgen true (by simp [hk]), generateShift_eq self instr masm true 23 hsse2 hty hd]
      rfl
    · obtain ⟨ty, cpu, argnum⟩ := self
      cases ty <;> simp_all [Mnemonic.shiftKind, DataType.pick, DataType.laneBits,
        DataType.isFlt]
    · simp [hk]
  · refine ⟨shiftMove self instr,
      ⟨self.type_.pick .psrld .psrlq, [xmm instr.dst, .imm 23]⟩,
      ?_, hmove.1, hmove.2, rfl, ?_, ?_⟩
    · rw [hgen false (by simp [hk]), generateShift_eq self instr masm false 23 hsse2 hty hd]
      rfl
    · obtain ⟨ty, cpu, argnum⟩ := self
      cases ty <;> simp_all [Mnemonic.shiftKind, DataType.pick, DataType.laneBits,
        DataType.isFlt]
    · simp [hk]

/-- C21 at a concrete input: `SHR23 r0 <- r1` on doubles is `movapd xmm0, xmm1`
then `psrlq xmm0, 23`. -/
theorem shift_is_logical_by_23_witness :
    CPU.Enabled ⟨true, false, false⟩ .SSE2 = true ∧
      DataType.isFlt .DT_DOUBLE = true ∧ (unaryOp .SHR23 0 1).dst ≠ -1 ∧
      ∃ mv sh : Instr,
        Variant.Generate .VectorFltSSE ⟨.DT_DOUBLE, ⟨true, false, false⟩, fun _ => 0⟩
            (unaryOp .SHR23 0 1) MacroAssembler.empty =
          .ok ⟨[mv, sh], []⟩ ∧
        mv.operands = [.xmm 0, .xmm 1] ∧ sh.op = .psrlq ∧
        sh.op.shiftKind = some ⟨false, 64, true⟩ := by
  obtain ⟨mv, sh, h1, -, h3, -, h5, h6⟩ :=
    shift_is_logical_by_23 ⟨.DT_DOUBLE, ⟨true, false, false⟩, fun _ => 0⟩
      (unaryOp .SHR23 0 1) MacroAssembler.empty rfl rfl (by decide) (Or.inr rfl)
  exact ⟨rfl, rfl, by decide, mv, sh, h1, h3, h6, h5⟩

end Myelin

namespace Myelin

/-! ### The SSE2 check before `xorpd` -/

/-- What the helpers of the base class append: at most the one instruction whose
mnemonic is among the four they were called with. -/
theorem helper_appended_ops (self : ExpressionGenerator) (instr : Op)
    (a b c d : Mnemonic) (masm : MacroAssembler) (i : Instr)
    (hi : i ∈ (self.GenerateXMMFltOp instr a b c d masm).appended masm) :
    i.op = a ∨ i.op = b ∨ i.op = c ∨ i.op = d := by
  obtain ⟨ty, cpu, argnum⟩ := self
  revert hi
  unfold ExpressionGenerator.GenerateXMMFltOp Result.appended
  cases ty <;> simp only [UNSUPPORTED, emit] <;> (repeat' split) <;>
    simp [Result.masm] <;> rintro rfl <;> simp

/-- The immediate-taking overload appends at most the one instruction whose
mnemonic is among the four it was called with. -/
theorem helper_imm_appended_ops (self : ExpressionGenerator) (instr : Op)
    (a b c d : Mnemonic) (imm : Int) (masm : MacroAssembler) (i : Instr)
    (hi : i ∈ (self.GenerateXMMFltOpImm instr a b c d imm masm).appended masm) :
    i.op = a ∨ i.op = b ∨ i.op = c ∨ i.op = d := by
  obtain ⟨ty, cpu, argnum⟩ := self
  revert hi
  unfold ExpressionGenerator.GenerateXMMFltOpImm Result.appended
  cases ty <;> simp only [UNSUPPORTED, emit] <;> (repeat' split) <;>
    simp [Result.masm] <;> rintro rfl <;> simp

/-- The three-operand overload appends at most the one instruction whose mnemonic
is among the four it was called with. -/
theorem helper3_appended_ops (self : ExpressionGenerator) (instr : Op)
    (a b c d : Mnemonic) (masm : MacroAssembler) (i : Instr)
    (hi : i ∈ (self.GenerateXMMFltOp3 instr a b c d masm).appended masm) :
    i.op = a ∨ i.op = b ∨ i.op = c ∨ i.op = d := by
  obtain ⟨ty, cpu, argnum⟩ := self
  revert hi
  unfold ExpressionGenerator.GenerateXMMFltOp3 Result.appended
  cases ty <;> simp only [UNSUPPORTED, emit] <;> (repeat' split) <;>
    simp [Result.masm] <;> rintro rfl <;> simp

end Myelin

namespace Myelin

/-- The scalar move appends at most one `movss` or `movsd`. -/
theorem scalar_move_appended_ops (self : ExpressionGenerator) (instr : Op)
    (masm : MacroAssembler) (i : Instr)
    (hi : i ∈ (self.GenerateXMMScalarFltMove instr masm).appended masm) :
    i.op = .movss ∨ i.op = .movsd := by
  obtain ⟨ty, cpu, argnum⟩ := self
  revert hi
  unfold ExpressionGenerator.GenerateXMMScalarFltMove Result.appended
  cases ty <;> simp only [UNSUPPORTED, emit] <;> split_ifs <;>
    simp [Result.masm] <;> rintro rfl <;> simp

/-- The vector move appends at most one `movaps` or `movapd`. -/
theorem vector_move_appended_ops (self : ExpressionGenerator) (instr : Op)
    (masm : MacroAssembler) (i : Instr)
    (hi : i ∈ (self.GenerateXMMVectorMove instr masm).appended masm) :
    i.op = .movaps ∨ i.op = .movapd := by
  obtain ⟨ty, cpu, argnum⟩ := self
  revert hi
  unfold ExpressionGenerator.GenerateXMMVectorMove Result.appended
  cases ty <;> simp only [UNSUPPORTED, emit] <;> split_ifs <;>
    simp [Result.masm] <;> rintro rfl <;> simp

/-- With SSE2 disabled no RELU lowering appends `xorpd`. -/
theorem relu_no_xorpd (v : Variant) (self : ExpressionGenerator) (instr : Op)
    (masm : MacroAssembler) (hsse2 : self.cpu.Enabled .SSE2 = false)
    (hk : instr.type = .RELU) (i : Instr)
    (hi : i ∈ (v.Generate self instr masm).appended masm) : i.op ≠ .xorpd := by
  obtain ⟨ty, cpu, argnum⟩ := self
  obtain ⟨kind, dst, src, src2, args, result⟩ := instr
  simp only at hsse2 hk
  subst hk
  revert hi
  cases v <;> cases ty <;>
    simp only [Variant.Generate, ScalarFltSSEGenerator.Generate,
      ScalarFltAVXGenerator.Generate, VectorFltSSEGenerator.Generate,
      ScalarFltSSEGenerator.GenerateRelu, ScalarFltAVXGenerator.GenerateRelu,
      VectorFltSSEGenerator.GenerateRelu, ExpressionGenerator.GenerateXMMFltOp,
      Result.andThen, UNSUPPORTED, emit, hsse2, Result.appended] <;>
    (try split_ifs) <;>
    simp_all [Result.masm] <;>
    (try (rintro (rfl | rfl) <;> simp_all))

/-- No shift lowering appends `xorpd`. -/
theorem shift_no_xorpd (self : ExpressionGenerator) (instr : Op)
    (masm : MacroAssembler) (left : Bool) (bits : Int) (i : Instr)
    (hi : i ∈ (VectorFltSSEGenerator.GenerateShift self instr masm left bits).appended
      masm) : i.op ≠ .xorpd := by
  obtain ⟨ty, cpu, argnum⟩ := self
  revert hi
  cases ty <;> cases left <;>
    simp only [VectorFltSSEGenerator.GenerateShift, Result.andThen, UNSUPPORTED, emit,
      Result.appended] <;>
    (try split_ifs) <;>
    simp [Result.masm, Result.andThen] <;>
    (try (rintro (rfl | rfl) <;> simp))

end Myelin

namespace Myelin

/-- An unsupported operation appends nothing. -/
theorem unsupported_appended (masm : MacroAssembler) (i : Instr)
    (hi : i ∈ (UNSUPPORTED masm).appended masm) : False := by
  simp [UNSUPPORTED, Result.appended, Result.masm] at hi

set_option maxHeartbeats 1600000 in
/-- With SSE2 disabled, a lowering that appends `xorpd` is the vector SSE
generator's zero-constant move on doubles. -/
theorem xorpd_only_from_zero_move (v : Variant) (self : ExpressionGenerator)
    (instr : Op) (masm : MacroAssembler) (hsse2 : self.cpu.Enabled .SSE2 = false)
    (i : Instr) (hi : i ∈ (v.Generate self instr masm).appended masm)
    (hx : i.op = .xorpd) :
    v = .VectorFltSSE ∧ IsClear instr = true ∧ self.type_ = .DT_DOUBLE := by
  by_cases hr : instr.type = .RELU
  · exact absurd hx (relu_no_xorpd v self instr masm hsse2 hr i hi)
  by_cases hm : v = .VectorFltSSE ∧ instr.type = .MOV
  · obtain ⟨rfl, hm⟩ := hm
    refine ⟨rfl, ?_⟩
    obtain ⟨kind, dst, src, src2, args, result⟩ := instr
    simp only at hm
    subst hm
    simp only [Variant.Generate, VectorFltSSEGenerator.Generate] at hi
    by_cases hc : IsClear ⟨.MOV, dst, src, src2, args, result⟩ = true
    · refine ⟨hc, ?_⟩
      rw [if_pos hc] at hi
      obtain ⟨ty, cpu, argnum⟩ := self
      revert hi
      cases ty <;> simp [Result.appended, Result.masm, UNSUPPORTED, emit]
      rintro rfl
      simp at hx
    · rw [if_neg hc] at hi
      have h := vector_move_appended_ops _ _ _ _ hi
      simp [hx] at h
  · exfalso
    obtain ⟨kind, dst, src, src2, args, result⟩ := instr
    simp only at hr hm
    revert hi
    cases v <;> cases kind <;>
      simp only [Variant.Generate, ScalarFltSSEGenerator.Generate,
        ScalarFltAVXGenerator.Generate, VectorFltSSEGenerator.Generate,
        VectorFltSSEGenerator.GenerateCompare, VectorFltSSEGenerator.GenerateFloor,
        VectorFltSSEGenerator.GenerateFltToInt,
        VectorFltSSEGenerator.GenerateIntToFlt] <;>
      intro hi <;>
      first
      | exact hr rfl
      | exact hm ⟨rfl, rfl⟩
      | (with_reducible exact unsupported_appended _ _ hi)
      | ((with_reducible refine absurd (helper_appended_ops _ _ _ _ _ _ _ _ hi) ?_); simp [hx])
      | ((with_reducible refine absurd (helper3_appended_ops _ _ _ _ _ _ _ _ hi) ?_); simp [hx])
      | ((with_reducible refine absurd (helper_imm_appended_ops _ _ _ _ _ _ _ _ _ hi) ?_); simp [hx])
      | ((with_reducible refine absurd (scalar_move_appended_ops _ _ _ _ hi) ?_); simp [hx])
      | exact absurd hx (shift_no_xorpd _ _ _ _ _ _ hi)
      | (split_ifs at hi
         all_goals
          first
          | (with_reducible exact unsupported_appended _ _ hi)
          | ((with_reducible refine absurd (helper_appended_ops _ _ _ _ _ _ _ _ hi) ?_); simp [hx])
          | ((with_reducible refine absurd (helper_imm_appended_ops _ _ _ _ _ _ _ _ _ hi) ?_); simp [hx]))

/-- C22: with SSE2 disabled, a lowering appends the SSE2 instruction `xorpd`
exactly when it is the vector SSE generator lowering a zero-constant move on
doubles: no other path of the three generators emits `xorpd` without SSE2 (the
RELU lowerings test the feature first), and this one always does. -/
theorem xorpd_emitted_without_sse2 (v : Variant) (self : ExpressionGenerator)
    (instr : Op) (masm : MacroAssembler) (hsse2 : self.cpu.Enabled .SSE2 = false) :
    (∃ i ∈ (v.Generate self instr masm).appended masm, i.op = .xorpd) ↔
      (v = .VectorFltSSE ∧ IsClear instr = true ∧ self.type_ = .DT_DOUBLE) := by
  constructor
  · rintro ⟨i, hi, hx⟩
    exact xorpd_only_from_zero_move v self instr masm hsse2 i hi hx
  · rintro ⟨rfl, hc, hty⟩
    have hmov : instr.type = .MOV := by
      unfold IsClear at hc
      simp only [Bool.and_eq_true, beq_iff_eq] at hc
      exact hc.1
    obtain ⟨kind, dst, src, src2, args, result⟩ := instr
    obtain ⟨ty, cpu, argnum⟩ := self
    simp only at hmov hty
    subst hmov hty
    refine ⟨⟨.xorpd, [xmm dst, xmm dst]⟩, ?_, rfl⟩
    simp only [Variant.Generate, VectorFltSSEGenerator.Generate, if_pos hc]
    simp [Result.appended, Result.masm, emit]

/-- C22 at a concrete input: without SSE2 the vector SSE generator lowers
`MOV r3 <- 0` on doubles to `xorpd xmm3, xmm3` and reports success. -/
theorem xorpd_emitted_without_sse2_witness :
    CPU.Enabled ⟨false, false, false⟩ .SSE2 = false ∧
      Variant.Generate .VectorFltSSE ⟨.DT_DOUBLE, ⟨false, false, false⟩, fun _ => 0⟩
          (clearOp 3) MacroAssembler.empty =
        .ok ⟨[⟨.xorpd, [.xmm 3, .xmm 3]⟩], []⟩ ∧
      ∃ i ∈ (Variant.Generate .VectorFltSSE
          ⟨.DT_DOUBLE, ⟨false, false, false⟩, fun _ => 0⟩ (clearOp 3)
          MacroAssembler.empty).appended MacroAssembler.empty, i.op = .xorpd :=
  ⟨rfl, by decide,
    (xorpd_emitted_without_sse2 .VectorFltSSE
      ⟨.DT_DOUBLE, ⟨false, false, false⟩, fun _ => 0⟩ (clearOp 3)
      MacroAssembler.empty rfl).mpr ⟨rfl, by decide, rfl⟩⟩

end Myelin

namespace WikidataImporter

/-! ### ConvertTime -/

/-- On digits the parse loop returns the decimal value appended to the digits
read so far. -/
theorem parseLoop_digits (str : List Char) (number : Int)
    (h : ∀ c ∈ str, isDigit c = true) :
    ParseNumber.loop number str =
      str.foldl (fun n c => n * 10 + ((c.toNat : Int) - 48)) number := by
  induction str generalizing number with
  | nil => rfl
  | cons c rest ih =>
    have hc := h c (List.mem_cons_self _ _)
    simp only [isDigit, Bool.and_eq_true, decide_eq_true_eq] at hc
    have h0 : '0'.toNat = 48 := by decide
    have h9 : '9'.toNat = 57 := by decide
    rw [h0, h9] at hc
    rw [ParseNumber.loop, h0, h9, List.foldl_cons]
    have hif : (decide (c.toNat < 48) || decide (c.toNat > 57)) = false := by
      simp only [Bool.or_eq_false_iff, decide_eq_false_iff_not]
      omega
    rw [hif]
    simp only [Bool.false_eq_true, if_false]
    exact ih _ (fun d hd => h d (List.mem_cons_of_mem _ hd))

/-- The parse loop never returns less than `-1` when started from a nonnegative
number, and a nonnegative result means every character was a digit. -/
theorem parseLoop_nonneg (str : List Char) (number : Int) (hn : 0 ≤ number)
    (h : 0 ≤ ParseNumber.loop number str) : ∀ c ∈ str, isDigit c = true := by
  induction str generalizing number with
  | nil => simp
  | cons c rest ih =>
    have h0 : '0'.toNat = 48 := by decide
    have h9 : '9'.toNat = 57 := by decide
    rw [ParseNumber.loop, h0, h9] at h
    by_cases hc : (decide (c.toNat < 48) || decide (c.toNat > 57)) = true
    · rw [if_pos hc] at h
      omega
    · rw [if_neg hc] at h
      simp only [Bool.or_eq_true, decide_eq_true_eq, not_or, not_lt, gt_iff_lt] at hc
      intro d hd
      rcases List.mem_cons.mp hd with rfl | hd
      · simp only [isDigit, h0, h9, Bool.and_eq_true, decide_eq_true_eq]
        omega
      · exact ih _ (by push_cast; omega) h d hd

/-- A string matches the format of `ConvertTime` exactly when it has the simple
date shape. -/
theorem matchesFormat_iff (str : List Char) :
    MatchesFormat str simpleDateFormat = true ↔
      ∃ y1 y2 y3 y4 m1 m2 d1 d2 : Char, str = simpleDate y1 y2 y3 y4 m1 m2 d1 d2 := by
  constructor
  · intro h
    unfold MatchesFormat at h
    have hlen : str.length = 21 := by
      by_contra hne
      have : (str.length != simpleDateFormat.length) = true := by
        simpa [simpleDateFormat] using hne
      rw [if_pos this] at h
      cases h
    rcases str with _ | ⟨c0, _ | ⟨c1, _ | ⟨c2, _ | ⟨c3, _ | ⟨c4, _ | ⟨c5, _ | ⟨c6,
      _ | ⟨c7, _ | ⟨c8, _ | ⟨c9, _ | ⟨c10, _ | ⟨c11, _ | ⟨c12, _ | ⟨c13, _ | ⟨c14,
      _ | ⟨c15, _ | ⟨c16, _ | ⟨c17, _ | ⟨c18, _ | ⟨c19, _ | ⟨c20, _ | ⟨c21, rest⟩⟩⟩⟩⟩⟩⟩⟩⟩⟩⟩⟩⟩⟩⟩⟩⟩⟩⟩⟩⟩⟩ <;>
      simp only [List.length_cons, List.length_nil] at hlen <;> try omega
    simp [simpleDateFormat, MatchesFormat.loop] at h
    obtain ⟨rfl, rfl, rfl, rfl, rfl, rfl, rfl, rfl, rfl, rfl, rfl, rfl, rfl⟩ := h
    exact ⟨c1, c2, c3, c4, c6, c7, c9, c10, rfl⟩
  · rintro ⟨y1, y2, y3, y4, m1, m2, d1, d2, rfl⟩
    simp [MatchesFormat, simpleDate, simpleDateFormat, MatchesFormat.loop]

end WikidataImporter

namespace WikidataImporter

/-- The three fields of a simple date string are where `ConvertTime` reads them. -/
theorem substr_simpleDate (y1 y2 y3 y4 m1 m2 d1 d2 : Char) :
    substr (simpleDate y1 y2 y3 y4 m1 m2 d1 d2) 1 4 = [y1, y2, y3, y4] ∧
      substr (simpleDate y1 y2 y3 y4 m1 m2 d1 d2) 6 2 = [m1, m2] ∧
      substr (simpleDate y1 y2 y3 y4 m1 m2 d1 d2) 9 2 = [d1, d2] :=
  ⟨rfl, rfl, rfl⟩

/-- A list of digits denotes a nonnegative number. -/
theorem decimal_nonneg (digits : List Char) (h : ∀ c ∈ digits, isDigit c = true) :
    0 ≤ decimal digits := by
  have key : ∀ (l : List Char) (n : Int), 0 ≤ n → (∀ c ∈ l, isDigit c = true) →
      0 ≤ l.foldl (fun n c => n * 10 + ((c.toNat : Int) - 48)) n := by
    intro l
    induction l with
    | nil => intro n hn _; exact hn
    | cons c rest ih =>
      intro n hn hl
      have hc := hl c (List.mem_cons_self _ _)
      have h0 : '0'.toNat = 48 := by decide
      simp only [isDigit, h0, Bool.and_eq_true, decide_eq_true_eq] at hc
      rw [List.foldl_cons]
      exact ih _ (by omega) (fun d hd => hl d (List.mem_cons_of_mem _ hd))
  exact key digits 0 le_rfl h

/-- What `ConvertTime` returns on a string of the simple date shape. -/
theorem convertTime_simpleDate (store : Store) (timestamp : Handle)
    (y1 y2 y3 y4 m1 m2 d1 d2 : Char)
    (hs : store.strings timestamp = some (simpleDate y1 y2 y3 y4 m1 m2 d1 d2)) :
    ConvertTime store timestamp =
      if ParseNumber [y1, y2, y3, y4] < 1000 ∨ ParseNumber [m1, m2] < 0 ∨
          ParseNumber [d1, d2] < 0 then timestamp
      else Handle.integer (encodeDate (ParseNumber [y1, y2, y3, y4])
        (ParseNumber [m1, m2]) (ParseNumber [d1, d2])) := by
  have hm : MatchesFormat (simpleDate y1 y2 y3 y4 m1 m2 d1 d2) simpleDateFormat = true :=
    (matchesFormat_iff _).mpr ⟨y1, y2, y3, y4, m1, m2, d1, d2, rfl⟩
  obtain ⟨e1, e2, e3⟩ := substr_simpleDate y1 y2 y3 y4 m1 m2 d1 d2
  unfold ConvertTime
  simp only [Store.IsString, Store.GetString, hs, Option.isSome_some, Bool.not_true,
    Bool.false_eq_true, if_false, Option.getD_some, hm, e1, e2, e3]
  by_cases hc : ParseNumber [y1, y2, y3, y4] < 1000 ∨ ParseNumber [m1, m2] < 0 ∨
      ParseNumber [d1, d2] < 0
  · rw [if_pos hc, if_pos (by simpa [or_assoc] using hc)]
  · rw [if_neg hc, if_neg (by simpa [or_assoc, and_assoc] using hc)]
    unfold encodeDate Handle.Integer
    by_cases hd : ParseNumber [d1, d2] = 0 <;> by_cases hmo : ParseNumber [m1, m2] = 0 <;>
      simp [hd, hmo]

/-- C24: `ConvertTime` on every input.  When the handle is a string of the exact
shape `+YYYY-MM-DDT00:00:00Z` whose year, month and day fields are decimal digits
and whose year is at least 1000, the result is the integer `YYYY` if month and
day are both zero, `YYYY*100 + MM` if only the day is zero and
`YYYY*10000 + MM*100 + DD` otherwise; on every other input (not a string, another
length or punctuation, a non-digit in a field, a year below 1000) the result is
the input handle itself. -/
theorem convertTime_encodes_simple_dates (store : Store) (timestamp : Handle) :
    (∀ y1 y2 y3 y4 m1 m2 d1 d2 : Char,
      store.strings timestamp = some (simpleDate y1 y2 y3 y4 m1 m2 d1 d2) →
      (∀ c ∈ [y1, y2, y3, y4, m1, m2, d1, d2], isDigit c = true) →
      1000 ≤ decimal [y1, y2, y3, y4] →
      ConvertTime store timestamp =
        Handle.integer (encodeDate (decimal [y1, y2, y3, y4]) (decimal [m1, m2])
          (decimal [d1, d2]))) ∧
    (¬ IsSimpleDate store timestamp → ConvertTime store timestamp = timestamp) := by
  constructor
  · intro y1 y2 y3 y4 m1 m2 d1 d2 hs hdig hy
    have py : ParseNumber [y1, y2, y3, y4] = decimal [y1, y2, y3, y4] :=
      parseLoop_digits _ 0 (fun c hc => hdig c (by simp at hc ⊢; tauto))
    have pm : ParseNumber [m1, m2] = decimal [m1, m2] :=
      parseLoop_digits _ 0 (fun c hc => hdig c (by simp at hc ⊢; tauto))
    have pd : ParseNumber [d1, d2] = decimal [d1, d2] :=
      parseLoop_digits _ 0 (fun c hc => hdig c (by simp at hc ⊢; tauto))
    have hm0 := decimal_nonneg [m1, m2] (fun c hc => hdig c (by simp at hc ⊢; tauto))
    have hd0 := decimal_nonneg [d1, d2] (fun c hc => hdig c (by simp at hc ⊢; tauto))
    rw [convertTime_simpleDate store timestamp y1 y2 y3 y4 m1 m2 d1 d2 hs, py, pm, pd,
      if_neg (by omega)]
  · intro hnot
    cases hs : store.strings timestamp with
    | none => simp [ConvertTime, Store.IsString, hs]
    | some str =>
      by_cases hm : MatchesFormat str simpleDateFormat = true
      · obtain ⟨y1, y2, y3, y4, m1, m2, d1, d2, rfl⟩ := (matchesFormat_iff str).mp hm
        rw [convertTime_simpleDate store timestamp y1 y2 y3 y4 m1 m2 d1 d2 hs]
        by_cases hc : ParseNumber [y1, y2, y3, y4] < 1000 ∨ ParseNumber [m1, m2] < 0 ∨
            ParseNumber [d1, d2] < 0
        · rw [if_pos hc]
        · exfalso
          apply hnot
          simp only [not_or, not_lt] at hc
          obtain ⟨hy, hmo, hd⟩ := hc
          have dy := parseLoop_nonneg [y1, y2, y3, y4] 0 le_rfl
            (le_trans (by norm_num) hy)
          have dm := parseLoop_nonneg [m1, m2] 0 le_rfl hmo
          have dd := parseLoop_nonneg [d1, d2] 0 le_rfl hd
          refine ⟨y1, y2, y3, y4, m1, m2, d1, d2, hs, ?_, ?_⟩
          · intro c hc
            simp only [List.mem_cons, List.mem_singleton, List.not_mem_nil,
              or_false] at hc dy dm dd
            rcases hc with rfl | rfl | rfl | rfl | rfl | rfl | rfl | rfl
            · exact dy _ (Or.inl rfl)
            · exact dy _ (Or.inr (Or.inl rfl))
            · exact dy _ (Or.inr (Or.inr (Or.inl rfl)))
            · exact dy _ (Or.inr (Or.inr (Or.inr rfl)))
            · exact dm _ (Or.inl rfl)
            · exact dm _ (Or.inr rfl)
            · exact dd _ (Or.inl rfl)
            · exact dd _ (Or.inr rfl)
          · have py : ParseNumber [y1, y2, y3, y4] = decimal [y1, y2, y3, y4] :=
              parseLoop_digits _ 0 dy
            rw [← py]
            exact hy
      · simp [ConvertTime, Store.IsString, Store.GetString, hs, hm]

/-- C24 at concrete inputs: `+2013-05-00T00:00:00Z` becomes 201305, and the
timestamp with a time of day `+2013-05-17T09:30:00Z` is returned unchanged. -/
theorem convertTime_encodes_simple_dates_witness :
    ConvertTime (storeWith "+2013-05-00T00:00:00Z") (.ref 7) = .integer 201305 ∧
      ConvertTime (storeWith "+2013-05-17T09:30:00Z") (.ref 7) = .ref 7 :=
  ⟨((convertTime_encodes_simple_dates (storeWith "+2013-05-00T00:00:00Z") (.ref 7)).1
      '2' '0' '1' '3' '0' '5' '0' '0' (by decide) (by decide) (by decide)).trans
      (by decide),
   (convertTime_encodes_simple_dates (storeWith "+2013-05-17T09:30:00Z") (.ref 7)).2
      (by
        rintro ⟨y1, y2, y3, y4, m1, m2, d1, d2, hs, -, -⟩
        have h : "+2013-05-17T09:30:00Z".toList =
            simpleDate y1 y2 y3 y4 m1 m2 d1 d2 := by
          simpa [storeWith] using hs
        simp [simpleDate] at h)⟩

end WikidataImporter

namespace Sling

namespace Buffer

/-! ### Buffer: the loop of Ensure -/

/-- When the growth loop ends, the size it returns is at least the size asked
for. -/
theorem grow_ge (fuel newsize minsize ns : Nat)
    (h : Ensure.grow fuel newsize minsize = some ns) : minsize ≤ ns := by
  induction fuel generalizing newsize with
  | zero => simp [Ensure.grow] at h
  | succ fuel ih =>
    rw [Ensure.grow] at h
    split_ifs at h with hlt
    · exact ih _ h
    · cases h
      omega

/-- More fuel does not change the result of the growth loop. -/
theorem grow_mono (fuel extra newsize minsize ns : Nat)
    (h : Ensure.grow fuel newsize minsize = some ns) :
    Ensure.grow (fuel + extra) newsize minsize = some ns := by
  induction fuel generalizing newsize with
  | zero => simp [Ensure.grow] at h
  | succ fuel ih =>
    rw [Ensure.grow] at h
    rw [show fuel + 1 + extra = (fuel + extra) + 1 by omega, Ensure.grow]
    split_ifs at h ⊢ with hlt
    · exact ih _ h
    · exact h

/-- Below 2^63 the growth loop ends without wrapping: `k + 1` rounds are enough
once `newsize * 2^k` reaches 2^63. -/
theorem grow_terminates (k newsize minsize : Nat) (hm : minsize ≤ 2 ^ 63)
    (hk : 2 ^ 63 ≤ newsize * 2 ^ k) :
    ∃ ns, Ensure.grow (k + 1) newsize minsize = some ns := by
  induction k generalizing newsize with
  | zero =>
    rw [Ensure.grow, if_neg (by omega)]
    exact ⟨_, rfl⟩
  | succ k ih =>
    rw [Ensure.grow]
    split_ifs with hlt
    · have hw : toSize (newsize * 2) = newsize * 2 := by
        unfold toSize
        exact Nat.mod_eq_of_lt (by omega)
      rw [hw]
      refine ih _ ?_
      have e : newsize * 2 * 2 ^ k = newsize * 2 ^ (k + 1) := by ring
      rw [e]
      exact hk
    · exact ⟨_, rfl⟩

/-- With a request below 2^63 and a positive start, the growth loop returns a size
within 64 rounds, whatever the fuel beyond that. -/
theorem grow_returns (newsize minsize : Nat) (hm : minsize ≤ 2 ^ 63)
    (hn : 0 < newsize) :
    ∃ ns, minsize ≤ ns ∧ ∀ fuel, 64 ≤ fuel → Ensure.grow fuel newsize minsize = some ns := by
  obtain ⟨ns, hns⟩ := grow_terminates 63 newsize minsize hm
    (by nlinarith [Nat.one_le_two_pow (n := 63)])
  refine ⟨ns, grow_ge _ _ _ _ hns, fun fuel hf => ?_⟩
  have := grow_mono 64 (fuel - 64) newsize minsize ns hns
  rwa [show 64 + (fuel - 64) = fuel by omega] at this

/-- The growth loop stays within `size_t`. -/
theorem grow_lt (fuel newsize minsize ns : Nat) (hn : newsize < 2 ^ 64)
    (h : Ensure.grow fuel newsize minsize = some ns) : ns < 2 ^ 64 := by
  induction fuel generalizing newsize with
  | zero => simp [Ensure.grow] at h
  | succ fuel ih =>
    rw [Ensure.grow] at h
    split_ifs at h with hlt
    · exact ih _ (Nat.mod_lt _ (by norm_num)) h
    · cases h
      exact hn

end Buffer

end Sling

namespace Sling

namespace Buffer

/-! ### Buffer: the operations one by one -/

/-- Inside `size_t` the difference of two ordered offsets is their distance. -/
theorem sizeDiff_of_le (a b : Nat) (hab : b ≤ a) (ha : a < 2 ^ 64) :
    sizeDiff a b = a - b := by
  unfold sizeDiff
  rw [show a + 2 ^ 64 - b = (a - b) + 2 ^ 64 by omega, Nat.add_mod_right]
  exact Nat.mod_eq_of_lt (by omega)

/-- A sum below 2^64 is not wrapped. -/
theorem toSize_of_lt (n : Nat) (h : n < 2 ^ 64) : toSize n = n :=
  Nat.mod_eq_of_lt h

/-- The unread bytes, read from `begin_` on. -/
theorem unread_eq (b : Buffer) :
    b.unread = (b.mem.drop b.begin_).take (b.end_ - b.begin_) := by
  unfold unread
  rw [List.drop_take]

/-- The number of unread bytes of a valid buffer. -/
theorem length_unread (b : Buffer) (hb : b.Valid) (hc : b.capacity < 2 ^ 64) :
    b.unread.length = b.available := by
  obtain ⟨h1, h2⟩ := hb
  unfold available
  rw [sizeDiff_of_le _ _ h1 (by omega)]
  unfold capacity at h2
  simp only [unread, List.length_drop, List.length_take]
  omega

/-- What a successful `realloc` returns. -/
theorem realloc_spec (avail : Nat → Bool) (mem mem2 : List Nat) (size : Nat)
    (h : realloc avail mem size = some mem2) :
    mem2.length = size ∧ ∀ k, k ≤ size → k ≤ mem.length → mem2.take k = mem.take k := by
  unfold realloc at h
  split_ifs at h
  cases h
  refine ⟨by simp only [List.length_append, List.length_take, List.length_replicate]; omega,
    fun k hk hl => ?_⟩
  rw [List.take_append_of_le_length (by simp only [List.length_take]; omega),
    List.take_take, min_eq_left hk]

/-- `Resize(size)` with `size` at least the offset of `end_`: the offsets stay, the
capacity becomes `size` and the bytes below `end_` are kept. -/
theorem resize_spec (avail : Nat → Bool) (b b2 : Buffer) (size : Nat) (hb : b.Valid)
    (hc : b.capacity < 2 ^ 64) (hs : b.end_ ≤ size)
    (h : b.Resize avail size = some b2) :
    b2.begin_ = b.begin_ ∧ b2.end_ = b.end_ ∧ b2.capacity = size ∧
      b2.mem.take b.end_ = b.mem.take b.end_ := by
  obtain ⟨h1, h2⟩ := hb
  unfold Resize at h
  split_ifs at h with hne
  · cases hr : realloc avail b.mem size with
    | none => simp [hr] at h
    | some mem2 =>
      simp only [hr, Option.some.injEq] at h
      subst h
      obtain ⟨hl, ht⟩ := realloc_spec avail b.mem mem2 size hr
      refine ⟨rfl, ?_, hl, ht _ hs h2⟩
      simp only
      rw [sizeDiff_of_le _ _ h1 (by omega), toSize_of_lt _ (by omega)]
      omega
  · cases h
    simp only [bne_iff_ne, ne_eq, not_not] at hne
    exact ⟨rfl, rfl, hne.symm, rfl⟩

/-- `Flush()` on a valid buffer returns, and keeps the invariant, the capacity and
the unread bytes. -/
theorem flush_spec (b : Buffer) (hb : b.Valid) (hc : b.capacity < 2 ^ 64) :
    ∃ b2, b.Flush = some b2 ∧ b2.Valid ∧ b2.unread = b.unread ∧
      b2.capacity = b.capacity ∧ b2.begin_ = 0 := by
  obtain ⟨h1, h2⟩ := hb
  unfold Flush
  split_ifs with hpos
  · have hu : sizeDiff b.end_ b.begin_ = b.end_ - b.begin_ :=
      sizeDiff_of_le _ _ h1 (by omega)
    unfold capacity at h2 hc
    have hlen : ((b.mem.drop b.begin_).take (b.end_ - b.begin_)).length =
        b.end_ - b.begin_ := by
      simp only [List.length_take, List.length_drop]
      omega
    simp only [hu, memmove]
    rw [if_pos ⟨by omega, by omega⟩, toSize_of_lt _ (by omega)]
    refine ⟨_, rfl, ⟨by simp, ?_⟩, ?_, ?_, rfl⟩
    · simp only [capacity, List.take_zero, List.nil_append, List.length_append,
        List.length_take, List.length_drop]
      omega
    · rw [unread_eq b]
      simp only [unread, List.take_zero, List.nil_append, zero_add, List.drop_zero]
      rw [List.take_append_of_le_length (by rw [hlen]), List.take_of_length_le (by rw [hlen])]
    · simp only [capacity, List.take_zero, List.nil_append, List.length_append,
        List.length_take, List.length_drop]
      omega
  · exact ⟨b, rfl, ⟨h1, h2⟩, rfl, rfl, by omega⟩

/-- `Ensure(size)` when `end_ + size` does not wrap: if it returns, the offsets
and the bytes below `end_` are kept and `size` bytes are free after `end_`. -/
theorem ensure_spec (avail : Nat → Bool) (fuel : Nat) (b b2 : Buffer) (size : Nat)
    (hb : b.Valid) (hc : b.capacity < 2 ^ 64) (hs : b.end_ + size < 2 ^ 64)
    (h : b.Ensure avail fuel size = some b2) :
    b2.begin_ = b.begin_ ∧ b2.end_ = b.end_ ∧ b.end_ + size ≤ b2.capacity ∧
      b2.capacity < 2 ^ 64 ∧ b2.mem.take b.end_ = b.mem.take b.end_ := by
  unfold Ensure at h
  simp only at h
  split at h
  · cases h
  · rename_i ns hg
    have hge := grow_ge _ _ _ _ hg
    have hlt := grow_lt _ _ _ _ (by split_ifs <;> omega) hg
    have hw : toSize (b.end_ + size) = b.end_ + size := Nat.mod_eq_of_lt hs
    rw [hw] at hge
    obtain ⟨e1, e2, e3, e4⟩ := resize_spec avail b b2 ns hb hc (by omega) h
    exact ⟨e1, e2, by omega, by omega, e4⟩

/-- `Ensure(size)` returns: below 2^63 the loop ends within 64 rounds at some size
`ns`, and the call is `Resize(ns)`. -/
theorem ensure_returns (avail : Nat → Bool) (b : Buffer) (size : Nat)
    (hs : b.end_ + size ≤ 2 ^ 63) :
    ∃ ns, b.end_ + size ≤ ns ∧
      ∀ fuel, 64 ≤ fuel → b.Ensure avail fuel size = b.Resize avail ns := by
  have hw : toSize (b.end_ + size) = b.end_ + size := Nat.mod_eq_of_lt (by omega)
  obtain ⟨ns, hge, hns⟩ := grow_returns
    (if (b.capacity == 0) = true then 4096 else b.capacity) (toSize (b.end_ + size))
    (by rw [hw]; exact hs)
    (by split_ifs with hc
        · norm_num
        · simp only [beq_iff_eq] at hc
          omega)
  refine ⟨ns, by rw [hw] at hge; exact hge, fun fuel hf => ?_⟩
  unfold Ensure
  simp only [hns fuel hf]

/-- After an `Ensure` that made room, `Write(data)` copies inside the allocation:
it returns, appends `data` to the unread bytes and keeps the invariant. -/
theorem write_after_ensure (avail : Nat → Bool) (fuel : Nat) (b b1 : Buffer)
    (data : List Nat) (hb : b.Valid) (hc : b.capacity < 2 ^ 64)
    (hs : b.end_ + data.length < 2 ^ 64)
    (he : b.Ensure avail fuel data.length = some b1) :
    ∃ b2, b.Write avail fuel data = some b2 ∧ b2.Valid ∧ b2.capacity < 2 ^ 64 ∧
      b2.unread = b.unread ++ data ∧ b2.capacity = b1.capacity := by
  obtain ⟨e1, e2, e3, e5, e4⟩ := ensure_spec avail fuel b b1 data.length hb hc hs he
  obtain ⟨h1, h2⟩ := hb
  unfold capacity at e3 h2 e5
  have hlen : (b1.mem.take b1.end_).length = b1.end_ := by
    simp only [List.length_take]
    omega
  have hcap : (List.take b1.end_ b1.mem ++ data ++
      List.drop (b1.end_ + data.length) b1.mem).length = b1.mem.length := by
    simp only [List.length_append, List.length_take, List.length_drop]
    omega
  unfold Write
  simp only [he, memcpy]
  rw [if_pos (by omega), toSize_of_lt _ (by omega)]
  refine ⟨_, rfl, ⟨by simp only; omega, ?_⟩, ?_, ?_, ?_⟩
  · simp only [capacity, hcap]
    omega
  · simp only [capacity, hcap]
    exact e5
  · simp only [unread]
    rw [List.append_assoc, ← List.append_assoc (List.take b1.end_ b1.mem) data,
      List.take_append_of_le_length
        (by simp only [List.length_append, hlen]; omega),
      List.take_of_length_le (by simp only [List.length_append, hlen]; omega),
      List.drop_append_of_le_length (by rw [hlen]; omega), e1, e2, e4]
  · simp only [capacity, hcap]

/-- What `Write(data)` leaves when it returns. -/
theorem write_spec (avail : Nat → Bool) (fuel : Nat) (b b2 : Buffer) (data : List Nat)
    (hb : b.Valid) (hc : b.capacity < 2 ^ 64) (hs : b.end_ + data.length < 2 ^ 64)
    (h : b.Write avail fuel data = some b2) :
    b2.Valid ∧ b2.capacity < 2 ^ 64 ∧ b2.unread = b.unread ++ data := by
  cases he : b.Ensure avail fuel data.length with
  | none => simp [Write, he] at h
  | some b1 =>
    obtain ⟨b3, hw, hv, hcap, hu, -⟩ := write_after_ensure avail fuel b b1 data hb hc hs he
    rw [h, Option.some.injEq] at hw
    subst hw
    exact ⟨hv, hcap, hu⟩

/-- What `Read(size)` returns and leaves, for `size` within the unread bytes. -/
theorem read_spec (b : Buffer) (size : Nat) (hb : b.Valid) (hc : b.capacity < 2 ^ 64)
    (hs : size ≤ b.available) :
    ∃ b2, b.Read size = some (b.unread.take size, b2) ∧ b2.Valid ∧
      b2.unread = b.unread.drop size ∧ b2.capacity = b.capacity := by
  obtain ⟨h1, h2⟩ := hb
  have hs2 : size ≤ b.end_ - b.begin_ := by
    have := hs
    unfold available at this
    rwa [sizeDiff_of_le _ _ h1 (by omega)] at this
  have h3 := h2
  unfold capacity at h3 hc
  refine ⟨{ b with begin_ := b.begin_ + size }, ?_, ⟨by simp only; omega, h2⟩, ?_, rfl⟩
  · unfold Read
    rw [if_pos hs]
    simp only [memread]
    rw [if_pos (by omega), toSize_of_lt _ (by omega), unread_eq, List.take_take,
      min_eq_left hs2]
  · simp only [unread, List.drop_drop]

end Buffer

end Sling

namespace Sling

namespace Buffer

/-! ### Buffer: the invariant and the queue discipline -/

/-- The capacity after a `Resize(size)` that returns is `size`. -/
theorem resize_capacity (avail : Nat → Bool) (b b2 : Buffer) (size : Nat)
    (h : b.Resize avail size = some b2) : b2.capacity = size := by
  unfold Resize at h
  split_ifs at h with hne
  · cases hr : realloc avail b.mem size with
    | none => simp [hr] at h
    | some mem2 =>
      simp only [hr, Option.some.injEq] at h
      subst h
      exact (realloc_spec avail b.mem mem2 size hr).1
  · cases h
    simp only [bne_iff_ne, ne_eq, not_not] at hne
    exact hne.symm

end Buffer

end Sling

namespace NumberAnnotator

/-! ### NumberAnnotator: parsing -/

/-- The value of a digit character is at most 9. -/
theorem digit_value_le (c : Char) (h : isDigit c = true) : c.toNat - '0'.toNat ≤ 9 := by
  have h0 : '0'.toNat = 48 := by decide
  have h9 : '9'.toNat = 57 := by decide
  simp only [isDigit, h0, h9, Bool.and_eq_true, decide_eq_true_eq] at h
  rw [h0]
  omega

/-- On digits alone the integer part reads the whole string and accumulates its
decimal value. -/
theorem integerPart_digits (tsep dsep : Char) (l : List Char) (pos value : Nat)
    (group : Option Nat) (h : ∀ c ∈ l, isDigit c = true) :
    ParseNumber.integerPart tsep dsep l pos value group =
      some (l.foldl (fun n c => n * 10 + (c.toNat - 48)) value, group, pos + l.length, []) := by
  induction l generalizing pos value with
  | nil => rfl
  | cons c rest ih =>
    rw [ParseNumber.integerPart, if_pos (h c (List.mem_cons_self _ _)),
      ih _ _ (fun d hd => h d (List.mem_cons_of_mem _ hd))]
    have h0 : '0'.toNat = 48 := by decide
    simp only [List.foldl_cons, List.length_cons, h0]
    rw [show pos + 1 + rest.length = pos + (rest.length + 1) by omega]

/-- The value the integer part returns is below `(value + 1) * 10^d`, with `d` the
number of digit characters in the string. -/
theorem integerPart_bound (tsep dsep : Char) (l : List Char) (pos value : Nat)
    (group : Option Nat) (r : Nat × Option Nat × Nat × List Char)
    (h : ParseNumber.integerPart tsep dsep l pos value group = some r) :
    r.1 + 1 ≤ (value + 1) * 10 ^ l.countP (fun c => isDigit c) := by
  induction l generalizing pos value group with
  | nil =>
    simp only [ParseNumber.integerPart, Option.some.injEq] at h
    subst h
    simp
  | cons c rest ih =>
    rw [ParseNumber.integerPart] at h
    by_cases hd : isDigit c = true
    · rw [if_pos hd] at h
      have := ih _ _ _ h
      have hv := digit_value_le c hd
      rw [List.countP_cons_of_pos _ _ hd, pow_succ]
      calc r.1 + 1 ≤ (value * 10 + (c.toNat - '0'.toNat) + 1) *
            10 ^ List.countP (fun c => isDigit c) rest := this
        _ ≤ ((value + 1) * 10) * 10 ^ List.countP (fun c => isDigit c) rest :=
            Nat.mul_le_mul_right _ (by omega)
        _ = (value + 1) * (10 ^ List.countP (fun c => isDigit c) rest * 10) := by ring
    · rw [if_neg hd] at h
      rw [List.countP_cons_of_neg _ _ hd]
      split_ifs at h with h1 h2 h3
      · exact ih _ _ _ h
      · simp only [Option.some.injEq] at h
        subst h
        exact Nat.le_mul_of_pos_right _ (by positivity)

/-- A word of digits whose value lies within the handle integers parses, with any
separators, as that integer. -/
theorem parseNumber_digits (kMinInt kMaxInt : Int) (word : List Char)
    (tsep dsep msep : Char) (hne : word ≠ []) (h : ∀ c ∈ word, isDigit c = true)
    (hmin : kMinInt ≤ decimal word) (hmax : (decimal word : Int) ≤ kMaxInt) :
    ParseNumber kMinInt kMaxInt word tsep dsep msep = .Integer (decimal word) := by
  obtain ⟨c0, tail, rfl⟩ := List.exists_cons_of_ne_nil hne
  have hc0 := h c0 (List.mem_cons_self _ _)
  have hm : (c0 == '-') = false := by
    rw [beq_eq_false_iff_ne]
    rintro rfl
    revert hc0
    decide
  have hp : (c0 == '+') = false := by
    rw [beq_eq_false_iff_ne]
    rintro rfl
    revert hc0
    decide
  unfold ParseNumber
  simp only [hm, hp, Bool.false_eq_true, if_false, ParseNumber.afterSign,
    integerPart_digits tsep dsep _ 0 0 none h, Option.any_none]
  unfold ParseNumber.compute
  simp only [Bool.false_eq_true, if_false, pow_zero, mul_one, Bool.false_or]
  have e : List.foldl (fun n c => n * 10 + (c.toNat - 48)) 0 (c0 :: tail) =
      decimal (c0 :: tail) := rfl
  rw [e, if_neg]
  simp only [Bool.or_eq_true, decide_eq_true_eq, not_or, not_lt]
  exact ⟨hmin, hmax⟩

/-- An integer result of at least 1000 comes from an unsigned string that the
integer part read to its end. -/
theorem afterSign_large (kMinInt kMaxInt : Int) (tsep dsep msep : Char)
    (negative : Bool) (p : List Char) (pos : Nat) (v : Int) (hv : 1000 ≤ v)
    (h : ParseNumber.afterSign kMinInt kMaxInt tsep dsep msep negative p pos =
      .Integer v) :
    negative = false ∧ ∃ value group pos2,
      ParseNumber.integerPart tsep dsep p pos 0 none = some (value, group, pos2, []) ∧
      v = value := by
  have result : ∀ (dec : Bool) (value decimals : Nat),
      ParseNumber.compute kMinInt kMaxInt negative dec value decimals = .Integer v →
      dec = false ∧ negative = false ∧ v = value := by
    intro dec value decimals hc
    unfold ParseNumber.compute at hc
    cases dec
    · cases negative
      · simp only [Bool.false_eq_true, if_false] at hc
        split_ifs at hc
        cases hc
        exact ⟨rfl, rfl, rfl⟩
      · simp only [if_true] at hc
        split_ifs at hc
        cases hc
        omega
    · simp at hc
  unfold ParseNumber.afterSign at h
  split at h
  · cases h
  · rename_i value group pos2 rest hip
    split_ifs at h with hg
    split at h
    · obtain ⟨-, hneg, rfl⟩ := result _ _ _ h
      exact ⟨hneg, value, group, pos2, hip, rfl⟩
    · split_ifs at h
      split at h
      · cases h
      · split_ifs at h
        obtain ⟨hd, -, -⟩ := result _ _ _ h
        cases hd

/-- A word of at most four characters that parses as an integer of at least 1000
consists of digits, and the integer is its decimal value. -/
theorem parseNumber_large (kMinInt kMaxInt : Int) (word : List Char)
    (tsep dsep msep : Char) (v : Int) (hlen : word.length ≤ 4) (hv : 1000 ≤ v)
    (h : ParseNumber kMinInt kMaxInt word tsep dsep msep = .Integer v) :
    (∀ c ∈ word, isDigit c = true) ∧ v = decimal word := by
  have short : ∀ (l : List Char) (pos value : Nat) (g : Option Nat) (pos2 : Nat),
      l.length ≤ 3 →
      ParseNumber.integerPart tsep dsep l pos 0 none = some (value, g, pos2, []) →
      value < 1000 := by
    intro l pos value g pos2 hl hip
    have hb := integerPart_bound _ _ _ _ _ _ _ hip
    have hcount := List.countP_le_length (fun c => isDigit c) (l := l)
    have : 10 ^ List.countP (fun c => isDigit c) l ≤ 10 ^ 3 :=
      Nat.pow_le_pow_right (by norm_num) (by omega)
    simp only [zero_add, one_mul] at hb
    omega
  cases word with
  | nil => simp [ParseNumber] at h
  | cons c0 tail =>
    simp only [List.length_cons] at hlen
    unfold ParseNumber at h
    simp only at h
    split_ifs at h with hm hp
    · have := (afterSign_large _ _ _ _ _ _ _ _ _ hv h).1
      cases this
    · obtain ⟨-, value, g, pos2, hip, rfl⟩ := afterSign_large _ _ _ _ _ _ _ _ _ hv h
      have := short tail 1 value g pos2 (by omega) hip
      omega
    · obtain ⟨-, value, g, pos2, hip, rfl⟩ := afterSign_large _ _ _ _ _ _ _ _ _ hv h
      have hb := integerPart_bound _ _ _ _ _ _ _ hip
      simp only [zero_add, one_mul] at hb
      have hcount := List.countP_le_length (fun c => isDigit c) (l := c0 :: tail)
      have h4 : List.countP (fun c => isDigit c) (c0 :: tail) = (c0 :: tail).length := by
        by_contra hne
        have : 10 ^ List.countP (fun c => isDigit c) (c0 :: tail) ≤ 10 ^ 3 :=
          Nat.pow_le_pow_right (by norm_num)
            (by simp only [List.length_cons] at hcount hne; omega)
        omega
      have hall : ∀ c ∈ c0 :: tail, isDigit c = true := by
        simpa using List.countP_eq_length.mp h4
      rw [integerPart_digits _ _ _ _ _ _ hall] at hip
      simp only [Option.some.injEq, Prod.mk.injEq] at hip
      refine ⟨hall, ?_⟩
      rw [← hip.1]
      rfl

end NumberAnnotator

namespace NumberAnnotator

/-! ### NumberAnnotator: the token loop -/

/-- The scan of a word: `has_digits` tells whether the word has a digit, and
`all_digits` is never cleared. -/
theorem digitScan_eq (word : List Char) : digitScan word = (word.any isDigit, true) := by
  have key : ∀ (l : List Char) (has : Bool),
      l.foldl (fun (s : Bool × Bool) c => if isDigit c then (true, s.2) else (s.1, true))
        (has, true) = (has || l.any isDigit, true) := by
    intro l
    induction l with
    | nil => intro has; simp
    | cons c rest ih =>
      intro has
      rw [List.foldl_cons]
      by_cases hd : isDigit c = true
      · simp only [hd, if_true, ih, List.any_cons, Bool.true_or, Bool.or_true]
      · simp only [hd, Bool.false_eq_true, if_false, ih, List.any_cons, Bool.false_or]
  unfold digitScan
  rw [key]
  simp

/-- A year parses, in every format, as the integer it denotes. -/
theorem parseNumberFormat_year (kMinInt kMaxInt : Int) (hmin : kMinInt ≤ 1582)
    (hmax : 2038 ≤ kMaxInt) (format : Format) (word : List Char) (hy : IsYear word) :
    ParseNumberFormat kMinInt kMaxInt word format = .Integer (decimal word) := by
  obtain ⟨hlen, hdig, hlo, hhi⟩ := hy
  have hne : word ≠ [] := by
    rintro rfl
    simp at hlen
  have hp : ∀ tsep dsep msep,
      ParseNumber kMinInt kMaxInt word tsep dsep msep = .Integer (decimal word) :=
    fun tsep dsep msep => parseNumber_digits kMinInt kMaxInt word tsep dsep msep hne hdig
      (by omega) (by omega)
  cases format <;> simp [ParseNumberFormat, hp, Handle.IsNil]

/-- A word of four characters that parses as an integer from 1582 to 2038 is a
year, and the integer is its value. -/
theorem year_of_parseNumberFormat (kMinInt kMaxInt : Int) (format : Format)
    (word : List Char) (v : Int) (hlen : word.length = 4)
    (h : ParseNumberFormat kMinInt kMaxInt word format = .Integer v)
    (hlo : 1582 ≤ v) (hhi : v ≤ 2038) : IsYear word ∧ v = decimal word := by
  have key : ∀ tsep dsep msep,
      ParseNumber kMinInt kMaxInt word tsep dsep msep = .Integer v →
      IsYear word ∧ v = decimal word := by
    intro tsep dsep msep hp
    obtain ⟨hdig, hv⟩ := parseNumber_large kMinInt kMaxInt word tsep dsep msep v
      (by omega) (by omega) hp
    exact ⟨⟨hlen, hdig, by omega, by omega⟩, hv⟩
  unfold ParseNumberFormat at h
  cases format <;> simp only at h <;> split_ifs at h <;> exact key _ _ _ h

/-- The body of the token loop makes the calls the specification gives the
token. -/
theorem annotateToken_eq (kMinInt kMaxInt : Int) (hmin : kMinInt ≤ 1582)
    (hmax : 2038 ≤ kMaxInt) (format : Format) (t : Int) (word : List Char)
    (chart : List Added) :
    AnnotateToken kMinInt kMaxInt format t word chart =
      chart ++ expected kMinInt kMaxInt format t word := by
  unfold AnnotateToken expected
  rw [digitScan_eq]
  simp only
  by_cases hy : IsYear word
  · have hp := parseNumberFormat_year kMinInt kMaxInt hmin hmax format word hy
    have hy2 := hy
    obtain ⟨hlen, hdig, hlo, hhi⟩ := hy
    have hany : word.any isDigit = true := by
      cases word with
      | nil => simp at hlen
      | cons c rest => simp [hdig c (List.mem_cons_self _ _)]
    rw [if_pos hy2, hp]
    simp only [hany, if_true, Handle.IsNil, Bool.not_false, Handle.IsInt, Handle.AsInt,
      hlen, beq_self_eq_true, Bool.and_self, ge_iff_le, Bool.and_eq_true, decide_eq_true_eq]
    rw [if_pos (by omega)]
  · rw [if_neg hy]
    by_cases hany : word.any isDigit = true
    · simp only [hany, if_true, true_and]
      cases hp : ParseNumberFormat kMinInt kMaxInt word format with
      | nil => simp [Handle.IsNil]
      | Integer v =>
        simp only [Handle.IsNil, Bool.not_false, if_true, Handle.IsInt, Handle.AsInt,
          Bool.and_true, ne_eq, reduceCtorEq, not_false_eq_true]
        by_cases hlen : word.length = 4
        · by_cases hr : 1582 ≤ v ∧ v ≤ 2038
          · exact absurd (year_of_parseNumberFormat kMinInt kMaxInt format word v hlen hp
              hr.1 hr.2).1 hy
          · simp only [hlen, beq_self_eq_true, if_true, ge_iff_le, Bool.and_eq_true,
              decide_eq_true_eq, hr, Bool.false_eq_true, if_false]
        · have : (word.length == 4) = false := by simpa using hlen
          simp only [this, Bool.false_eq_true, if_false]
      | Float m k =>
        simp [Handle.IsNil, Handle.IsInt]
      | time n =>
        simp [Handle.IsNil, Handle.IsInt]
    · simp [hany]

/-- The token loop makes, after the calls made before, the calls the
specification gives the tokens in order. -/
theorem annotateLoop_eq (kMinInt kMaxInt : Int) (hmin : kMinInt ≤ 1582)
    (hmax : 2038 ≤ kMaxInt) (format : Format) (t : Int) (words : List (List Char))
    (chart : List Added) :
    Annotate.loop kMinInt kMaxInt format t words chart =
      chart ++ expectedAll kMinInt kMaxInt format t words := by
  induction words generalizing t chart with
  | nil => simp [Annotate.loop, expectedAll]
  | cons word rest ih =>
    rw [Annotate.loop, ih, annotateToken_eq kMinInt kMaxInt hmin hmax, expectedAll,
      List.append_assoc]

/-- Every annotation the specification gives token `t` starts at `t`. -/
theorem expected_begin (kMinInt kMaxInt : Int) (format : Format) (t : Int)
    (word : List Char) (a : Added) (ha : a ∈ expected kMinInt kMaxInt format t word) :
    a.begin_ = t := by
  unfold expected at ha
  split_ifs at ha <;> simp at ha <;> subst ha <;> rfl

/-- Among the annotations of the tokens `t, t + 1, ...`, those starting at `t + i`
are the ones of the `i`-th word. -/
theorem expectedAll_filter (kMinInt kMaxInt : Int) (format : Format) (t : Int)
    (words : List (List Char)) (i : Nat) (word : List Char)
    (hw : words.get? i = some word) :
    (expectedAll kMinInt kMaxInt format t words).filter (fun a => a.begin_ = t + i) =
      expected kMinInt kMaxInt format (t + i) word := by
  have none_before : ∀ (ws : List (List Char)) (s u : Int), u < s →
      (expectedAll kMinInt kMaxInt format s ws).filter (fun a => a.begin_ = u) = [] := by
    intro ws
    induction ws with
    | nil => intro s u _; simp [expectedAll]
    | cons w rest ih =>
      intro s u hlt
      rw [expectedAll, List.filter_append, ih (s + 1) u (by omega), List.append_nil,
        List.filter_eq_nil_iff]
      intro a ha
      have := expected_begin _ _ _ _ _ a ha
      simp only [decide_eq_true_eq]
      omega
  induction words generalizing t i with
  | nil => simp at hw
  | cons w rest ih =>
    rw [expectedAll, List.filter_append]
    cases i with
    | zero =>
      simp only [List.get?_cons_zero, Option.some.injEq] at hw
      subst hw
      simp only [Nat.cast_zero, add_zero]
      rw [none_before rest (t + 1) t (by omega), List.append_nil, List.filter_eq_self]
      intro a ha
      simp only [decide_eq_true_eq]
      exact expected_begin _ _ _ _ _ a ha
    | succ i =>
      simp only [List.get?_cons_succ] at hw
      have e : t + ((i + 1 : Nat) : Int) = t + 1 + (i : Int) := by push_cast; ring
      rw [e, ih (t + 1) i hw]
      have : (expected kMinInt kMaxInt format t w).filter
          (fun a => a.begin_ = t + 1 + (i : Int)) = [] := by
        rw [List.filter_eq_nil_iff]
        intro a ha
        have := expected_begin _ _ _ _ _ a ha
        simp only [decide_eq_true_eq]
        omega
      rw [this, List.nil_append]

end NumberAnnotator

namespace NumberAnnotator

/-- C23: for every token of the chart, `Annotate` makes the calls of `chart->Add`
the specification gives it.  The token gets a year annotation (flag `SPAN_DATE`) if
and only if its word is exactly four ASCII digits with a value from 1582 to 2038,
and the annotation is then the time frame of that integer; any other word that
contains a digit and parses as a number is added with `SPAN_NUMBER` and its parsed
number; a word without a digit is not annotated at all.  (The handle integers are
taken to include the years.) -/
theorem annotate_years_and_numbers (kMinInt kMaxInt : Int) (hmin : kMinInt ≤ 1582)
    (hmax : 2038 ≤ kMaxInt) (isEnglish : Bool) (begin_ : Int)
    (words : List (List Char)) (i : Nat) (word : List Char)
    (hw : words.get? i = some word) :
    ((∃ a ∈ Annotate kMinInt kMaxInt isEnglish begin_ words,
        a.begin_ = begin_ + i ∧ a.flags = .SPAN_DATE) ↔ IsYear word) ∧
    (IsYear word →
      (Annotate kMinInt kMaxInt isEnglish begin_ words).filter
          (fun a => a.begin_ = begin_ + i) =
        [⟨begin_ + i, begin_ + i + 1, .time (.Integer (decimal word)), .SPAN_DATE⟩]) ∧
    (¬ IsYear word → word.any isDigit = true →
      ParseNumberFormat kMinInt kMaxInt word (documentFormat isEnglish) ≠ .nil →
      (Annotate kMinInt kMaxInt isEnglish begin_ words).filter
          (fun a => a.begin_ = begin_ + i) =
        [⟨begin_ + i, begin_ + i + 1,
          ParseNumberFormat kMinInt kMaxInt word (documentFormat isEnglish),
          .SPAN_NUMBER⟩]) ∧
    (word.any isDigit = false →
      (Annotate kMinInt kMaxInt isEnglish begin_ words).filter
          (fun a => a.begin_ = begin_ + i) = []) := by
  have hf : (Annotate kMinInt kMaxInt isEnglish begin_ words).filter
      (fun a => a.begin_ = begin_ + i) =
      expected kMinInt kMaxInt (documentFormat isEnglish) (begin_ + i) word := by
    unfold Annotate
    rw [annotateLoop_eq kMinInt kMaxInt hmin hmax, List.nil_append,
      expectedAll_filter _ _ _ _ _ _ _ hw]
  have hmem : ∀ a, (a ∈ Annotate kMinInt kMaxInt isEnglish begin_ words ∧
      a.begin_ = begin_ + i) ↔
      a ∈ expected kMinInt kMaxInt (documentFormat isEnglish) (begin_ + i) word := by
    intro a
    rw [← hf, List.mem_filter, decide_eq_true_eq]
  have hdigit : IsYear word → word.any isDigit = true := by
    rintro ⟨hlen, hdig, -, -⟩
    cases word with
    | nil => simp at hlen
    | cons c rest => simp [hdig c (List.mem_cons_self _ _)]
  refine ⟨⟨?_, ?_⟩, ?_, ?_, ?_⟩
  · rintro ⟨a, ha, hb, hfl⟩
    have hexp := (hmem a).mp ⟨ha, hb⟩
    unfold expected at hexp
    split_ifs at hexp with hy hn
    · exact hy
    · simp only [List.mem_singleton] at hexp
      subst hexp
      cases hfl
    · simp at hexp
  · intro hy
    refine ⟨⟨begin_ + i, begin_ + i + 1, .time (.Integer (decimal word)), .SPAN_DATE⟩,
      ?_, rfl, rfl⟩
    refine ((hmem _).mpr ?_).1
    unfold expected
    rw [if_pos hy]
    exact List.mem_singleton_self _
  · intro hy
    rw [hf]
    unfold expected
    rw [if_pos hy]
  · intro hy hany hp
    rw [hf]
    unfold expected
    rw [if_neg hy, if_pos ⟨hany, hp⟩]
  · intro hany
    rw [hf]
    unfold expected
    rw [if_neg (fun hy => by simp [hdigit hy] at hany), if_neg (by simp [hany])]

/-- C23 at a concrete document: of the tokens `In 1582 1,582 a1 3.14` in English,
starting at token 10, the second is a year, the third and the fifth are numbers
and the other two are not annotated. -/
theorem annotate_years_and_numbers_witness :
    (-(2 : Int) ^ 29 ≤ 1582 ∧ (2038 : Int) ≤ 2 ^ 29 - 1) ∧
      Annotate (-2 ^ 29) (2 ^ 29 - 1) true 10
          ["In".toList, "1582".toList, "1,582".toList, "a1".toList, "3.14".toList] =
        [⟨11, 12, .time (.Integer 1582), .SPAN_DATE⟩, ⟨12, 13, .Integer 1582, .SPAN_NUMBER⟩,
          ⟨14, 15, .Float 314 2, .SPAN_NUMBER⟩] ∧
      ((∃ a ∈ Annotate (-2 ^ 29) (2 ^ 29 - 1) true 10
          ["In".toList, "1582".toList, "1,582".toList, "a1".toList, "3.14".toList],
          a.begin_ = 10 + (1 : Nat) ∧ a.flags = .SPAN_DATE) ↔ IsYear "1582".toList) :=
  ⟨by norm_num, by decide,
   (annotate_years_and_numbers (-2 ^ 29) (2 ^ 29 - 1) (by norm_num) (by norm_num) true 10
      ["In".toList, "1582".toList, "1,582".toList, "a1".toList, "3.14".toList] 1
      "1582".toList rfl).1⟩

end NumberAnnotator

namespace SpanChart

/-! ### SpanChart: the loops of Solve -/

/-- Induction over a counting loop: a property that holds before the loop and is
carried by every round holds after it. -/
theorem foldl_range_induct {α : Type} (f : α → Nat → α) (P : Nat → α → Prop)
    (k a : Nat) (x : α) (h0 : P a x)
    (hstep : ∀ i y, a ≤ i → i < a + k → P i y → P (i + 1) (f y i)) :
    P (a + k) ((List.range' a k).foldl f x) := by
  induction k generalizing a x with
  | zero => simpa using h0
  | succ k ih =>
    rw [List.range'_succ, List.foldl_cons, show a + (k + 1) = (a + 1) + k by omega]
    exact ih (a + 1) (f x a) (hstep a x le_rfl (by omega) h0)
      (fun i y hi hlt hp => hstep i y (by omega) (by omega) hp)

/-- An assignment through `item(b, e)` leaves the other items. -/
theorem setItem_other {C : Type} (items : Items C) (b e : Nat) (it : Item C)
    (b2 e2 : Nat) (h : ¬(b2 = b ∧ e2 = e)) : setItem items b e it b2 e2 = items b2 e2 := by
  unfold setItem
  rw [if_neg h]

/-- An assignment through `item(b, e)` sets that item. -/
theorem setItem_same {C : Type} (items : Items C) (b e : Nat) (it : Item C) :
    setItem items b e it b e = it := by
  unfold setItem
  rw [if_pos ⟨rfl, rfl⟩]

/-- Considering one split changes no item but that of the span. -/
theorem relax_other {C : Type} [LinearOrder C] (add : C → C → C) (s l n : Nat)
    (items : Items C) (b e : Nat) (h : ¬(b = s ∧ e = s + l)) :
    Solve.relax add s l items n b e = items b e := by
  unfold Solve.relax
  simp only
  split_ifs
  · exact setItem_other _ _ _ _ _ _ h
  · rfl

/-- The loop over the split points of `[s, s + l)`: the other items are left, and
the span is relaxed over all its split points. -/
theorem bestSplit_spec {C : Type} [LinearOrder C] (add : C → C → C) (s l : Nat)
    (items : Items C) (hl : 1 ≤ l) :
    (∀ b e, ¬(b = s ∧ e = s + l) → Solve.bestSplit add s l items b e = items b e) ∧
      SplitState add items items (Solve.bestSplit add s l items) s l l := by
  have key := foldl_range_induct (Solve.relax add s l)
    (fun a cur => (∀ b e, ¬(b = s ∧ e = s + l) → cur b e = items b e) ∧
      SplitState add items items cur s l a) (l - 1) 1 items
    ⟨fun _ _ _ => rfl, fun n h0 h1 => by omega, le_rfl, Or.inl ⟨rfl, rfl⟩⟩
    (by
      rintro n cur hn1 hnl ⟨hframe, hle, hcost, hsplit⟩
      have hleft : cur s (s + n) = items s (s + n) := hframe _ _ (by omega)
      have hright : cur (s + n) (s + l) = items (s + n) (s + l) := hframe _ _ (by omega)
      refine ⟨fun b e hbe => ?_, ?_⟩
      · rw [relax_other add s l n cur b e hbe]
        exact hframe b e hbe
      · unfold SplitState Solve.relax
        simp only
        rw [hleft, hright]
        by_cases hlt : add (items s (s + n)).cost (items (s + n) (s + l)).cost <
            (cur s (s + l)).cost
        · rw [if_pos hlt, setItem_same]
          simp only
          refine ⟨fun m hm0 hm1 => ?_, le_trans (le_of_lt hlt) hcost,
            Or.inr ⟨lt_of_lt_of_le hlt hcost, n, by omega, by omega, rfl, rfl⟩⟩
          by_cases hmn : m = n
          · subst hmn
            exact le_rfl
          · exact le_trans (le_of_lt hlt) (hle m hm0 (by omega))
        · rw [if_neg hlt]
          refine ⟨fun m hm0 hm1 => ?_, hcost, ?_⟩
          · by_cases hmn : m = n
            · subst hmn
              exact not_lt.mp hlt
            · exact hle m hm0 (by omega)
          · rcases hsplit with h | ⟨h, m, hm0, hm1, hm2, hm3⟩
            · exact Or.inl h
            · exact Or.inr ⟨h, m, hm0, by omega, hm2, hm3⟩)
  rw [show 1 + (l - 1) = l by omega] at key
  exact key

/-- The state of a span depends on the items of the span and of its parts only. -/
theorem splitState_congr {C : Type} [LinearOrder C] (add : C → C → C)
    (parts before cur parts2 before2 cur2 : Items C) (s l a : Nat)
    (hp1 : ∀ n, 0 < n → n < a → parts2 s (s + n) = parts s (s + n))
    (hp2 : ∀ n, 0 < n → n < a → parts2 (s + n) (s + l) = parts (s + n) (s + l))
    (hb : before2 s (s + l) = before s (s + l)) (hc : cur2 s (s + l) = cur s (s + l))
    (h : SplitState add parts before cur s l a) :
    SplitState add parts2 before2 cur2 s l a := by
  obtain ⟨h1, h2, h3⟩ := h
  unfold SplitState
  rw [hb, hc]
  refine ⟨fun n hn0 hn1 => ?_, h2, ?_⟩
  · rw [hp1 n hn0 hn1, hp2 n hn0 hn1]
    exact h1 n hn0 hn1
  · rcases h3 with h | ⟨h, n, hn0, hn1, hs, hcost⟩
    · exact Or.inl h
    · exact Or.inr ⟨h, n, hn0, hn1, hs, by rw [hp1 n hn0 hn1, hp2 n hn0 hn1]; exact hcost⟩

/-- The loop over the spans of length `l` of a segment: only those spans are
assigned, and each is relaxed over all its split points. -/
theorem spans_spec {C : Type} [LinearOrder C] (add : C → C → C)
    (segment_begin segment_end l : Nat) (items : Items C) (hl : 1 ≤ l) :
    (∀ b e, ¬(segment_begin ≤ b ∧ e = b + l ∧ e ≤ segment_end) →
        Solve.spans add segment_begin segment_end l items b e = items b e) ∧
      ∀ s, segment_begin ≤ s → s + l ≤ segment_end →
        SplitState add items items (Solve.spans add segment_begin segment_end l items)
          s l l := by
  have key := foldl_range_induct (fun items s => Solve.bestSplit add s l items)
    (fun a cur =>
      (∀ b e, ¬(segment_begin ≤ b ∧ b < a ∧ e = b + l) → cur b e = items b e) ∧
      ∀ s, segment_begin ≤ s → s < a → SplitState add items items cur s l l)
    (segment_end + 1 - (segment_begin + l)) segment_begin items
    ⟨fun _ _ _ => rfl, fun s h0 h1 => by omega⟩
    (by
      rintro i cur hi0 hi1 ⟨hframe, hdone⟩
      obtain ⟨bframe, bstate⟩ := bestSplit_spec add i l cur hl
      beta_reduce
      refine ⟨fun b e hbe => ?_, fun s hs0 hs1 => ?_⟩
      · rw [bframe b e (by omega)]
        exact hframe b e (by omega)
      · by_cases hsi : s = i
        · subst hsi
          exact splitState_congr add cur cur _ items items _ s l l
            (fun n hn0 hn1 => (hframe _ _ (by omega)).symm)
            (fun n hn0 hn1 => (hframe _ _ (by omega)).symm)
            (hframe _ _ (by omega)).symm rfl bstate
        · exact splitState_congr add items items cur items items _ s l l
            (fun _ _ _ => rfl) (fun _ _ _ => rfl) rfl (bframe _ _ (by omega))
            (hdone s hs0 (by omega)))
  obtain ⟨kframe, kstate⟩ := key
  refine ⟨fun b e hbe => kframe b e (by omega), fun s hs0 hs1 => kstate s hs0 (by omega)⟩

/-- The covering of a segment: only the spans of length at least 2 inside the
segment are assigned, and each of them is solved. -/
theorem cover_spec {C : Type} [LinearOrder C] (add : C → C → C)
    (segment_begin segment_end : Nat) (items : Items C) :
    (∀ b e, ¬(segment_begin ≤ b ∧ b + 2 ≤ e ∧ e ≤ segment_end) →
        Solve.cover add segment_begin segment_end items b e = items b e) ∧
      ∀ s l, segment_begin ≤ s → 2 ≤ l → s + l ≤ segment_end →
        Solved add items (Solve.cover add segment_begin segment_end items) s l := by
  have key := foldl_range_induct
    (fun items l => Solve.spans add segment_begin segment_end l items)
    (fun a cur =>
      (∀ b e, ¬(segment_begin ≤ b ∧ b + 2 ≤ e ∧ e < b + a ∧ e ≤ segment_end) →
        cur b e = items b e) ∧
      ∀ s l, segment_begin ≤ s → 2 ≤ l → l < a → s + l ≤ segment_end →
        SplitState add cur items cur s l l)
    (segment_end - segment_begin - 1) 2 items
    ⟨fun _ _ _ => rfl, fun s l h0 h1 h2 => by omega⟩
    (by
      rintro i cur hi0 hi1 ⟨hframe, hdone⟩
      obtain ⟨sframe, sstate⟩ := spans_spec add segment_begin segment_end i cur (by omega)
      beta_reduce
      refine ⟨fun b e hbe => ?_, fun s l hs0 hl0 hl1 hs1 => ?_⟩
      · rw [sframe b e (by omega)]
        exact hframe b e (by omega)
      · by_cases hli : l = i
        · subst hli
          exact splitState_congr add cur cur _ _ items _ s l l
            (fun n hn0 hn1 => sframe _ _ (by omega))
            (fun n hn0 hn1 => sframe _ _ (by omega))
            (hframe _ _ (by omega)).symm rfl (sstate s hs0 hs1)
        · exact splitState_congr add cur items cur _ items _ s l l
            (fun n hn0 hn1 => sframe _ _ (by omega))
            (fun n hn0 hn1 => sframe _ _ (by omega))
            rfl (sframe _ _ (by omega)) (hdone s l hs0 hl0 (by omega) hs1))
  obtain ⟨kframe, kstate⟩ := key
  refine ⟨fun b e hbe => kframe b e (by omega), fun s l hs0 hl0 hs1 => ?_⟩
  exact kstate s l hs0 hl0 (by omega) hs1

end SpanChart

namespace SpanChart

/-- Marking the segment split assigns the split of `item(segment_begin, size_)`
only. -/
theorem mark_other {C : Type} (size_ segment_begin segment_end : Nat) (items : Items C)
    (b e : Nat) (h : ¬(b = segment_begin ∧ e = size_)) :
    Solve.mark size_ segment_begin segment_end items b e = items b e := by
  unfold Solve.mark
  split_ifs
  · exact setItem_other _ _ _ _ _ _ h
  · rfl

/-- The segment loop from `segment_begin` on: the spans ending at or before
`segment_begin` are left, the segments lie between `segment_begin` and `size_`, and
every span of length at least 2 inside a segment is solved. -/
theorem loop_spec {C : Type} [LinearOrder C] (add : C → C → C) (size_ maxlen_ : Nat)
    (d : Nat) : ∀ (segment_begin : Nat) (items : Items C), size_ - segment_begin = d →
      (∀ b e, e ≤ segment_begin →
        (Solve.loop add size_ maxlen_ items segment_begin).1 b e = items b e) ∧
      ∀ seg ∈ (Solve.loop add size_ maxlen_ items segment_begin).2,
        segment_begin ≤ seg.1 ∧ seg.1 < seg.2 ∧ seg.2 ≤ size_ ∧
        ∀ s l, seg.1 ≤ s → 2 ≤ l → s + l ≤ seg.2 →
          Solved add items (Solve.loop add size_ maxlen_ items segment_begin).1 s l := by
  induction d using Nat.strong_induction_on with
  | _ d ih =>
    intro segment_begin items hd
    rw [Solve.loop]
    by_cases h : segment_begin < size_
    · simp only [dif_pos h]
      generalize Solve.findEnd size_ maxlen_ items (segment_begin + 1) segment_begin
        ⟨segment_begin + 1, le_rfl, h⟩ = r
      obtain ⟨segment_end, hlo, hhi⟩ := r
      simp only
      obtain ⟨cframe, csolved⟩ := cover_spec add segment_begin segment_end items
      have mframe := mark_other size_ segment_begin segment_end
        (Solve.cover add segment_begin segment_end items)
      obtain ⟨rframe, rsegs⟩ := ih (size_ - segment_end) (by omega) segment_end
        (Solve.mark size_ segment_begin segment_end
          (Solve.cover add segment_begin segment_end items)) rfl
      have early : ∀ b e, e ≤ segment_end → ¬(b = segment_begin ∧ e = size_) →
          (Solve.loop add size_ maxlen_ (Solve.mark size_ segment_begin segment_end
            (Solve.cover add segment_begin segment_end items)) segment_end).1 b e =
          Solve.cover add segment_begin segment_end items b e := by
        intro b e he hne
        rw [rframe b e he, mframe b e hne]
      refine ⟨fun b e he => ?_, fun seg hseg => ?_⟩
      · rw [early b e (by omega) (by omega), cframe b e (by omega)]
      · rcases List.mem_cons.mp hseg with rfl | hseg
        · refine ⟨le_rfl, by simp only; omega, hhi, fun s l hs hl hsl => ?_⟩
          simp only at hs hsl
          have agree : ∀ b e, e ≤ segment_end →
              (Solve.loop add size_ maxlen_ (Solve.mark size_ segment_begin segment_end
                (Solve.cover add segment_begin segment_end items)) segment_end).1 b e =
              Solve.cover add segment_begin segment_end items b e := by
            intro b e he
            rw [rframe b e he]
            unfold Solve.mark
            split_ifs with hsz
            · exact setItem_other _ _ _ _ _ _ (by omega)
            · rfl
          exact splitState_congr add _ items _ _ items _ s l l
            (fun n hn0 hn1 => agree _ _ (by omega))
            (fun n hn0 hn1 => agree _ _ (by omega))
            rfl (agree _ _ (by omega)) (csolved s l hs hl hsl)
        · obtain ⟨h1, h2, h3, h4⟩ := rsegs seg hseg
          refine ⟨by omega, h2, h3, fun s l hs hl hsl => ?_⟩
          refine splitState_congr add _ _ _ _ items _ s l l
            (fun _ _ _ => rfl) (fun _ _ _ => rfl) ?_ rfl (h4 s l hs hl hsl)
          rw [mframe _ _ (by omega), cframe _ _ (by omega)]
    · simp [dif_neg h]

/-- C25: after `Solve`, for every segment the call went through and every span
`[s, s + l)` with `l >= 2` inside it: the cost of the span is at most the sum of
the costs of `[s, s + n)` and `[s + n, s + l)` for every split point `0 < n < l`;
it is at most the cost before `Solve`; and either cost and split are those from
before `Solve`, or the cost went down and the split field names a split point
whose sum is the cost.  So the final cost is the minimum of the cost before and
the least sum, and a split assigned by this step attains it.  The segments lie in
`0 .. size_` and are not empty. -/
theorem solve_finds_best_split {C : Type} [LinearOrder C] (add : C → C → C)
    (size_ maxlen_ : Nat) (items : Items C) (segment : Nat × Nat)
    (hseg : segment ∈ Solve.segments add size_ maxlen_ items) (s l n : Nat)
    (hs : segment.1 ≤ s) (hl : 2 ≤ l) (hsl : s + l ≤ segment.2) (hn0 : 0 < n)
    (hn : n < l) :
    segment.1 < segment.2 ∧ segment.2 ≤ size_ ∧
    (Solve add size_ maxlen_ items s (s + l)).cost ≤
      add (Solve add size_ maxlen_ items s (s + n)).cost
        (Solve add size_ maxlen_ items (s + n) (s + l)).cost ∧
    (Solve add size_ maxlen_ items s (s + l)).cost ≤ (items s (s + l)).cost ∧
    (((Solve add size_ maxlen_ items s (s + l)).cost = (items s (s + l)).cost ∧
        (Solve add size_ maxlen_ items s (s + l)).split = (items s (s + l)).split) ∨
      ((Solve add size_ maxlen_ items s (s + l)).cost < (items s (s + l)).cost ∧
        ∃ m : Nat, 0 < m ∧ m < l ∧ (Solve add size_ maxlen_ items s (s + l)).split = m ∧
          (Solve add size_ maxlen_ items s (s + l)).cost =
            add (Solve add size_ maxlen_ items s (s + m)).cost
              (Solve add size_ maxlen_ items (s + m) (s + l)).cost)) := by
  obtain ⟨-, hsegs⟩ := loop_spec add size_ maxlen_ (size_ - 0) 0 items rfl
  obtain ⟨-, h2, h3, h4⟩ := hsegs segment hseg
  obtain ⟨k1, k2, k3⟩ := h4 s l hs hl hsl
  exact ⟨h2, h3, k1 n hn0 hn, k2, k3⟩

end SpanChart

namespace SpanChart

/-- C25 at a concrete chart: three tokens with matches on `[0, 2)` and `[1, 3)`
(cost 1 each) form the one segment `[0, 3)`; the span `[0, 3)` of cost 3 is solved
to cost 2 with split 1, its parts `[0, 1)` and `[1, 3)` costing 1 each. -/
theorem solve_finds_best_split_witness :
    (0, 3) ∈ Solve.segments (fun a b : Int => a + b) 3 3 (initial [(0, 2), (1, 3)]) ∧
      (Solve (fun a b : Int => a + b) 3 3 (initial [(0, 2), (1, 3)]) 0 (0 + 3)).cost ≤
        (Solve (fun a b : Int => a + b) 3 3 (initial [(0, 2), (1, 3)]) 0 (0 + 1)).cost +
          (Solve (fun a b : Int => a + b) 3 3 (initial [(0, 2), (1, 3)])
            (0 + 1) (0 + 3)).cost ∧
      (initial [(0, 2), (1, 3)] 0 3).cost = 3 ∧
      (Solve (fun a b : Int => a + b) 3 3 (initial [(0, 2), (1, 3)]) 0 3).cost = 2 ∧
      (Solve (fun a b : Int => a + b) 3 3 (initial [(0, 2), (1, 3)]) 0 3).split = 1 := by
  have hseg : (0, 3) ∈
      Solve.segments (fun a b : Int => a + b) 3 3 (initial [(0, 2), (1, 3)]) := by
    simp [Solve.segments, Solve.loop, Solve.findEnd, Solve.lengths, initial]
  refine ⟨hseg, (solve_finds_best_split (fun a b : Int => a + b) 3 3
    (initial [(0, 2), (1, 3)]) (0, 3) hseg 0 3 1 le_rfl (by decide) le_rfl (by decide)
    (by decide)).2.2.1, by decide, ?_, ?_⟩
  · simp [Solve, Solve.loop, Solve.findEnd, Solve.lengths, Solve.cover, Solve.spans,
      Solve.bestSplit, Solve.relax, Solve.mark, setItem, initial, List.range']
  · simp [Solve, Solve.loop, Solve.findEnd, Solve.lengths, Solve.cover, Solve.spans,
      Solve.bestSplit, Solve.relax, Solve.mark, setItem, initial, List.range']

end SpanChart
